import Mathlib

/-!
# Speech runtime bridge: WAV codec, resampler and session entry points

A shallow embedding of `piper_jni.cpp` and `whisper_jni.cpp`
(`runtime-speech/src/commonMain/cpp`), followed by theorems about it.

Conventions of the embedding
* A file is the list of its bytes; `none` stands for a path that cannot be opened.
* `std::ifstream` is a position in that list together with its `eofbit` and `failbit`.
* Machine integers are `Nat`/`Int` reduced modulo `2^w` where the source wraps; `size_t` has
  64 bits and the targets are little-endian.  Signed arithmetic whose exact result does not
  fit its type wraps in two's complement, as it does on the targets (`wrap_int`).
* Memory allocation succeeds: no `std::bad_alloc` is thrown.
* Finite `float`/`double` values are the rationals they denote; every arithmetic operation is
  the exact operation followed by IEEE-754 round-to-nearest-even (`rnd`), without extended
  precision and without fused multiply-add.  Infinities and NaN are not values of the model;
  each definition says what it does where the source would produce one.
* A local that the source declares without initialiser and then fills with `file.read` keeps
  its previous bytes when the read comes up short.  Those previous bytes are the fields of
  `Junk`; nothing is assumed about them.
* A function whose loop is run on fuel, or whose source has undefined behaviour on some
  inputs, returns an `Option`; `none` never stands for a value the source returns.
* The two engines (`whisper.cpp`, Piper) are parameters.  An entry point returns its result,
  the globals it leaves, and the list of its calls into the engine and into the callback
  object.  The mutexes are not modelled: an entry point is one atomic step, except for the
  reads of the cancellation flag in the streaming entry points (`cancel_seen`).
* Log output is not modelled, nor are the stubs compiled under `SPEECHKMP_STT_ONLY`.
-/

namespace SpeechKmp

/-! ## Bytes and machine integers -/

/-- One byte of a file or of raw memory. -/
abbrev Byte := Fin 256

/-- The low eight bits of `n`. -/
def byteOf (n : Nat) : Byte := ⟨n % 256, Nat.mod_lt _ (by decide)⟩

/-- The `k` little-endian bytes holding the low `8 * k` bits of `v`
(the memory image of a `k`-byte unsigned integer on the little-endian targets). -/
def le_bytes : Nat → Nat → List Byte
  | 0, _ => []
  | k + 1, v => byteOf v :: le_bytes k (v / 256)

/-- The unsigned integer whose little-endian memory image is `bs`. -/
def le_value : List Byte → Nat
  | [] => 0
  | b :: bs => b.val + 256 * le_value bs

/-- Conversion of an integer to an unsigned `w`-bit integer (`uint16_t`, `uint32_t`). -/
def to_unsigned (w : Nat) (x : Int) : Nat := (x % (2 : Int) ^ w).toNat

/-- Reading of a `w`-bit pattern as a two's complement signed integer (`int16_t`, `int`). -/
def to_signed (w : Nat) (v : Nat) : Int :=
  if v % 2 ^ w < 2 ^ (w - 1) then ((v % 2 ^ w : Nat) : Int) else ((v % 2 ^ w : Nat) : Int) - 2 ^ w

/-- The value that a signed `w`-bit operation leaves (`int`, `int64_t`) when its exact result
is `x`: `x` itself when it fits, its two's complement wrap otherwise. -/
def wrap_int (w : Nat) (x : Int) : Int := to_signed w (to_unsigned w x)

/-- The four characters `RIFF`. -/
def tag_RIFF : List Byte := [0x52, 0x49, 0x46, 0x46]
/-- The four characters `WAVE`. -/
def tag_WAVE : List Byte := [0x57, 0x41, 0x56, 0x45]
/-- The four characters `fmt ` (with the trailing blank). -/
def tag_fmt : List Byte := [0x66, 0x6d, 0x74, 0x20]
/-- The four characters `data`. -/
def tag_data : List Byte := [0x64, 0x61, 0x74, 0x61]

/-! ## Binary floating point -/

/-- Helper of `ilog2`: at most `fuel` halvings. -/
def log2Aux : Nat → Nat → Nat
  | 0, _ => 0
  | fuel + 1, n => if n < 2 then 0 else log2Aux fuel (n / 2) + 1

/-- Floor of the binary logarithm of `n` (and `0` for `n = 0`). -/
def ilog2 (n : Nat) : Nat := log2Aux n n

/-- The binary exponent of the positive rational `a / b`: the `e` with
`2 ^ e ≤ a / b < 2 ^ (e + 1)`. -/
def bin_exp (a b : Nat) : Int :=
  let d : Int := (ilog2 a : Int) - (ilog2 b : Int)
  if a * 2 ^ (-d).toNat < b * 2 ^ d.toNat then d - 1 else d

/-- The integer nearest to `num / den`, a tie going to the even one. -/
def rne_div (num den : Nat) : Nat :=
  let q := num / den
  let r := num % den
  if 2 * r < den then q else if den < 2 * r then q + 1 else if q % 2 = 0 then q else q + 1

/-- Round the positive rational `a / b` to the nearest integer multiple of `2 ^ (e - p + 1)`,
ties to the even multiple, where `e` is the larger of `emin` and the binary exponent of `a / b`:
the IEEE-754 rounding to a format of precision `p` and least normal exponent `emin`
(the exponent is not bounded above: overflow to infinity is not modelled). -/
def rnd_pos (p : Nat) (emin : Int) (a b : Nat) : ℚ :=
  let e : Int := max (bin_exp a b) emin
  let sh : Int := (p : Int) - 1 - e
  ((rne_div (a * 2 ^ sh.toNat) (b * 2 ^ (-sh).toNat) * 2 ^ (-sh).toNat : Nat) : ℚ)
    / ((2 ^ sh.toNat : Nat) : ℚ)

/-- IEEE-754 round-to-nearest-even of the rational `x` to precision `p` with least normal
exponent `emin`. -/
def rnd (p : Nat) (emin : Int) (x : ℚ) : ℚ :=
  if x = 0 then 0
  else if x < 0 then -rnd_pos p emin x.num.natAbs x.den
  else rnd_pos p emin x.num.natAbs x.den

/-- Rounding to `float` (binary32). -/
def f32 (x : ℚ) : ℚ := rnd 24 (-126) x

/-- Rounding to `double` (binary64). -/
def f64 (x : ℚ) : ℚ := rnd 53 (-1022) x

/-- Truncation toward zero. -/
def trunc (x : ℚ) : Int := if x < 0 then -⌊-x⌋ else ⌊x⌋

/-- The conversion `static_cast<size_t>(x)` of a `double` (64-bit `size_t`): the value
truncated toward zero, and `none` (undefined behaviour) when that is not a `size_t`. -/
def to_size_t (x : ℚ) : Option Nat :=
  if 0 ≤ trunc x ∧ trunc x < 2 ^ 64 then some (trunc x).toNat else none

/-! ## Input file stream -/

/-- State of a `std::ifstream` opened in binary mode on a file with content `data`. -/
structure IfStream where
  /-- The content of the file. -/
  data : List Byte
  /-- The read position; `seekg` may move it beyond the end. -/
  pos : Nat
  /-- The `eofbit` of the stream. -/
  eofbit : Bool
  /-- The `failbit` of the stream. -/
  failbit : Bool
deriving DecidableEq, Repr

namespace IfStream

/-- A stream freshly opened on `data`. -/
def ofFile (data : List Byte) : IfStream := ⟨data, 0, false, false⟩

/-- The member `good()`: no state bit is set. -/
def good (s : IfStream) : Bool := !s.eofbit && !s.failbit

/-- The number of bytes that `read(buf, n)` stores through `buf`: the bytes available, at
most `n`, on a good stream, and none on a stream that is not good. -/
def stored (s : IfStream) (n : Nat) : Nat :=
  if s.good then ((s.data.drop s.pos).take n).length else 0

/-- The member `read(buf, n)` on a buffer whose present content is `buf` and which has room
for the bytes stored (`s.stored n ≤ buf.length`).  With less room the source writes beyond the
buffer, which is undefined: a caller whose buffer can be too small tests `stored` first and
does not get here (see `scan_chunk`).
On a stream that is not good nothing is stored and `failbit` is set.  Otherwise the bytes
available, at most `n`, are stored at the front of the buffer, and when they are fewer than
`n` both `eofbit` and `failbit` are set; the rest of the buffer keeps its content. -/
def read (s : IfStream) (n : Nat) (buf : List Byte) : IfStream × List Byte :=
  if s.good then
    let got := (s.data.drop s.pos).take n
    let s1 : IfStream := { s with pos := s.pos + got.length }
    let s2 : IfStream := if got.length < n then { s1 with eofbit := true, failbit := true } else s1
    (s2, got ++ buf.drop got.length)
  else
    ({ s with failbit := true }, buf)

/-- The member `seekg(off, std::ios::cur)` for `off ≥ 0`: clears `eofbit`, then moves the
position unless `failbit` is set.  Seeking beyond the end of the file succeeds. -/
def seekg_cur (s : IfStream) (off : Nat) : IfStream :=
  if s.failbit then { s with eofbit := false }
  else { s with eofbit := false, pos := s.pos + off }

end IfStream

/-! ## WAV codec -/

/-- The memory image of a `std::vector<int16_t>`: two little-endian bytes per sample. -/
def pcm_bytes : List Int → List Byte
  | [] => []
  | x :: xs => le_bytes 2 (to_unsigned 16 x) ++ pcm_bytes xs

/-- The function `write_wav_file` of `piper_jni.cpp`.  `is_open` tells whether the output path
could be opened; the result is `none` when the function returns `false` and otherwise the
content of the file it leaves (every `file.write` is taken to succeed, as the source does). -/
def write_wav_file (is_open : Bool) (samples : List Int) (sample_rate : Int) :
    Option (List Byte) :=
  if !is_open then none
  else
    let data_size : Nat := (samples.length * 2) % 2 ^ 32
    let file_size : Nat := (36 + data_size) % 2 ^ 32
    let fmt_size : Nat := 16
    let audio_format : Nat := 1
    let num_channels : Nat := 1
    let sr : Nat := to_unsigned 32 sample_rate
    let byte_rate : Nat := to_unsigned 32 (sample_rate * (num_channels : Int) * 2)
    let block_align : Nat := (num_channels * 2) % 2 ^ 16
    let bits_per_sample : Nat := 16
    some (tag_RIFF ++ le_bytes 4 file_size ++ tag_WAVE
      ++ tag_fmt ++ le_bytes 4 fmt_size ++ le_bytes 2 audio_format ++ le_bytes 2 num_channels
      ++ le_bytes 4 sr ++ le_bytes 4 byte_rate ++ le_bytes 2 block_align
      ++ le_bytes 2 bits_per_sample
      ++ tag_data ++ le_bytes 4 data_size ++ (pcm_bytes samples).take data_size)

/-- Values left by earlier code in the storage of the locals that `read_wav_file` declares
without initialiser (`riff`, `wave`, `chunk_id`, `chunk_size`, `audio_format`, `num_channels`,
`sr`), each given as the unsigned integer its bytes spell little-endian.  A read that comes up
short leaves the tail of the local at this value.  At most one pass of the chunk loop can read
short, because the loop ends after it, so one value per local covers every pass. -/
structure Junk where
  riff : Nat
  wave : Nat
  chunk_id : Nat
  chunk_size : Nat
  audio_format : Nat
  num_channels : Nat
  sr : Nat
deriving DecidableEq, Repr

/-- The conversion `static_cast<float>(pcm[i]) / 32768.0f`. -/
def pcm_to_float (x : Int) : ℚ := f32 (f32 (x : ℚ) / 32768)

/-- The `int16_t` elements of a buffer with the given bytes. -/
def pcm_of_bytes : List Byte → List Int
  | b0 :: b1 :: rest => to_signed 16 (le_value [b0, b1]) :: pcm_of_bytes rest
  | _ => []

/-- The variables of `read_wav_file` that live across passes of its chunk loop. -/
structure WavScan where
  file : IfStream
  samples : List ℚ
  sample_rate : Int
deriving DecidableEq

/-- One pass through the body of the loop `while (file.good())` of `read_wav_file`: the state
it leaves, and whether it left through `break`.  The vector `pcm` has `chunk_size / 2`
elements, that is room for `2 * (chunk_size / 2)` bytes, and `file.read` is asked for
`chunk_size` bytes: when it stores more than the vector holds (an odd `chunk_size` whose bytes
are all in the file) the source writes beyond the vector, and the pass is `none`. -/
def scan_chunk (junk : Junk) (st : WavScan) : Option (WavScan × Bool) :=
  let (f1, chunk_id) := st.file.read 4 (le_bytes 4 junk.chunk_id)
  let (f2, size_bytes) := f1.read 4 (le_bytes 4 junk.chunk_size)
  let chunk_size : Nat := le_value size_bytes
  if chunk_id = tag_fmt then
    let (f3, _) := f2.read 2 (le_bytes 2 junk.audio_format)
    let (f4, _) := f3.read 2 (le_bytes 2 junk.num_channels)
    let (f5, sr) := f4.read 4 (le_bytes 4 junk.sr)
    let f6 := f5.seekg_cur ((chunk_size + 2 ^ 32 - 8) % 2 ^ 32)
    some (⟨f6, st.samples, to_signed 32 (le_value sr)⟩, false)
  else if chunk_id = tag_data then
    if 2 * (chunk_size / 2) < f2.stored chunk_size then none
    else
      let (f3, pcm) := f2.read chunk_size (List.replicate (2 * (chunk_size / 2)) 0)
      some (⟨f3, (pcm_of_bytes pcm).map pcm_to_float, st.sample_rate⟩, true)
  else
    some (⟨f2.seekg_cur chunk_size, st.samples, st.sample_rate⟩, false)

/-- The loop `while (file.good())` of `read_wav_file`, run for at most `fuel` passes;
`none` when a pass is undefined or the passes allowed do not reach the end of the loop. -/
def scan_chunks (junk : Junk) : Nat → WavScan → Option WavScan
  | 0, _ => none
  | fuel + 1, st =>
    if st.file.good then
      match scan_chunk junk st with
      | none => none
      | some (st1, true) => some st1
      | some (st1, false) => scan_chunks junk fuel st1
    else some st

/-- The function `read_wav_file` of `whisper_jni.cpp`.  `file` is the content of the file at
`path` (`none` when it cannot be opened), `samples` and `sample_rate` are the values the two
reference parameters hold at the call.  The result is the returned `bool` with the values the
reference parameters hold at the return; it is `none` where a pass of the chunk loop stores
beyond the vector `pcm` (see `scan_chunk`), and the fuel `data.length + 2` is never used up
(`read_wav_file_none`). -/
def read_wav_file (junk : Junk) (file : Option (List Byte)) (samples : List ℚ)
    (sample_rate : Int) : Option (Bool × List ℚ × Int) :=
  match file with
  | none => some (false, samples, sample_rate)
  | some data =>
    let (f1, riff) := (IfStream.ofFile data).read 4 (le_bytes 4 junk.riff)
    if riff ≠ tag_RIFF then some (false, samples, sample_rate)
    else
      let f2 := f1.seekg_cur 4
      let (f3, wave) := f2.read 4 (le_bytes 4 junk.wave)
      if wave ≠ tag_WAVE then some (false, samples, sample_rate)
      else
        match scan_chunks junk (data.length + 2) ⟨f3, samples, sample_rate⟩ with
        | none => none
        | some st => some (!st.samples.isEmpty, st.samples, st.sample_rate)

/-- The container layout that the spec describes: the 12-byte `RIFF`/size/`WAVE` header, a
16-byte `fmt ` subchunk with the six fields given, and a `data` subchunk holding `payload`. -/
def wav_layout (audio_format num_channels : Nat) (sample_rate : Int)
    (byte_rate block_align bits_per_sample : Nat) (payload : List Byte) : List Byte :=
  tag_RIFF ++ le_bytes 4 (36 + payload.length) ++ tag_WAVE
    ++ tag_fmt ++ le_bytes 4 16 ++ le_bytes 2 audio_format ++ le_bytes 2 num_channels
    ++ le_bytes 4 (to_unsigned 32 sample_rate) ++ le_bytes 4 byte_rate ++ le_bytes 2 block_align
    ++ le_bytes 2 bits_per_sample
    ++ tag_data ++ le_bytes 4 payload.length ++ payload

/-! ## Resampler -/

/-- Modelled from the spec: the constant `WHISPER_SAMPLE_RATE` of `whisper.h`, a header that is
not among the sources; the spec fixes the rate the transcription engine requires at 16 kHz. -/
def WHISPER_SAMPLE_RATE : Int := 16000

/-- The body of the interpolation loop of `resample_to_16k` at output index `i`: the value
stored in `output[i]`, and `none` where the source would convert a `double` that is no `size_t`
or index `input` outside its bounds.  Index arithmetic is that of a 64-bit `size_t`. -/
def resample_sample (input : List ℚ) (ratio : ℚ) (i : Nat) : Option ℚ :=
  let src_idx : ℚ := f64 (f64 (i : ℚ) / ratio)
  match to_size_t src_idx with
  | none => none
  | some idx0 =>
    let idx1 : Nat := min ((idx0 + 1) % 2 ^ 64) ((input.length + 2 ^ 64 - 1) % 2 ^ 64)
    let frac : ℚ := f64 (src_idx - f64 (idx0 : ℚ))
    match input[idx0]?, input[idx1]? with
    | some x0, some x1 => some (f32 (f64 (f64 (x0 * f64 (1 - frac)) + f64 (x1 * frac))))
    | _, _ => none

/-- The interpolation loop of `resample_to_16k` from index `i` for `count` indices. -/
def resample_loop (input : List ℚ) (ratio : ℚ) : Nat → Nat → Option (List ℚ)
  | 0, _ => some []
  | count + 1, i =>
    match resample_sample input ratio i, resample_loop input ratio count (i + 1) with
    | some y, some ys => some (y :: ys)
    | _, _ => none

/-- The function `resample_to_16k` of `whisper_jni.cpp`: the returned `bool` with the content
of `output` at the return.  `none` stands for undefined behaviour: a rate of zero (the ratio is
then an infinity), a length that is no `size_t`, an index outside `input`. -/
def resample_to_16k (input : List ℚ) (input_rate : Int) : Option (Bool × List ℚ) :=
  if input_rate = WHISPER_SAMPLE_RATE then some (true, input)
  else if input_rate = 0 then none
  else
    let ratio : ℚ := f64 ((WHISPER_SAMPLE_RATE : ℚ) / (input_rate : ℚ))
    match to_size_t (f64 (f64 (input.length : ℚ) * ratio)) with
    | none => none
    | some output_size =>
      match resample_loop input ratio output_size 0 with
      | none => none
      | some output => some (true, output)

/-! ## Marshalling -/

/-- The helper `jstring_to_string` of both bridges: a null `jstring` gives the empty string. -/
def jstring_to_string (jstr : Option String) : String :=
  match jstr with
  | none => ""
  | some chars => chars

/-- The test `g_cancel_requested` read for the `k`-th time (counting from zero) after the reset
at the entry of a streaming operation.  `cancel` is `none` when no other thread calls the
cancel entry point before the operation returns, and `some a` when such a call lands after
exactly `a` reads: the flag is only ever set by that call, so once read as true it stays true. -/
def cancel_seen (cancel : Option Nat) (k : Nat) : Bool :=
  match cancel with
  | none => false
  | some a => decide (a ≤ k)

/-! ## Speech-to-text session (`whisper_jni.cpp`) -/

/-- The fields of `whisper_full_params` that the bridge sets; `other` stands for the rest of the
structure, which comes from `whisper_full_default_params` unchanged. -/
structure WhisperParams where
  language : String
  translate : Bool
  n_threads : Int
  no_timestamps : Bool
  print_special : Bool
  print_progress : Bool
  print_realtime : Bool
  print_timestamps : Bool
  single_segment : Bool
  no_context : Bool
  audio_ctx : Int
  other : Nat
deriving DecidableEq, Repr

/-- What the accessors `whisper_full_get_segment_text`, `_t0` and `_t1` return for one segment:
the text pointer (`none` when null) and the two times in units of 10 ms. -/
structure WhisperSegment where
  text : Option String
  t0 : Int
  t1 : Int
deriving DecidableEq, Repr

/-- The transcription engine `whisper.cpp`, which is outside the sources and is taken as a
parameter.  `Ctx` is the state of a `whisper_context`. -/
structure Whisper (Ctx : Type) where
  /-- The call `whisper_init_from_file_with_params` with the model path and the `use_gpu`
  field of the context parameters: the new context, or `none` for a null pointer. -/
  init_from_file_with_params : String → Bool → Option Ctx
  /-- The value of `whisper_full_default_params(WHISPER_SAMPLING_GREEDY)`. -/
  full_default_params : WhisperParams
  /-- The call `whisper_full`: the returned status and the state of the context after it. -/
  full : Ctx → WhisperParams → List ℚ → Int × Ctx
  /-- The segments that `whisper_full_n_segments` counts and the accessors read. -/
  segments : Ctx → List WhisperSegment

/-- The globals of `whisper_jni.cpp`. -/
structure SttState (Ctx : Type) where
  g_ctx : Option Ctx
  g_params : WhisperParams
  g_cancel_requested : Bool
  g_language : String
  g_translate : Bool
  g_max_threads : Int
  g_use_gpu : Bool
  g_use_vad : Bool
  g_single_segment : Bool
  g_no_context : Bool
deriving DecidableEq

/-- The object `com.speechkmp.Segment` built by the bridge. -/
structure Segment where
  text : String
  startMs : Int
  endMs : Int
deriving DecidableEq, Repr

/-- The object `com.speechkmp.TranscriptionResult` built by the bridge. -/
structure TranscriptionResult where
  text : String
  segments : List Segment
  language : String
  durationMs : Int
deriving DecidableEq, Repr

/-- What an entry point of `whisper_jni.cpp` does to the world outside its globals, in order:
calls into the engine and calls of the methods of the callback object. -/
inductive SttEvent (Ctx : Type) where
  | whisper_free (ctx : Ctx)
  | whisper_init_from_file_with_params (path : String) (use_gpu : Bool)
  | whisper_full (ctx : Ctx) (params : WhisperParams) (samples : List ℚ)
  | whisper_print_timings (ctx : Ctx)
  | onPartialResult (text : String)
  | onFinalResult (result : TranscriptionResult)
  | onError (message : String)
deriving DecidableEq

/-- Whether an event is a call into the engine. -/
def SttEvent.is_engine_call {Ctx : Type} : SttEvent Ctx → Bool
  | .whisper_free _ => true
  | .whisper_init_from_file_with_params _ _ => true
  | .whisper_full _ _ _ => true
  | .whisper_print_timings _ => true
  | _ => false

/-- What a file-based entry point finds outside the process: the content of each path
(`none` when it cannot be opened), the prior content of the uninitialised locals of
`read_wav_file`, and that of the caller's uninitialised `int sample_rate`. -/
structure SttEnv where
  fs : String → Option (List Byte)
  junk : Junk
  sample_rate : Int

/-- The entry point `nativeInitStt`: returned `jboolean`, globals after, events. -/
def nativeInitStt {Ctx : Type} (W : Whisper Ctx) (st : SttState Ctx)
    (modelPath language : Option String) (translate : Bool) (maxThreads : Int)
    (useGpu useVad singleSegment noContext : Bool) :
    Bool × SttState Ctx × List (SttEvent Ctx) :=
  -- Shutdown existing context if any
  let freed : List (SttEvent Ctx) :=
    match st.g_ctx with
    | some ctx => [SttEvent.whisper_free ctx]
    | none => []
  let path := jstring_to_string modelPath
  let st1 : SttState Ctx :=
    { st with
      g_ctx := none
      g_language := jstring_to_string language
      g_translate := translate
      g_max_threads := maxThreads
      g_use_gpu := useGpu
      g_use_vad := useVad
      g_single_segment := singleSegment
      g_no_context := noContext }
  -- Load model
  let events := freed ++ [SttEvent.whisper_init_from_file_with_params path st1.g_use_gpu]
  match W.init_from_file_with_params path st1.g_use_gpu with
  | none => (false, st1, events)
  | some ctx =>
    -- Setup default full params
    let params : WhisperParams :=
      { W.full_default_params with
        language := st1.g_language
        translate := st1.g_translate
        n_threads := st1.g_max_threads
        no_timestamps := false
        print_special := false
        print_progress := false
        print_realtime := false
        print_timestamps := false
        single_segment := st1.g_single_segment
        no_context := st1.g_no_context }
    (true, { st1 with g_ctx := some ctx, g_params := params }, events)

/-- The loop of `nativeTranscribe` and `nativeTranscribeAudio` that concatenates the texts of
the segments, skipping null texts. -/
def collect_text : List WhisperSegment → String → String
  | [], result => result
  | seg :: rest, result =>
    match seg.text with
    | some text => collect_text rest (result ++ text)
    | none => collect_text rest result

/-- The entry point `nativeTranscribe`: returned string, globals after, events.  `none` where
`read_wav_file` or `resample_to_16k` has no defined result. -/
def nativeTranscribe {Ctx : Type} (W : Whisper Ctx) (env : SttEnv) (st : SttState Ctx)
    (audioPath : Option String) : Option (String × SttState Ctx × List (SttEvent Ctx)) :=
  match st.g_ctx with
  | none => some ("", st, [])
  | some ctx =>
    let st1 : SttState Ctx := { st with g_cancel_requested := false }
    let path := jstring_to_string audioPath
    -- Read WAV file
    match read_wav_file env.junk (env.fs path) [] env.sample_rate with
    | none => none
    | some (false, _, _) => some ("", st1, [])
    | some (true, samples, sample_rate) =>
      -- Resample to 16kHz if needed
      match resample_to_16k samples sample_rate with
      | none => none
      | some (false, _) => some ("", st1, [])
      | some (true, samples_16k) =>
        -- Run inference
        let run := W.full ctx st1.g_params samples_16k
        let st2 : SttState Ctx := { st1 with g_ctx := some run.2 }
        let events := [SttEvent.whisper_full ctx st1.g_params samples_16k]
        if run.1 ≠ 0 then some ("", st2, events)
        else some (collect_text (W.segments run.2) "", st2, events)

/-- The result `TranscriptionResult("", [], "en", 0)` that `nativeTranscribeDetailed` returns on
every failure. -/
def empty_result : TranscriptionResult := ⟨"", [], "en", 0⟩

/-- The segment loop of `nativeTranscribeDetailed`: full text and segment list.  The times are
computed as `int64_t t0 = whisper_full_get_segment_t0(g_ctx, i) * 10`, in `int64_t`. -/
def collect_segments : List WhisperSegment → String → List Segment → String × List Segment
  | [], fullText, segmentList => (fullText, segmentList)
  | seg :: rest, fullText, segmentList =>
    match seg.text with
    | some text =>
      collect_segments rest (fullText ++ text)
        (segmentList ++ [⟨text, wrap_int 64 (seg.t0 * 10), wrap_int 64 (seg.t1 * 10)⟩])
    | none => collect_segments rest fullText segmentList

/-- The expression `size * 1000 / WHISPER_SAMPLE_RATE` on a `size_t` (64 bits). -/
def duration_ms (size : Nat) : Int := ((size * 1000 % 2 ^ 64 / WHISPER_SAMPLE_RATE.toNat : Nat) : Int)

/-- The entry point `nativeTranscribeDetailed`: returned object, globals after, events. -/
def nativeTranscribeDetailed {Ctx : Type} (W : Whisper Ctx) (env : SttEnv) (st : SttState Ctx)
    (audioPath : Option String) :
    Option (TranscriptionResult × SttState Ctx × List (SttEvent Ctx)) :=
  match st.g_ctx with
  | none => some (empty_result, st, [])
  | some ctx =>
    let st1 : SttState Ctx := { st with g_cancel_requested := false }
    let path := jstring_to_string audioPath
    match read_wav_file env.junk (env.fs path) [] env.sample_rate with
    | none => none
    | some (false, _, _) => some (empty_result, st1, [])
    | some (true, samples, sample_rate) =>
      match resample_to_16k samples sample_rate with
      | none => none
      | some (_, samples_16k) =>
        let run := W.full ctx st1.g_params samples_16k
        let st2 : SttState Ctx := { st1 with g_ctx := some run.2 }
        let events := [SttEvent.whisper_full ctx st1.g_params samples_16k]
        if run.1 ≠ 0 then some (empty_result, st2, events)
        else
          let built := collect_segments (W.segments run.2) "" []
          some (⟨built.1, built.2, st2.g_language, duration_ms samples_16k.length⟩, st2, events)

/-- The entry point `nativeTranscribeAudio`: returned string, globals after, events.  The
sum `static_cast<int>(audio.size()) + 319` is taken in `int`. -/
def nativeTranscribeAudio {Ctx : Type} (W : Whisper Ctx) (st : SttState Ctx)
    (samples : List ℚ) : String × SttState Ctx × List (SttEvent Ctx) :=
  match st.g_ctx with
  | none => ("", st, [])
  | some ctx =>
    let st1 : SttState Ctx := { st with g_cancel_requested := false }
    let audio := samples
    let auto_ctx : Int := Int.tdiv (wrap_int 32 (to_signed 32 audio.length + 319)) 320
    let params : WhisperParams := { st1.g_params with audio_ctx := min auto_ctx 1500 }
    let run := W.full ctx params audio
    let st2 : SttState Ctx := { st1 with g_ctx := some run.2 }
    if run.1 ≠ 0 then ("", st2, [SttEvent.whisper_full ctx params audio])
    else
      (collect_text (W.segments run.2) "", st2,
        [SttEvent.whisper_full ctx params audio, SttEvent.whisper_print_timings run.2])

/-- The segment loop of `nativeTranscribeStream` from the point where `k` tests of the
cancellation flag have been made, followed by the code after the loop: the callbacks made.
The times are computed in `int64_t`, as in `collect_segments`. -/
def stream_segments {Ctx : Type} (cancel : Option Nat) (language : String) (size : Nat) :
    List WhisperSegment → String → List Segment → Nat → List (SttEvent Ctx)
  | [], fullText, segmentList, _ =>
    [SttEvent.onFinalResult ⟨fullText, segmentList, language, duration_ms size⟩]
  | seg :: rest, fullText, segmentList, k =>
    if cancel_seen cancel k then [SttEvent.onError "Cancelled"]
    else
      match seg.text with
      | some text =>
        SttEvent.onPartialResult (fullText ++ text) ::
          stream_segments cancel language size rest (fullText ++ text)
            (segmentList ++ [⟨text, wrap_int 64 (seg.t0 * 10), wrap_int 64 (seg.t1 * 10)⟩])
            (k + 1)
      | none => stream_segments cancel language size rest fullText segmentList (k + 1)

/-- The entry point `nativeTranscribeStream`: globals after and events.  `cancel` tells when a
cancel call of another thread lands (see `cancel_seen`). -/
def nativeTranscribeStream {Ctx : Type} (W : Whisper Ctx) (cancel : Option Nat)
    (st : SttState Ctx) (samples : List ℚ) : SttState Ctx × List (SttEvent Ctx) :=
  match st.g_ctx with
  | none =>
    ({ st with g_cancel_requested := st.g_cancel_requested || cancel.isSome },
      [SttEvent.onError "Whisper not initialized"])
  | some ctx =>
    let st1 : SttState Ctx := { st with g_cancel_requested := cancel.isSome }
    let audio := samples
    let params := st1.g_params
    let run := W.full ctx params audio
    let st2 : SttState Ctx := { st1 with g_ctx := some run.2 }
    if run.1 ≠ 0 then
      (st2, [SttEvent.whisper_full ctx params audio, SttEvent.onError "Transcription failed"])
    else
      (st2, SttEvent.whisper_full ctx params audio ::
        stream_segments cancel st2.g_language audio.length (W.segments run.2) "" [] 0)

/-- The entry point `nativeCancelStt`. -/
def nativeCancelStt {Ctx : Type} (st : SttState Ctx) : SttState Ctx :=
  { st with g_cancel_requested := true }

/-- The entry point `nativeShutdownStt`: globals after, events. -/
def nativeShutdownStt {Ctx : Type} (st : SttState Ctx) : SttState Ctx × List (SttEvent Ctx) :=
  match st.g_ctx with
  | some ctx => ({ st with g_ctx := none }, [SttEvent.whisper_free ctx])
  | none => (st, [])

/-! ## Text-to-speech session (`piper_jni.cpp`) -/

/-- The fields of `piper::SynthesisConfig` that the bridge reads or writes. -/
structure SynthesisConfig where
  lengthScale : ℚ
  sentenceSilenceSeconds : ℚ
  sampleRate : Int
deriving DecidableEq, Repr

/-- The object `piper::Voice`: its synthesis configuration, and the rest of it (`V`), which
only the engine reads. -/
structure Voice (V : Type) where
  synthesisConfig : SynthesisConfig
  model : V
deriving DecidableEq

/-- The object `piper::PiperConfig`: the data path the bridge sets, and the rest of it (`C`),
which only the engine reads. -/
structure PiperConfig (C : Type) where
  eSpeakDataPath : String
  rest : C
deriving DecidableEq

/-- One run of `piper::textToAudio`: how many times the engine calls the progress callback
when no callback throws, and how the run ends then: with a `std::exception` carrying the
message given, or with the samples left in the audio buffer. -/
structure TextToAudioRun where
  callbacks : Nat
  outcome : Except String (List Int)

/-- The synthesis engine Piper, which is outside the sources and is taken as a parameter.
A call that can throw returns the message of the `std::exception` it throws, if any, with the
objects it was given by reference as it leaves them. -/
structure Piper (C V : Type) where
  /-- The call `piper::initialize(config)`. -/
  piperInitialize : PiperConfig C → Option String × PiperConfig C
  /-- The call `piper::terminate(config)`. -/
  terminate : PiperConfig C → PiperConfig C
  /-- The call `piper::loadVoice(config, model, configPath, voice, speakerId, false)`. -/
  loadVoice : PiperConfig C → String → String → Voice V → Option Int →
    Option String × PiperConfig C × Voice V
  /-- The call `piper::textToAudio(config, voice, text, audio, result, callback)`. -/
  textToAudio : PiperConfig C → Voice V → String → TextToAudioRun

/-- The globals of `piper_jni.cpp`. -/
structure TtsState (C V : Type) where
  g_config : PiperConfig C
  g_voice : Voice V
  g_initialized : Bool
  g_cancel_requested : Bool
  g_speaker_id : Int
  g_speech_rate : ℚ
  g_sample_rate : Int
  g_sentence_silence : ℚ
deriving DecidableEq

/-- What an entry point of `piper_jni.cpp` does to the world outside its globals, in order:
calls into the engine, calls of the methods of the callback object, and files written. -/
inductive TtsEvent where
  | terminate
  | piperInitialize
  | loadVoice (model config : String) (speakerId : Option Int)
  | textToAudio (text : String)
  | file_written (path : String) (content : List Byte)
  | onAudioChunk (samples : List Int)
  | onComplete
  | onError (message : String)
deriving DecidableEq, Repr

/-- Whether an event is a call into the engine. -/
def TtsEvent.is_engine_call : TtsEvent → Bool
  | .terminate => true
  | .piperInitialize => true
  | .loadVoice _ _ _ => true
  | .textToAudio _ => true
  | _ => false

/-- The entry point `nativeInitTts`: returned `jboolean`, globals after, events.  The quotient
`1.0f / speechRate` is an infinity for a rate of zero (and for a rate so small that the
quotient overflows); the rationals have none, and for a rate of zero the field then holds
`f32 (1 / 0)`, which is `0`. -/
def nativeInitTts {C V : Type} (P : Piper C V) (st : TtsState C V)
    (modelPath configPath espeakDataPath : Option String) (speakerId : Int) (speechRate : ℚ)
    (sampleRate : Int) (sentenceSilence : ℚ) : Bool × TtsState C V × List TtsEvent :=
  -- Cleanup existing state
  let cleaned : TtsState C V × List TtsEvent :=
    if st.g_initialized then
      ({ st with g_config := P.terminate st.g_config, g_initialized := false },
        [TtsEvent.terminate])
    else (st, [])
  let model := jstring_to_string modelPath
  let config := jstring_to_string configPath
  let espeakData := jstring_to_string espeakDataPath
  let st1 : TtsState C V :=
    { cleaned.1 with
      g_speaker_id := speakerId
      g_speech_rate := speechRate
      g_sample_rate := sampleRate
      g_sentence_silence := sentenceSilence }
  -- Set espeak-ng data path, initialize piper
  let init := P.piperInitialize { st1.g_config with eSpeakDataPath := espeakData }
  match init.1 with
  | some _ => (false, { st1 with g_config := init.2 }, cleaned.2 ++ [TtsEvent.piperInitialize])
  | none =>
    let sid : Option Int := if 0 ≤ speakerId then some speakerId else none
    -- Load voice model
    let load := P.loadVoice init.2 model config st1.g_voice sid
    let events := cleaned.2 ++ [TtsEvent.piperInitialize, TtsEvent.loadVoice model config sid]
    match load.1 with
    | some _ => (false, { st1 with g_config := load.2.1, g_voice := load.2.2 }, events)
    | none =>
      -- Apply configurations
      let voice := load.2.2
      let scaled : SynthesisConfig :=
        if speechRate ≠ 1 then
          { voice.synthesisConfig with lengthScale := f32 (1 / speechRate) }
        else voice.synthesisConfig
      let configured : SynthesisConfig := { scaled with sentenceSilenceSeconds := sentenceSilence }
      (true,
        { st1 with
          g_config := load.2.1
          g_voice := { voice with synthesisConfig := configured }
          g_initialized := true },
        events)

/-- The entry point `nativeSynthesize`: returned sample array, globals after, events. -/
def nativeSynthesize {C V : Type} (P : Piper C V) (st : TtsState C V) (text : Option String) :
    List Int × TtsState C V × List TtsEvent :=
  if !st.g_initialized then ([], st, [])
  else
    let st1 : TtsState C V := { st with g_cancel_requested := false }
    let input := jstring_to_string text
    -- Empty callback for non-streaming synthesis
    match (P.textToAudio st1.g_config st1.g_voice input).outcome with
    | .error _ => ([], st1, [TtsEvent.textToAudio input])
    | .ok audio =>
      if audio.isEmpty then ([], st1, [TtsEvent.textToAudio input])
      else (audio, st1, [TtsEvent.textToAudio input])

/-- The entry point `nativeSynthesizeToFile`: returned `jboolean`, globals after, events.
`can_open` tells which output paths can be opened for writing. -/
def nativeSynthesizeToFile {C V : Type} (P : Piper C V) (can_open : String → Bool)
    (st : TtsState C V) (text outputPath : Option String) :
    Bool × TtsState C V × List TtsEvent :=
  if !st.g_initialized then (false, st, [])
  else
    let st1 : TtsState C V := { st with g_cancel_requested := false }
    let input := jstring_to_string text
    let path := jstring_to_string outputPath
    match (P.textToAudio st1.g_config st1.g_voice input).outcome with
    | .error _ => (false, st1, [TtsEvent.textToAudio input])
    | .ok audio =>
      if audio.isEmpty then (false, st1, [TtsEvent.textToAudio input])
      else
        -- Get sample rate from voice config
        let sr := st1.g_voice.synthesisConfig.sampleRate
        match write_wav_file (can_open path) audio sr with
        | none => (false, st1, [TtsEvent.textToAudio input])
        | some content =>
          (true, st1, [TtsEvent.textToAudio input, TtsEvent.file_written path content])

/-- The constant `CHUNK_SIZE` of `nativeSynthesizeStream`. -/
def CHUNK_SIZE : Nat := 4096

/-- The chunk loop of `nativeSynthesizeStream` from index `i`, at the point where `k` tests of
the cancellation flag have been made, followed by the test after the loop, for at most `fuel`
passes: the callbacks made, and `none` when the passes allowed do not reach the end. -/
def chunk_loop (cancel : Option Nat) (audio : List Int) :
    Nat → Nat → Nat → Option (List TtsEvent)
  | 0, _, _ => none
  | fuel + 1, i, k =>
    if i < audio.length then
      if cancel_seen cancel k then
        -- loop left on the flag; the test after the loop reads it again
        if !cancel_seen cancel (k + 1) then some [TtsEvent.onComplete] else some []
      else
        let chunk_end := min (i + CHUNK_SIZE) audio.length
        let chunk_len := chunk_end - i
        match chunk_loop cancel audio fuel (i + CHUNK_SIZE) (k + 1) with
        | none => none
        | some later => some (TtsEvent.onAudioChunk ((audio.drop i).take chunk_len) :: later)
    else
      if !cancel_seen cancel k then some [TtsEvent.onComplete] else some []

/-- The entry point `nativeSynthesizeStream`: globals after and events.  `cancel` tells when a
cancel call of another thread lands (see `cancel_seen`). -/
def nativeSynthesizeStream {C V : Type} (P : Piper C V) (cancel : Option Nat)
    (st : TtsState C V) (text : Option String) : Option (TtsState C V × List TtsEvent) :=
  if !st.g_initialized then
    some ({ st with g_cancel_requested := st.g_cancel_requested || cancel.isSome },
      [TtsEvent.onError "Piper not initialized"])
  else
    let st1 : TtsState C V := { st with g_cancel_requested := cancel.isSome }
    let input := jstring_to_string text
    let run := P.textToAudio st1.g_config st1.g_voice input
    -- Progress callback: one test of the flag per call, throwing once it is set
    if 0 < run.callbacks && cancel_seen cancel (run.callbacks - 1) then
      -- the exception "Cancelled" reaches the handler, which reads the flag as set
      some (st1, [TtsEvent.textToAudio input])
    else
      let k := run.callbacks
      match run.outcome with
      | .error what =>
        if !cancel_seen cancel k then
          some (st1, [TtsEvent.textToAudio input, TtsEvent.onError what])
        else some (st1, [TtsEvent.textToAudio input])
      | .ok audio =>
        if cancel_seen cancel k then
          -- second test, inside the branch
          if !cancel_seen cancel (k + 1) then
            some (st1, [TtsEvent.textToAudio input, TtsEvent.onError "No audio generated"])
          else some (st1, [TtsEvent.textToAudio input])
        else if audio.isEmpty then
          if !cancel_seen cancel (k + 1) then
            some (st1, [TtsEvent.textToAudio input, TtsEvent.onError "No audio generated"])
          else some (st1, [TtsEvent.textToAudio input])
        else
          match chunk_loop cancel audio (audio.length + 1) 0 (k + 1) with
          | none => none
          | some callbacks => some (st1, TtsEvent.textToAudio input :: callbacks)

/-- The entry point `nativeCancelTts`. -/
def nativeCancelTts {C V : Type} (st : TtsState C V) : TtsState C V :=
  { st with g_cancel_requested := true }

/-- The entry point `nativeShutdownTts`: globals after, events. -/
def nativeShutdownTts {C V : Type} (P : Piper C V) (st : TtsState C V) :
    TtsState C V × List TtsEvent :=
  if st.g_initialized then
    ({ st with g_config := P.terminate st.g_config, g_initialized := false },
      [TtsEvent.terminate])
  else (st, [])

/-! ## Session vocabulary and sample objects -/

/-- The session is Ready: a context is held. -/
def SttState.ready {Ctx : Type} (st : SttState Ctx) : Bool := st.g_ctx.isSome

/-- The session is Ready: `g_initialized` is set. -/
def TtsState.ready {C V : Type} (st : TtsState C V) : Bool := st.g_initialized

/-- The events that release a transcription context. -/
def SttEvent.is_release {Ctx : Type} : SttEvent Ctx → Bool
  | .whisper_free _ => true
  | _ => false

/-- The events that release the synthesis engine. -/
def TtsEvent.is_release : TtsEvent → Bool
  | .terminate => true
  | _ => false

/-- Whether the construction of a new synthesis engine by `nativeInitTts` succeeds: neither
`piper::initialize`, called on the configuration left by the clean-up with the data path set,
nor `piper::loadVoice` throws. -/
def tts_construction_succeeds {C V : Type} (P : Piper C V) (st : TtsState C V)
    (modelPath configPath espeakDataPath : Option String) (speakerId : Int) : Bool :=
  let config0 : PiperConfig C := if st.g_initialized then P.terminate st.g_config else st.g_config
  let init := P.piperInitialize { config0 with eSpeakDataPath := jstring_to_string espeakDataPath }
  let sid : Option Int := if 0 ≤ speakerId then some speakerId else none
  init.1.isNone
    && (P.loadVoice init.2 (jstring_to_string modelPath) (jstring_to_string configPath)
      st.g_voice sid).1.isNone

/-- The value of a zero-initialised `whisper_full_params`. -/
def WhisperParams.zero : WhisperParams :=
  ⟨"", false, 0, false, false, false, false, false, false, false, 0, 0⟩

/-- The globals of `whisper_jni.cpp` as their initialisers leave them. -/
def SttState.initial {Ctx : Type} : SttState Ctx :=
  { g_ctx := none
    g_params := WhisperParams.zero
    g_cancel_requested := false
    g_language := "en"
    g_translate := false
    g_max_threads := 4
    g_use_gpu := true
    g_use_vad := true
    g_single_segment := true
    g_no_context := true }

/-- The globals of `piper_jni.cpp` as their initialisers leave them, for given
default-constructed `g_config` and `g_voice`. -/
def TtsState.initial {C V : Type} (config : PiperConfig C) (voice : Voice V) : TtsState C V :=
  { g_config := config
    g_voice := voice
    g_initialized := false
    g_cancel_requested := false
    g_speaker_id := -1
    g_speech_rate := 1
    g_sample_rate := 22050
    g_sentence_silence := f32 (2 / 10) }

/-- A sample transcription engine for closed instances of the theorems: it loads every model
but the one at the empty path, counts its runs in the context and reports one segment. -/
def sample_whisper : Whisper Nat :=
  { init_from_file_with_params := fun path _ => if path = "" then none else some 0
    full_default_params := WhisperParams.zero
    full := fun ctx _ _ => (0, ctx + 1)
    segments := fun _ => [⟨some "hello", 0, 50⟩] }

/-- A sample synthesis engine for closed instances of the theorems: it starts and loads every
voice but the one at the empty path, calls the progress callback once and produces one sample
per character of the text. -/
def sample_piper : Piper Nat Nat :=
  { piperInitialize := fun config => (none, config)
    terminate := fun config => config
    loadVoice := fun config model _ voice _ =>
      (if model = "" then some "no model" else none, config, voice)
    textToAudio := fun _ _ text => ⟨1, .ok (List.replicate text.length 7)⟩ }

/-- A default-constructed `piper::PiperConfig` of the sample engine. -/
def sample_config : PiperConfig Nat := ⟨"", 0⟩

/-- A default-constructed `piper::Voice` of the sample engine. -/
def sample_voice : Voice Nat := ⟨⟨1, f32 (2 / 10), 22050⟩, 0⟩

/-! ## Callback traces and windows -/

/-- The calls of the methods of the callback object among the events of a transcription
entry point, in order. -/
def stt_callbacks {Ctx : Type} (events : List (SttEvent Ctx)) : List (SttEvent Ctx) :=
  events.filter (fun e => !e.is_engine_call)

/-- The calls of the methods of the callback object among the events of a synthesis entry
point, in order. -/
def tts_callbacks (events : List TtsEvent) : List TtsEvent :=
  events.filter (fun e => !e.is_engine_call)

/-- A call of `onPartialResult`. -/
def SttEvent.is_partial {Ctx : Type} : SttEvent Ctx → Bool
  | .onPartialResult _ => true
  | _ => false

/-- A terminal callback of a transcription: `onFinalResult` or `onError`. -/
def SttEvent.is_terminal {Ctx : Type} : SttEvent Ctx → Bool
  | .onFinalResult _ => true
  | .onError _ => true
  | _ => false

/-- A call of `onAudioChunk`. -/
def TtsEvent.is_chunk : TtsEvent → Bool
  | .onAudioChunk _ => true
  | _ => false

/-- A terminal callback of a synthesis: `onComplete` or `onError`. -/
def TtsEvent.is_terminal : TtsEvent → Bool
  | .onComplete => true
  | .onError _ => true
  | _ => false

/-- A sample transcription engine that finds no speech: it loads every model and every run
succeeds with zero segments. -/
def silent_whisper : Whisper Nat :=
  { init_from_file_with_params := fun _ _ => some 0
    full_default_params := WhisperParams.zero
    full := fun ctx _ _ => (0, ctx + 1)
    segments := fun _ => [] }

/-- A Ready transcription session of the sample engine. -/
def sample_stt_ready : SttState Nat :=
  (nativeInitStt sample_whisper SttState.initial (some "model.bin") (some "en") false 4
    true true true true).2.1

/-- A sample transcription engine whose one segment carries times whose tenfold does not fit
`int64_t`: it loads every model and every run succeeds with the segment
("late", `10 ^ 18`, `10 ^ 18`). -/
def late_whisper : Whisper Nat :=
  { init_from_file_with_params := fun _ _ => some 0
    full_default_params := WhisperParams.zero
    full := fun ctx _ _ => (0, ctx + 1)
    segments := fun _ => [⟨some "late", 1000000000000000000, 1000000000000000000⟩] }

/-- A Ready transcription session of the engine `late_whisper`. -/
def late_stt_ready : SttState Nat :=
  (nativeInitStt late_whisper SttState.initial (some "model.bin") (some "en") false 4
    true true true true).2.1

/-- A Ready synthesis session of the sample engine. -/
def sample_tts_ready : TtsState Nat Nat :=
  (nativeInitTts sample_piper (TtsState.initial sample_config sample_voice)
    (some "voice.onnx") (some "voice.json") (some "espeak") 0 1 22050 (f32 (2 / 10))).2.1

/-- The `j`-th window of `CHUNK_SIZE` samples of a buffer (the last one may be shorter). -/
def window (audio : List Int) (j : Nat) : List Int :=
  (audio.drop (j * CHUNK_SIZE)).take CHUNK_SIZE

/-- The number of windows of a buffer of `n` samples: `n / CHUNK_SIZE` rounded up. -/
def window_count (n : Nat) : Nat := (n + (CHUNK_SIZE - 1)) / CHUNK_SIZE

/-! ## Synthesis configuration and container layout -/

/-- The voice as `piper::loadVoice` leaves it in `nativeInitTts`, before the bridge applies its
own settings: the clean-up and `piper::initialize` come first, as in the source. -/
def loaded_voice {C V : Type} (P : Piper C V) (st : TtsState C V)
    (modelPath configPath espeakDataPath : Option String) (speakerId : Int) : Voice V :=
  let config0 : PiperConfig C := if st.g_initialized then P.terminate st.g_config else st.g_config
  let init := P.piperInitialize { config0 with eSpeakDataPath := jstring_to_string espeakDataPath }
  let sid : Option Int := if 0 ≤ speakerId then some speakerId else none
  (P.loadVoice init.2 (jstring_to_string modelPath) (jstring_to_string configPath)
    st.g_voice sid).2.2

/-- A default-constructed `piper::Voice` of the sample engine whose synthesis configuration
carries the length scale 1.5. -/
def slow_voice : Voice Nat := ⟨⟨3 / 2, f32 (2 / 10), 22050⟩, 0⟩

/-- A subchunk as the container format lays it out: the four bytes of its identifier, the
length of its payload as a little-endian 32-bit integer, and the payload. -/
def subchunk (id payload : List Byte) : List Byte :=
  id ++ (le_bytes 4 payload.length ++ payload)

/-- A sequence of subchunks, each given by its identifier and its payload. -/
def subchunks : List (List Byte × List Byte) → List Byte
  | [] => []
  | c :: cs => subchunk c.1 c.2 ++ subchunks cs

/-- A subchunk other than `fmt ` and `data`: a four-byte identifier different from both, and a
payload whose length fits the 32-bit size field. -/
def other_subchunk (c : List Byte × List Byte) : Prop :=
  c.1.length = 4 ∧ c.1 ≠ tag_fmt ∧ c.1 ≠ tag_data ∧ c.2.length < 2 ^ 32

/-- The signed 16-bit value that two bytes hold in little-endian order, as the container
format defines it: `lo + 256 * hi`, less `65536` when the top bit of `hi` is set.  It is
written out from the format and shares nothing with the decoder. -/
def spec_int16_le (lo hi : Byte) : Int :=
  if hi.val < 128 then (lo.val : Int) + 256 * (hi.val : Int)
  else (lo.val : Int) + 256 * (hi.val : Int) - 65536

/-- The signed 32-bit value that four bytes hold in little-endian order, as the container
format defines it; written out from the format like `spec_int16_le`. -/
def spec_int32_le (b0 b1 b2 b3 : Byte) : Int :=
  if b3.val < 128 then
    (b0.val : Int) + 256 * (b1.val : Int) + 65536 * (b2.val : Int) + 16777216 * (b3.val : Int)
  else
    (b0.val : Int) + 256 * (b1.val : Int) + 65536 * (b2.val : Int) + 16777216 * (b3.val : Int)
      - 4294967296

/-- The samples that the spec assigns to a `data` payload: one per two bytes, in order, each
the signed 16-bit little-endian value of its two bytes divided by 32768. -/
def spec_samples (payload : List Byte) : List ℚ :=
  (List.range (payload.length / 2)).map
    (fun i => (spec_int16_le (payload.getD (2 * i) 0) (payload.getD (2 * i + 1) 0) : ℚ) / 32768)

/-! ## Theorems: rounding -/

theorem log2Aux_spec : ∀ (fuel n : Nat), 0 < n → n ≤ fuel →
    2 ^ log2Aux fuel n ≤ n ∧ n < 2 ^ (log2Aux fuel n + 1)
  | 0, n, h0, h1 => by omega
  | fuel + 1, n, h0, h1 => by
    unfold log2Aux
    by_cases h : n < 2
    · simp only [h, if_true]; omega
    · simp only [h, if_false]
      have ih := log2Aux_spec fuel (n / 2) (by omega) (by omega)
      obtain ⟨ih1, ih2⟩ := ih
      constructor
      · rw [pow_succ]; omega
      · rw [pow_succ]; omega

theorem ilog2_spec (n : Nat) (h : 0 < n) : 2 ^ ilog2 n ≤ n ∧ n < 2 ^ (ilog2 n + 1) :=
  log2Aux_spec n n h le_rfl

theorem zpow_two_split (d : Int) : (2 : ℚ) ^ d = (2 : ℚ) ^ d.toNat / (2 : ℚ) ^ (-d).toNat := by
  rcases le_total 0 d with h | h
  · have h2 : (-d).toNat = 0 := by omega
    rw [h2, pow_zero, div_one]
    conv_lhs => rw [← Int.toNat_of_nonneg h]
    rw [zpow_natCast]
  · have h2 : d.toNat = 0 := by omega
    rw [h2, pow_zero]
    have h3 : d = -(((-d).toNat : Nat) : Int) := by omega
    conv_lhs => rw [h3]
    rw [zpow_neg, zpow_natCast, one_div]

theorem cmp_zpow_iff (a b : Nat) (d : Int) (hb : 0 < b) :
    (a * 2 ^ (-d).toNat < b * 2 ^ d.toNat) ↔ (a : ℚ) / b < (2 : ℚ) ^ d := by
  have hbq : (0 : ℚ) < b := by exact_mod_cast hb
  rw [zpow_two_split d, div_lt_div_iff₀ hbq (by positivity)]
  constructor
  · intro h
    have : ((a * 2 ^ (-d).toNat : Nat) : ℚ) < ((b * 2 ^ d.toNat : Nat) : ℚ) := by exact_mod_cast h
    push_cast at this
    linarith
  · intro h
    have : ((a * 2 ^ (-d).toNat : Nat) : ℚ) < ((b * 2 ^ d.toNat : Nat) : ℚ) := by
      push_cast; linarith
    exact_mod_cast this

theorem bin_exp_spec (a b : Nat) (ha : 0 < a) (hb : 0 < b) :
    (2 : ℚ) ^ bin_exp a b ≤ (a : ℚ) / b ∧ (a : ℚ) / b < (2 : ℚ) ^ (bin_exp a b + 1) := by
  obtain ⟨ha1, ha2⟩ := ilog2_spec a ha
  obtain ⟨hb1, hb2⟩ := ilog2_spec b hb
  have hbq : (0 : ℚ) < b := by exact_mod_cast hb
  have ha1q : (2 : ℚ) ^ (ilog2 a : Int) ≤ a := by rw [zpow_natCast]; exact_mod_cast ha1
  have ha2q : (a : ℚ) < (2 : ℚ) ^ ((ilog2 a : Int) + 1) := by
    have : ((ilog2 a : Int) + 1) = ((ilog2 a + 1 : Nat) : Int) := by push_cast; ring
    rw [this, zpow_natCast]; exact_mod_cast ha2
  have hb1q : (2 : ℚ) ^ (ilog2 b : Int) ≤ b := by rw [zpow_natCast]; exact_mod_cast hb1
  have hb2q : (b : ℚ) < (2 : ℚ) ^ ((ilog2 b : Int) + 1) := by
    have : ((ilog2 b : Int) + 1) = ((ilog2 b + 1 : Nat) : Int) := by push_cast; ring
    rw [this, zpow_natCast]; exact_mod_cast hb2
  have h2 : (0 : ℚ) < 2 := by norm_num
  -- a / b < 2 ^ (d + 1)
  have hup : (a : ℚ) / b < (2 : ℚ) ^ ((ilog2 a : Int) - (ilog2 b : Int) + 1) := by
    rw [div_lt_iff₀ hbq]
    calc (a : ℚ) < (2 : ℚ) ^ ((ilog2 a : Int) + 1) := ha2q
      _ = (2 : ℚ) ^ ((ilog2 a : Int) - (ilog2 b : Int) + 1) * (2 : ℚ) ^ (ilog2 b : Int) := by
          rw [← zpow_add₀ (by norm_num : (2 : ℚ) ≠ 0)]; congr 1; ring
      _ ≤ (2 : ℚ) ^ ((ilog2 a : Int) - (ilog2 b : Int) + 1) * b :=
          mul_le_mul_of_nonneg_left hb1q (by positivity)
  have hlo : (2 : ℚ) ^ ((ilog2 a : Int) - (ilog2 b : Int) - 1) ≤ (a : ℚ) / b := by
    rw [le_div_iff₀ hbq]
    calc (2 : ℚ) ^ ((ilog2 a : Int) - (ilog2 b : Int) - 1) * b
        ≤ (2 : ℚ) ^ ((ilog2 a : Int) - (ilog2 b : Int) - 1) * (2 : ℚ) ^ ((ilog2 b : Int) + 1) :=
          mul_le_mul_of_nonneg_left hb2q.le (by positivity)
      _ = (2 : ℚ) ^ (ilog2 a : Int) := by
          rw [← zpow_add₀ (by norm_num : (2 : ℚ) ≠ 0)]; congr 1; ring
      _ ≤ a := ha1q
  have hcmp := cmp_zpow_iff a b ((ilog2 a : Int) - (ilog2 b : Int)) hb
  unfold bin_exp
  simp only
  split_ifs with hc
  · rw [hcmp] at hc
    refine ⟨hlo, ?_⟩
    have : (ilog2 a : Int) - (ilog2 b : Int) - 1 + 1 = (ilog2 a : Int) - (ilog2 b : Int) := by ring
    rw [this]; exact hc
  · rw [hcmp, not_lt] at hc
    exact ⟨hc, hup⟩

theorem rne_div_err (num den : Nat) (hden : 0 < den) :
    |((rne_div num den : Nat) : ℚ) - (num : ℚ) / den| ≤ 1 / 2 := by
  have hd : (0 : ℚ) < den := by exact_mod_cast hden
  have hdiv : (num : ℚ) = (den : ℚ) * ((num / den : Nat) : ℚ) + ((num % den : Nat) : ℚ) := by
    exact_mod_cast (Nat.div_add_mod num den).symm
  have hr : num % den < den := Nat.mod_lt _ hden
  have hrq : ((num % den : Nat) : ℚ) < den := by exact_mod_cast hr
  have hr0 : (0 : ℚ) ≤ ((num % den : Nat) : ℚ) := by positivity
  have key : (num : ℚ) / den = ((num / den : Nat) : ℚ) + ((num % den : Nat) : ℚ) / den := by
    field_simp; linarith
  unfold rne_div
  simp only
  rw [key, abs_le]
  split_ifs with h1 h2 h3
  · have h1q : 2 * ((num % den : Nat) : ℚ) < den := by exact_mod_cast h1
    have : ((num % den : Nat) : ℚ) / den < 1 / 2 := by rw [div_lt_iff₀ hd]; linarith
    have : 0 ≤ ((num % den : Nat) : ℚ) / den := by positivity
    constructor <;> linarith
  · have h2q : (den : ℚ) < 2 * ((num % den : Nat) : ℚ) := by exact_mod_cast h2
    have : 1 / 2 < ((num % den : Nat) : ℚ) / den := by rw [lt_div_iff₀ hd]; linarith
    have : ((num % den : Nat) : ℚ) / den < 1 := by rw [div_lt_iff₀ hd]; linarith
    push_cast
    constructor <;> linarith
  · have heq : 2 * (num % den) = den := by omega
    have hq : 2 * ((num % den : Nat) : ℚ) = den := by exact_mod_cast heq
    have : ((num % den : Nat) : ℚ) / den = 1 / 2 := by rw [div_eq_iff hd.ne']; linarith
    constructor <;> linarith
  · have heq : 2 * (num % den) = den := by omega
    have hq : 2 * ((num % den : Nat) : ℚ) = den := by exact_mod_cast heq
    have : ((num % den : Nat) : ℚ) / den = 1 / 2 := by rw [div_eq_iff hd.ne']; linarith
    push_cast
    constructor <;> linarith

theorem rne_div_exact (num den z : Nat) (hden : 0 < den) (h : num = z * den) :
    rne_div num den = z := by
  subst h
  unfold rne_div
  simp only [Nat.mul_mod_left, Nat.mul_div_cancel _ hden, Nat.mul_zero]
  simp [hden]

theorem scaled_eq (a b : Nat) (sh : Int) :
    ((a * 2 ^ sh.toNat : Nat) : ℚ) / ((b * 2 ^ (-sh).toNat : Nat) : ℚ)
      = (a : ℚ) / b * (2 : ℚ) ^ sh := by
  rw [zpow_two_split sh]
  push_cast
  rw [mul_div_mul_comm]

theorem rnd_pos_eq (p : Nat) (emin : Int) (a b : Nat) :
    rnd_pos p emin a b
      = ((rne_div (a * 2 ^ ((p : Int) - 1 - max (bin_exp a b) emin).toNat)
            (b * 2 ^ (-((p : Int) - 1 - max (bin_exp a b) emin)).toNat) : Nat) : ℚ)
          * (2 : ℚ) ^ (-((p : Int) - 1 - max (bin_exp a b) emin)) := by
  unfold rnd_pos
  simp only
  rw [zpow_two_split (-((p : Int) - 1 - max (bin_exp a b) emin)), neg_neg]
  push_cast
  rw [mul_div_assoc]

theorem rnd_pos_err (p : Nat) (emin : Int) (a b : Nat) (hb : 0 < b) :
    |rnd_pos p emin a b - (a : ℚ) / b| ≤ (2 : ℚ) ^ (max (bin_exp a b) emin - p) := by
  rw [rnd_pos_eq]
  set sh : Int := (p : Int) - 1 - max (bin_exp a b) emin with hsh
  have hden : 0 < b * 2 ^ (-sh).toNat := Nat.mul_pos hb (by positivity)
  have h1 := rne_div_err (a * 2 ^ sh.toNat) (b * 2 ^ (-sh).toNat) hden
  rw [scaled_eq] at h1
  have hpos : (0 : ℚ) < (2 : ℚ) ^ (-sh) := by positivity
  have e1 : ((rne_div (a * 2 ^ sh.toNat) (b * 2 ^ (-sh).toNat) : Nat) : ℚ) * (2 : ℚ) ^ (-sh)
      - (a : ℚ) / b
      = (((rne_div (a * 2 ^ sh.toNat) (b * 2 ^ (-sh).toNat) : Nat) : ℚ)
          - (a : ℚ) / b * (2 : ℚ) ^ sh) * (2 : ℚ) ^ (-sh) := by
    rw [sub_mul, mul_assoc, ← zpow_add₀ (by norm_num : (2 : ℚ) ≠ 0)]
    simp
  rw [e1, abs_mul, abs_of_pos hpos]
  have e2 : (2 : ℚ) ^ (max (bin_exp a b) emin - p) = 1 / 2 * (2 : ℚ) ^ (-sh) := by
    have : max (bin_exp a b) emin - (p : Int) = -1 + -sh := by rw [hsh]; ring
    rw [this, zpow_add₀ (by norm_num : (2 : ℚ) ≠ 0)]
    norm_num
  rw [e2]
  exact mul_le_mul_of_nonneg_right h1 hpos.le

theorem rnd_pos_exact (p : Nat) (emin : Int) (a b z : Nat) (hb : 0 < b)
    (hz : (a : ℚ) / b * (2 : ℚ) ^ ((p : Int) - 1 - max (bin_exp a b) emin) = z) :
    rnd_pos p emin a b = (a : ℚ) / b := by
  rw [rnd_pos_eq]
  set sh : Int := (p : Int) - 1 - max (bin_exp a b) emin with hsh
  have hden : 0 < b * 2 ^ (-sh).toNat := Nat.mul_pos hb (by positivity)
  have hdq : (0 : ℚ) < ((b * 2 ^ (-sh).toNat : Nat) : ℚ) := by exact_mod_cast hden
  have h0 := scaled_eq a b sh
  rw [hz, div_eq_iff hdq.ne'] at h0
  have h1 : a * 2 ^ sh.toNat = z * (b * 2 ^ (-sh).toNat) := by exact_mod_cast h0
  rw [rne_div_exact _ _ z hden h1, ← hz, mul_assoc, ← zpow_add₀ (by norm_num : (2 : ℚ) ≠ 0)]
  simp

theorem rnd_pos_nonneg (p : Nat) (emin : Int) (a b : Nat) : 0 ≤ rnd_pos p emin a b := by
  unfold rnd_pos
  positivity

theorem natAbs_num_div_den (x : ℚ) : ((x.num.natAbs : Nat) : ℚ) / (x.den : ℚ) = |x| := by
  conv_rhs => rw [← Rat.num_div_den x]
  rw [abs_div, Nat.cast_natAbs, Int.cast_abs]
  congr 1
  exact (abs_of_pos (by exact_mod_cast x.den_pos)).symm

theorem rnd_zero (p : Nat) (emin : Int) : rnd p emin 0 = 0 := by simp [rnd]

theorem rnd_neg (p : Nat) (emin : Int) (x : ℚ) : rnd p emin (-x) = -rnd p emin x := by
  unfold rnd
  rcases lt_trichotomy x 0 with h | h | h
  · have h1 : ¬ (-x = 0) := by intro h0; linarith [neg_eq_zero.mp h0]
    have h2 : ¬ (-x < 0) := by linarith
    have h3 : ¬ (x = 0) := ne_of_lt h
    simp [h1, h2, h3, h]
  · subst h; simp
  · have h1 : ¬ (-x = 0) := by intro h0; linarith [neg_eq_zero.mp h0]
    have h2 : (-x < 0) := by linarith
    have h3 : ¬ (x = 0) := ne_of_gt h
    have h4 : ¬ (x < 0) := by linarith
    simp [h1, h2, h3, h4]

theorem rnd_of_pos (p : Nat) (emin : Int) (x : ℚ) (hx : 0 < x) :
    rnd p emin x = rnd_pos p emin x.num.natAbs x.den := by
  unfold rnd
  have h3 : ¬ (x = 0) := ne_of_gt hx
  have h4 : ¬ (x < 0) := by linarith
  simp [h3, h4]

theorem rnd_nonneg (p : Nat) (emin : Int) (x : ℚ) (hx : 0 ≤ x) : 0 ≤ rnd p emin x := by
  rcases hx.eq_or_lt with h | h
  · rw [← h, rnd_zero]
  · rw [rnd_of_pos p emin x h]; exact rnd_pos_nonneg _ _ _ _

theorem two_zpow_lt_iff (m n : Int) : (2 : ℚ) ^ m < (2 : ℚ) ^ n ↔ m < n :=
  zpow_lt_zpow_iff_right₀ (by norm_num)

theorem two_zpow_le_of_le (m n : Int) (h : m ≤ n) : (2 : ℚ) ^ m ≤ (2 : ℚ) ^ n :=
  zpow_le_zpow_right₀ (by norm_num) h

/-- Relative error of rounding in the normal range. -/
theorem rnd_rel_err_pos (p : Nat) (emin : Int) (x : ℚ) (hx : 0 < x)
    (hnorm : (2 : ℚ) ^ emin ≤ x) : |rnd p emin x - x| ≤ x * (2 : ℚ) ^ (-(p : Int)) := by
  rw [rnd_of_pos p emin x hx]
  have hab : ((x.num.natAbs : Nat) : ℚ) / (x.den : ℚ) = x := by
    rw [natAbs_num_div_den, abs_of_pos hx]
  have ha : 0 < x.num.natAbs := Int.natAbs_pos.mpr (Rat.num_ne_zero.mpr hx.ne')
  have h1 := rnd_pos_err p emin x.num.natAbs x.den x.den_pos
  obtain ⟨h2, h3⟩ := bin_exp_spec x.num.natAbs x.den ha x.den_pos
  rw [hab] at h1 h2 h3
  have h4 : emin ≤ bin_exp x.num.natAbs x.den := by
    have : (2 : ℚ) ^ emin < (2 : ℚ) ^ (bin_exp x.num.natAbs x.den + 1) := lt_of_le_of_lt hnorm h3
    rw [two_zpow_lt_iff] at this
    omega
  rw [max_eq_left h4] at h1
  refine le_trans h1 ?_
  rw [sub_eq_add_neg, zpow_add₀ (by norm_num : (2 : ℚ) ≠ 0)]
  exact mul_le_mul_of_nonneg_right h2 (by positivity)

theorem rnd_exact_pos (p : Nat) (emin : Int) (M j : Nat) (hM0 : 0 < M) (hM : M < 2 ^ p)
    (hj : (j : Int) ≤ (p : Int) - 1 - emin) :
    rnd p emin ((M : ℚ) / (2 : ℚ) ^ j) = (M : ℚ) / (2 : ℚ) ^ j := by
  have hx : (0 : ℚ) < (M : ℚ) / (2 : ℚ) ^ j := by positivity
  set x : ℚ := (M : ℚ) / (2 : ℚ) ^ j with hxdef
  rw [rnd_of_pos p emin x hx]
  have hab : ((x.num.natAbs : Nat) : ℚ) / (x.den : ℚ) = x := by
    rw [natAbs_num_div_den, abs_of_pos hx]
  have ha : 0 < x.num.natAbs := Int.natAbs_pos.mpr (Rat.num_ne_zero.mpr hx.ne')
  obtain ⟨h2, h3⟩ := bin_exp_spec x.num.natAbs x.den ha x.den_pos
  rw [hab] at h2 h3
  -- the binary exponent is below `p - j`
  have hxlt : x < (2 : ℚ) ^ ((p : Int) - j) := by
    rw [hxdef, sub_eq_add_neg, zpow_add₀ (by norm_num : (2 : ℚ) ≠ 0), zpow_neg, zpow_natCast,
      zpow_natCast, div_eq_mul_inv]
    apply mul_lt_mul_of_pos_right _ (by positivity)
    exact_mod_cast hM
  have he0 : bin_exp x.num.natAbs x.den < (p : Int) - j := by
    have := lt_of_le_of_lt h2 hxlt
    rwa [two_zpow_lt_iff] at this
  have hsh : (j : Int) ≤ (p : Int) - 1 - max (bin_exp x.num.natAbs x.den) emin := by
    rcases le_total (bin_exp x.num.natAbs x.den) emin with h | h
    · rw [max_eq_right h]; exact hj
    · rw [max_eq_left h]; omega
  have key := rnd_pos_exact p emin x.num.natAbs x.den
    (M * 2 ^ ((p : Int) - 1 - max (bin_exp x.num.natAbs x.den) emin - j).toNat) x.den_pos ?_
  · rw [key, hab]
  · rw [hab, hxdef]
    set sh : Int := (p : Int) - 1 - max (bin_exp x.num.natAbs x.den) emin with hshdef
    have : sh = (j : Int) + ((sh - j).toNat : Int) := by
      rw [Int.toNat_of_nonneg (by omega)]; ring
    conv_lhs => rw [this]
    rw [zpow_add₀ (by norm_num : (2 : ℚ) ≠ 0), zpow_natCast, zpow_natCast]
    push_cast
    field_simp
    ring

/-- Values with at most `p` significant bits above the least exponent round to themselves. -/
theorem rnd_exact (p : Nat) (emin : Int) (M : Int) (j : Nat) (hM : |M| < 2 ^ p)
    (hj : (j : Int) ≤ (p : Int) - 1 - emin) :
    rnd p emin ((M : ℚ) / (2 : ℚ) ^ j) = (M : ℚ) / (2 : ℚ) ^ j := by
  rcases lt_trichotomy M 0 with h | h | h
  · have h1 : (M : ℚ) / (2 : ℚ) ^ j = -(((-M).toNat : Nat) : ℚ) / (2 : ℚ) ^ j := by
      have : (((-M).toNat : Nat) : Int) = -M := Int.toNat_of_nonneg (by omega)
      have h2 : (((-M).toNat : Nat) : ℚ) = -(M : ℚ) := by exact_mod_cast this
      rw [h2]; ring
    rw [h1, neg_div, rnd_neg, rnd_exact_pos p emin (-M).toNat j (by omega) _ hj]
    have : |M| = -M := abs_of_neg h
    have h3 : (((-M).toNat : Nat) : Int) < 2 ^ p := by
      rw [Int.toNat_of_nonneg (by omega)]; omega
    exact_mod_cast h3
  · subst h; simp [rnd_zero]
  · have h1 : (M : ℚ) = ((M.toNat : Nat) : ℚ) := by
      have : ((M.toNat : Nat) : Int) = M := Int.toNat_of_nonneg (by omega)
      exact_mod_cast this.symm
    rw [h1]
    apply rnd_exact_pos p emin M.toNat j (by omega) _ hj
    have : |M| = M := abs_of_pos h
    have h3 : ((M.toNat : Nat) : Int) < 2 ^ p := by
      rw [Int.toNat_of_nonneg (by omega)]; omega
    exact_mod_cast h3

/-! ## Theorems: bytes and streams -/

theorem le_bytes_length (k v : Nat) : (le_bytes k v).length = k := by
  induction k generalizing v with
  | zero => rfl
  | succ k ih => simp [le_bytes, ih]

theorem le_value_le_bytes (k v : Nat) : le_value (le_bytes k v) = v % 256 ^ k := by
  induction k generalizing v with
  | zero => simp [le_bytes, le_value, Nat.mod_one]
  | succ k ih =>
    simp only [le_bytes, le_value, ih, byteOf]
    rw [pow_succ, mul_comm (256 ^ k) 256, Nat.mod_mul]

theorem le_value_le_bytes_4 (v : Nat) (h : v < 2 ^ 32) : le_value (le_bytes 4 v) = v := by
  rw [le_value_le_bytes]; exact Nat.mod_eq_of_lt (by norm_num at h ⊢; exact h)

theorem to_signed_to_unsigned_16 (x : Int) (h1 : -32768 ≤ x) (h2 : x < 32768) :
    to_signed 16 (to_unsigned 16 x % 256 ^ 2) = x := by
  unfold to_signed to_unsigned
  norm_num
  split_ifs <;> omega

theorem to_signed_to_unsigned_32 (x : Int) (h1 : -2147483648 ≤ x) (h2 : x < 2147483648) :
    to_signed 32 (to_unsigned 32 x % 256 ^ 4) = x := by
  unfold to_signed to_unsigned
  norm_num
  split_ifs <;> omega

/-- An exact result within the range of `int64_t` is what the operation leaves. -/
theorem wrap_int_64 (x : Int) (h1 : -9223372036854775808 ≤ x) (h2 : x < 9223372036854775808) :
    wrap_int 64 x = x := by
  unfold wrap_int to_signed to_unsigned
  norm_num
  split_ifs <;> omega

theorem pcm_bytes_length (s : List Int) : (pcm_bytes s).length = 2 * s.length := by
  induction s with
  | nil => rfl
  | cons x xs ih => simp [pcm_bytes, le_bytes_length, ih]; omega

theorem pcm_of_bytes_pcm_bytes (s : List Int) (hs : ∀ x ∈ s, -32768 ≤ x ∧ x < 32768) :
    pcm_of_bytes (pcm_bytes s) = s := by
  induction s with
  | nil => rfl
  | cons x xs ih =>
    have hx := hs x (List.mem_cons_self _ _)
    have hxs : ∀ y ∈ xs, -32768 ≤ y ∧ y < 32768 := fun y hy => hs y (List.mem_cons_of_mem _ hy)
    have e : pcm_bytes (x :: xs)
        = byteOf (to_unsigned 16 x) :: byteOf (to_unsigned 16 x / 256) :: pcm_bytes xs := rfl
    rw [e, pcm_of_bytes, ih hxs]
    congr 1
    have e2 : [byteOf (to_unsigned 16 x), byteOf (to_unsigned 16 x / 256)]
        = le_bytes 2 (to_unsigned 16 x) := rfl
    rw [e2, le_value_le_bytes]
    exact to_signed_to_unsigned_16 x hx.1 hx.2

theorem drop_add_of_drop_eq {α : Type} (l mid rest : List α) (p : Nat)
    (h : l.drop p = mid ++ rest) : l.drop (p + mid.length) = rest := by
  rw [← List.drop_drop, h, List.drop_left]

namespace IfStream

theorem read_drop (data : List Byte) (pos n : Nat) (buf mid rest : List Byte)
    (h : data.drop pos = mid ++ rest) (hmid : mid.length = n) (hbuf : buf.length = n) :
    (⟨data, pos, false, false⟩ : IfStream).read n buf = (⟨data, pos + n, false, false⟩, mid) := by
  unfold read good
  simp only [Bool.not_false, Bool.and_self, if_true, h]
  have ht : (mid ++ rest).take n = mid := by rw [← hmid, List.take_left]
  rw [ht, hmid]
  simp [hbuf, ← hmid]

theorem stored_drop (data : List Byte) (pos n : Nat) (mid rest : List Byte)
    (h : data.drop pos = mid ++ rest) (hmid : mid.length = n) :
    (⟨data, pos, false, false⟩ : IfStream).stored n = n := by
  unfold stored good
  simp only [Bool.not_false, Bool.and_self, if_true, h]
  rw [← hmid, List.take_left]

end IfStream

/-! ## Theorems: the chunk loop of `read_wav_file` -/

theorem mod_sub_eight (len : Nat) (h8 : 8 ≤ len) (h : len < 2 ^ 32) :
    (len + 2 ^ 32 - 8) % 2 ^ 32 = len - 8 := by
  norm_num at h ⊢
  omega

/-- A pass of the loop over a complete `fmt ` subchunk of declared size `len ≥ 8`. -/
theorem scan_chunk_fmt (junk : Junk) (data : List Byte) (pos : Nat) (samples : List ℚ)
    (rate : Int) (len : Nat) (af nc srb rest : List Byte)
    (h : data.drop pos = tag_fmt ++ (le_bytes 4 len ++ (af ++ (nc ++ (srb ++ rest)))))
    (haf : af.length = 2) (hnc : nc.length = 2) (hsr : srb.length = 4)
    (h8 : 8 ≤ len) (hlen : len < 2 ^ 32) :
    scan_chunk junk ⟨⟨data, pos, false, false⟩, samples, rate⟩
      = some (⟨⟨data, pos + 8 + len, false, false⟩, samples, to_signed 32 (le_value srb)⟩,
          false) := by
  have r1 := IfStream.read_drop data pos 4 (le_bytes 4 junk.chunk_id) tag_fmt _ h rfl
    (le_bytes_length _ _)
  have h1 := drop_add_of_drop_eq _ _ _ _ h
  have r2 := IfStream.read_drop data (pos + 4) 4 (le_bytes 4 junk.chunk_size)
    (le_bytes 4 len) _ h1 (le_bytes_length _ _) (le_bytes_length _ _)
  have h2 := drop_add_of_drop_eq _ _ _ _ h1
  rw [le_bytes_length] at h2
  have r3 := IfStream.read_drop data (pos + 4 + 4) 2 (le_bytes 2 junk.audio_format)
    af _ h2 haf (le_bytes_length _ _)
  have h3 := drop_add_of_drop_eq _ _ _ _ h2
  rw [haf] at h3
  have r4 := IfStream.read_drop data (pos + 4 + 4 + 2) 2
    (le_bytes 2 junk.num_channels) nc _ h3 hnc (le_bytes_length _ _)
  have h4 := drop_add_of_drop_eq _ _ _ _ h3
  rw [hnc] at h4
  have r5 := IfStream.read_drop data (pos + 4 + 4 + 2 + 2) 4
    (le_bytes 4 junk.sr) srb _ h4 hsr (le_bytes_length _ _)
  have e8 : pos + 4 + 4 + 2 + 2 + 4 + (len - 8) = pos + 8 + len := by omega
  unfold scan_chunk
  simp only [r1, r2, r3, r4, r5, if_true, IfStream.seekg_cur,
    le_value_le_bytes_4 len hlen, mod_sub_eight len h8 hlen, e8]
  simp

/-- A pass of the loop over a complete `data` subchunk of even declared size `len`. -/
theorem scan_chunk_data (junk : Junk) (data : List Byte) (pos : Nat) (samples : List ℚ)
    (rate : Int) (len : Nat) (payload rest : List Byte)
    (h : data.drop pos = tag_data ++ (le_bytes 4 len ++ (payload ++ rest)))
    (hpl : payload.length = len) (heven : len % 2 = 0) (hlen : len < 2 ^ 32) :
    scan_chunk junk ⟨⟨data, pos, false, false⟩, samples, rate⟩
      = some (⟨⟨data, pos + 8 + len, false, false⟩, (pcm_of_bytes payload).map pcm_to_float,
          rate⟩, true) := by
  have r1 := IfStream.read_drop data pos 4 (le_bytes 4 junk.chunk_id) tag_data _ h rfl
    (le_bytes_length _ _)
  have h1 := drop_add_of_drop_eq _ _ _ _ h
  have r2 := IfStream.read_drop data (pos + 4) 4 (le_bytes 4 junk.chunk_size)
    (le_bytes 4 len) _ h1 (le_bytes_length _ _) (le_bytes_length _ _)
  have h2 := drop_add_of_drop_eq _ _ _ _ h1
  rw [le_bytes_length] at h2
  have hb : (List.replicate (2 * (len / 2)) (0 : Byte)).length = len := by
    rw [List.length_replicate]; omega
  have r3 := IfStream.read_drop data (pos + 4 + 4) len (List.replicate (2 * (len / 2)) 0)
    payload _ h2 hpl hb
  have hst := IfStream.stored_drop data (pos + 4 + 4) len payload _ h2 hpl
  have hroom : ¬ (2 * (len / 2) < len) := by omega
  have e8 : pos + 4 + 4 + len = pos + 8 + len := by omega
  have hne : tag_data ≠ tag_fmt := by decide
  unfold scan_chunk
  simp only [r1, r2, r3, hst, hroom, if_true, le_value_le_bytes_4 len hlen, e8, hne, if_false]

/-- A pass of the loop over the header of a subchunk that is neither `fmt ` nor `data`:
the subchunk is skipped by its declared size. -/
theorem scan_chunk_other (junk : Junk) (data : List Byte) (pos : Nat) (samples : List ℚ)
    (rate : Int) (len : Nat) (id rest : List Byte)
    (h : data.drop pos = id ++ (le_bytes 4 len ++ rest))
    (hid : id.length = 4) (hfmt : id ≠ tag_fmt) (hdata : id ≠ tag_data) (hlen : len < 2 ^ 32) :
    scan_chunk junk ⟨⟨data, pos, false, false⟩, samples, rate⟩
      = some (⟨⟨data, pos + 8 + len, false, false⟩, samples, rate⟩, false) := by
  have r1 := IfStream.read_drop data pos 4 (le_bytes 4 junk.chunk_id) id _ h hid
    (le_bytes_length _ _)
  have h1 := drop_add_of_drop_eq _ _ _ _ h
  rw [hid] at h1
  have r2 := IfStream.read_drop data (pos + 4) 4 (le_bytes 4 junk.chunk_size)
    (le_bytes 4 len) _ h1 (le_bytes_length _ _) (le_bytes_length _ _)
  have e8 : pos + 4 + 4 + len = pos + 8 + len := by omega
  unfold scan_chunk
  simp only [r1, r2, hfmt, hdata, if_false, IfStream.seekg_cur, le_value_le_bytes_4 len hlen, e8]
  simp

/-! ## Theorems: WAV codec -/

theorem f32_int_exact (x : Int) (h : |x| < 2 ^ 24) : f32 (x : ℚ) = x := by
  have := rnd_exact 24 (-126) x 0 h (by norm_num)
  simpa [f32] using this

/-- The conversion of a 16-bit sample to `float` and its division by 32768 are exact. -/
theorem pcm_to_float_eq (x : Int) (h1 : -32768 ≤ x) (h2 : x < 32768) :
    pcm_to_float x = (x : ℚ) / 32768 := by
  have hx : |x| < 2 ^ 24 := by rw [abs_lt]; constructor <;> omega
  unfold pcm_to_float
  rw [f32_int_exact x hx]
  have := rnd_exact 24 (-126) x 15 hx (by norm_num)
  have e : (2 : ℚ) ^ 15 = 32768 := by norm_num
  rw [e] at this
  exact this

theorem wav_layout_split (af nc : Nat) (r : Int) (br ba bits : Nat) (payload : List Byte) :
    wav_layout af nc r br ba bits payload
      = (tag_RIFF ++ (le_bytes 4 (36 + payload.length) ++ tag_WAVE))
        ++ ((tag_fmt ++ (le_bytes 4 16 ++ (le_bytes 2 af ++ (le_bytes 2 nc
              ++ (le_bytes 4 (to_unsigned 32 r)
                ++ (le_bytes 4 br ++ (le_bytes 2 ba ++ le_bytes 2 bits)))))))
          ++ (tag_data ++ (le_bytes 4 payload.length ++ (payload ++ [])))) := by
  simp [wav_layout, List.append_assoc]

/-- Decoding of a file made of the 12-byte header, a 16-byte `fmt ` subchunk and a `data`
subchunk of even size. -/
theorem read_wav_file_parts (junk : Junk) (data szb af nc srb tail payload : List Byte)
    (samples0 : List ℚ) (r0 : Int)
    (hd : data = tag_RIFF ++ (szb ++ (tag_WAVE ++ (tag_fmt ++ (le_bytes 4 16 ++ (af ++ (nc
      ++ (srb ++ (tail ++ (tag_data ++ (le_bytes 4 payload.length ++ (payload ++ []))))))))))))
    (hszb : szb.length = 4) (haf : af.length = 2) (hnc : nc.length = 2) (hsr : srb.length = 4)
    (htail : tail.length = 8)
    (heven : payload.length % 2 = 0) (hlen : payload.length < 2 ^ 32) :
    read_wav_file junk (some data) samples0 r0
      = some (!((pcm_of_bytes payload).map pcm_to_float).isEmpty,
          (pcm_of_bytes payload).map pcm_to_float, to_signed 32 (le_value srb)) := by
  have d0 : data.drop 0 = tag_RIFF ++ (szb ++ (tag_WAVE ++ (tag_fmt ++ (le_bytes 4 16 ++ (af
      ++ (nc ++ (srb ++ (tail ++ (tag_data ++ (le_bytes 4 payload.length
        ++ (payload ++ []))))))))))) := by
    rw [List.drop_zero, hd]
  have d4 := drop_add_of_drop_eq _ _ _ _ d0
  have d8 := drop_add_of_drop_eq _ _ _ _ d4
  have d12 := drop_add_of_drop_eq _ _ _ _ d8
  have d16 := drop_add_of_drop_eq _ _ _ _ d12
  have d20 := drop_add_of_drop_eq _ _ _ _ d16
  have d22 := drop_add_of_drop_eq _ _ _ _ d20
  have d24 := drop_add_of_drop_eq _ _ _ _ d22
  have d28 := drop_add_of_drop_eq _ _ _ _ d24
  have d36 := drop_add_of_drop_eq _ _ _ _ d28
  simp only [le_bytes_length, tag_RIFF, tag_WAVE, tag_fmt, List.length_cons, List.length_nil,
    Nat.zero_add, Nat.reduceAdd, hszb, haf, hnc, hsr, htail] at d4 d8 d12 d16 d20 d22 d24 d28 d36
  clear d4 d16 d20 d22 d24 d28 hd
  have p1 := IfStream.read_drop data 0 4 (le_bytes 4 junk.riff) tag_RIFF _ d0 rfl
    (le_bytes_length _ _)
  have p2 := IfStream.read_drop data 8 4 (le_bytes 4 junk.wave) tag_WAVE _ d8 rfl
    (le_bytes_length _ _)
  have s1 := scan_chunk_fmt junk data 12 samples0 r0 16 af nc srb _ d12 haf hnc hsr
    (by norm_num) (by norm_num)
  have s2 := scan_chunk_data junk data 36 samples0 (to_signed 32 (le_value srb))
    payload.length payload [] d36 rfl heven hlen
  simp only [Nat.reduceAdd] at s1 p1 p2
  unfold read_wav_file
  simp only [IfStream.ofFile, p1, IfStream.seekg_cur, Nat.zero_add]
  simp only [Bool.false_eq_true, if_false, ne_eq, not_true_eq_false, p2, Nat.reduceAdd]
  have hfuel : data.length + 2 = (data.length + 1) + 1 := rfl
  rw [hfuel]
  simp only [scan_chunks, IfStream.good, Bool.not_false, Bool.and_self, if_true, s1, s2]

/-- Decoding of a container in the layout of the spec, whatever its `fmt ` fields say: the
`data` payload is read as 16-bit samples and the stored rate is returned. -/
theorem read_wav_layout (junk : Junk) (af nc : Nat) (r : Int) (br ba bits : Nat)
    (payload : List Byte) (samples0 : List ℚ) (r0 : Int)
    (hr1 : -2147483648 ≤ r) (hr2 : r < 2147483648)
    (heven : payload.length % 2 = 0) (hlen : payload.length < 2 ^ 32) :
    read_wav_file junk (some (wav_layout af nc r br ba bits payload)) samples0 r0
      = some (!((pcm_of_bytes payload).map pcm_to_float).isEmpty,
          (pcm_of_bytes payload).map pcm_to_float, r) := by
  have hrate : to_signed 32 (le_value (le_bytes 4 (to_unsigned 32 r))) = r := by
    rw [le_value_le_bytes]; exact to_signed_to_unsigned_32 r hr1 hr2
  have key := read_wav_file_parts junk (wav_layout af nc r br ba bits payload)
    (le_bytes 4 (36 + payload.length)) (le_bytes 2 af) (le_bytes 2 nc)
    (le_bytes 4 (to_unsigned 32 r)) (le_bytes 4 br ++ (le_bytes 2 ba ++ le_bytes 2 bits))
    payload samples0 r0 (by simp [wav_layout, List.append_assoc]) (le_bytes_length _ _)
    (le_bytes_length _ _) (le_bytes_length _ _) (le_bytes_length _ _)
    (by simp [le_bytes_length]) heven hlen
  rw [hrate] at key
  exact key

theorem le_bytes_mod (k v : Nat) : le_bytes k (v % 256 ^ k) = le_bytes k v := by
  induction k generalizing v with
  | zero => rfl
  | succ k ih =>
    simp only [le_bytes]
    congr 1
    · apply Fin.ext
      simp only [byteOf]
      rw [pow_succ, mul_comm, Nat.mod_mul_right_mod]
    · rw [← ih (v / 256), ← ih (v % 256 ^ (k + 1) / 256)]
      congr 1
      rw [pow_succ, mul_comm, Nat.mod_mul_right_div_self, Nat.mod_mod]

theorem pcm_bytes_eq_flatMap (s : List Int) :
    pcm_bytes s = s.flatMap (fun x => le_bytes 2 (to_unsigned 16 x)) := by
  induction s with
  | nil => rfl
  | cons x xs ih => simp [pcm_bytes, ih]

/-- Below `2 ^ 31` samples the file written is the layout of the spec with the PCM fields. -/
theorem write_wav_file_eq (s : List Int) (r : Int) (hn : s.length < 2 ^ 31) :
    write_wav_file true s r
      = some (wav_layout 1 1 r (to_unsigned 32 (r * 1 * 2)) 2 16 (pcm_bytes s)) := by
  have h1 : s.length * 2 % 2 ^ 32 = 2 * s.length := by
    norm_num at hn ⊢; omega
  have h2 : le_bytes 4 ((36 + 2 * s.length) % 2 ^ 32) = le_bytes 4 (36 + 2 * s.length) :=
    le_bytes_mod 4 _
  have h3 : (pcm_bytes s).take (2 * s.length) = pcm_bytes s :=
    List.take_of_length_le (by rw [pcm_bytes_length])
  unfold write_wav_file wav_layout
  simp only [Bool.not_true, Bool.false_eq_true, if_false, h1, h2, h3, pcm_bytes_length,
    Nat.cast_one]
  norm_num

/-- The length of the file written, for every number of samples. -/
theorem write_wav_file_length (s : List Int) (r : Int) :
    ∃ bytes, write_wav_file true s r = some bytes
      ∧ bytes.length = 44 + min (s.length * 2 % 2 ^ 32) (2 * s.length) := by
  unfold write_wav_file
  simp only [Bool.not_true, Bool.false_eq_true, if_false]
  refine ⟨_, rfl, ?_⟩
  simp only [List.length_append, le_bytes_length, List.length_take, pcm_bytes_length, tag_RIFF,
    tag_WAVE, tag_fmt, tag_data, List.length_cons, List.length_nil]

/-! ## Theorems: the chunk loop ends -/

namespace IfStream

theorem read_data (s : IfStream) (n : Nat) (buf : List Byte) : (s.read n buf).1.data = s.data := by
  unfold read
  dsimp only
  split_ifs <;> rfl

/-- A read that leaves `failbit` clear was made on a good stream and was complete. -/
theorem read_nofail (s : IfStream) (n : Nat) (buf : List Byte)
    (h : (s.read n buf).1.failbit = false) :
    s.good = true ∧ (s.read n buf).1.pos = s.pos + n ∧ (s.read n buf).1.eofbit = false
      ∧ (0 < n → s.pos + n ≤ s.data.length) := by
  have hlen : ((s.data.drop s.pos).take n).length = min n (s.data.length - s.pos) := by
    simp [List.length_take, List.length_drop]
  unfold read at h ⊢
  dsimp only at h ⊢
  by_cases hg : s.good = true
  · rw [if_pos hg] at h ⊢
    by_cases hshort : ((s.data.drop s.pos).take n).length < n
    · rw [if_pos hshort] at h
      simp at h
    · rw [if_neg hshort] at h ⊢
      have hge : n ≤ ((s.data.drop s.pos).take n).length := not_lt.mp hshort
      have he : s.eofbit = false := by
        unfold good at hg
        cases h1 : s.eofbit <;> simp_all
      refine ⟨hg, ?_, he, ?_⟩
      · show s.pos + ((s.data.drop s.pos).take n).length = s.pos + n
        rw [hlen] at hge ⊢
        omega
      · intro hn
        rw [hlen] at hge
        omega
  · rw [if_neg hg] at h
    simp at h

theorem seekg_cur_failbit (s : IfStream) (off : Nat) : (s.seekg_cur off).failbit = s.failbit := by
  unfold seekg_cur
  split_ifs <;> rfl

theorem seekg_cur_data (s : IfStream) (off : Nat) : (s.seekg_cur off).data = s.data := by
  unfold seekg_cur
  split_ifs <;> rfl

theorem seekg_cur_pos (s : IfStream) (off : Nat) (h : s.failbit = false) :
    (s.seekg_cur off).pos = s.pos + off := by
  unfold seekg_cur
  simp [h]

theorem good_failbit (s : IfStream) (h : s.good = true) : s.failbit = false := by
  unfold good at h
  cases h1 : s.failbit <;> simp_all

end IfStream

/-- A pass of the loop that neither breaks nor leaves the stream in a failed state has read a
complete 8-byte subchunk header and moved forward by at least as much. -/
theorem scan_chunk_progress (junk : Junk) (st st1 : WavScan)
    (hsc : scan_chunk junk st = some (st1, false))
    (hgood : st1.file.good = true) :
    st.file.pos + 8 ≤ st.file.data.length
      ∧ st.file.pos + 8 ≤ st1.file.pos
      ∧ st1.file.data = st.file.data := by
  have hfail := IfStream.good_failbit _ hgood
  unfold scan_chunk at hsc
  dsimp only at hsc
  split_ifs at hsc with h1 h2 h3
  · -- fmt
    obtain rfl : _ = st1 := (Prod.mk.inj (Option.some.inj hsc)).1
    dsimp only at hfail ⊢
    rw [IfStream.seekg_cur_failbit] at hfail
    obtain ⟨g4, p5, -, -⟩ := IfStream.read_nofail _ _ _ hfail
    obtain ⟨g3, p4, -, -⟩ := IfStream.read_nofail _ _ _ (IfStream.good_failbit _ g4)
    obtain ⟨g2, p3, -, -⟩ := IfStream.read_nofail _ _ _ (IfStream.good_failbit _ g3)
    obtain ⟨g1, p2, -, b2⟩ := IfStream.read_nofail _ _ _ (IfStream.good_failbit _ g2)
    obtain ⟨g0, p1, -, b1⟩ := IfStream.read_nofail _ _ _ (IfStream.good_failbit _ g1)
    rw [IfStream.seekg_cur_pos _ _ hfail, IfStream.seekg_cur_data]
    simp only [IfStream.read_data] at b2 ⊢
    have b2' := b2 (by norm_num)
    refine ⟨?_, ?_, trivial⟩ <;> omega
  · -- data: the pass breaks
    have := (Prod.mk.inj (Option.some.inj hsc)).2
    simp at this
  · obtain rfl : _ = st1 := (Prod.mk.inj (Option.some.inj hsc)).1
    dsimp only at hfail ⊢
    rw [IfStream.seekg_cur_failbit] at hfail
    obtain ⟨g1, p2, -, b2⟩ := IfStream.read_nofail _ _ _ hfail
    obtain ⟨g0, p1, -, b1⟩ := IfStream.read_nofail _ _ _ (IfStream.good_failbit _ g1)
    rw [IfStream.seekg_cur_pos _ _ hfail, IfStream.seekg_cur_data]
    simp only [IfStream.read_data] at b2 ⊢
    have b2' := b2 (by norm_num)
    refine ⟨?_, ?_, trivial⟩ <;> omega

/-- The chunk loop ends within the passes it is given: when it has no result, a pass that it
reached on a good stream of the same file is undefined. -/
theorem scan_chunks_none (junk : Junk) : ∀ (fuel : Nat) (st : WavScan),
    ((st.file.good = false ∧ 1 ≤ fuel)
      ∨ (st.file.data.length - st.file.pos) / 8 + 2 ≤ fuel) →
    scan_chunks junk fuel st = none →
    ∃ st1 : WavScan, st1.file.data = st.file.data ∧ st1.file.good = true
      ∧ scan_chunk junk st1 = none
  | 0, st, h, _ => by omega
  | fuel + 1, st, h, hn => by
    unfold scan_chunks at hn
    by_cases hg : st.file.good = true
    · simp only [hg, if_true] at hn
      rcases h with h | h
      · rw [h.1] at hg; simp at hg
      · cases hsc : scan_chunk junk st with
        | none => exact ⟨st, rfl, hg, hsc⟩
        | some p =>
          obtain ⟨st1, brk⟩ := p
          rw [hsc] at hn
          cases brk with
          | true => simp at hn
          | false =>
            simp only at hn
            by_cases hg1 : st1.file.good = true
            · obtain ⟨hp1, hp2, hp3⟩ := scan_chunk_progress junk st st1 hsc hg1
              obtain ⟨st2, d2, g2, n2⟩ := scan_chunks_none junk fuel st1
                (Or.inr (by rw [hp3]; omega)) hn
              exact ⟨st2, d2.trans hp3, g2, n2⟩
            · have hg1 : st1.file.good = false := by simpa using hg1
              cases fuel with
              | zero => omega
              | succ k =>
                unfold scan_chunks at hn
                simp [hg1] at hn
    · simp [hg] at hn

/-- Where `read_wav_file` has no result, a pass of its chunk loop over the file stored beyond
the vector `pcm`: the passes allowed always reach the end of the loop. -/
theorem read_wav_file_none (junk : Junk) (data : List Byte) (samples : List ℚ) (rate : Int)
    (h : read_wav_file junk (some data) samples rate = none) :
    ∃ st1 : WavScan, st1.file.data = data ∧ st1.file.good = true
      ∧ scan_chunk junk st1 = none := by
  unfold read_wav_file at h
  simp only at h
  split_ifs at h with h1 h2
  cases hs : scan_chunks junk (data.length + 2)
      ⟨(((IfStream.ofFile data).read 4 (le_bytes 4 junk.riff)).1.seekg_cur 4).read 4
        (le_bytes 4 junk.wave) |>.1, samples, rate⟩ with
  | some st1 => rw [hs] at h; simp at h
  | none =>
    obtain ⟨st1, d1, g1, n1⟩ := scan_chunks_none junk _ _ (Or.inr (by
      simp only [IfStream.read_data, IfStream.seekg_cur_data, IfStream.ofFile]
      omega)) hs
    refine ⟨st1, ?_, g1, n1⟩
    rw [d1]
    simp only [IfStream.read_data, IfStream.seekg_cur_data, IfStream.ofFile]

/-- Wherever `read_wav_file`, called with an empty buffer, has a result, it reports success if
and only if the buffer it leaves is non-empty. -/
theorem read_wav_file_consistent (junk : Junk) (file : Option (List Byte)) (r0 : Int)
    (b : Bool) (s : List ℚ) (r : Int)
    (h : read_wav_file junk file [] r0 = some (b, s, r)) : b = true ↔ s ≠ [] := by
  unfold read_wav_file at h
  cases file with
  | none =>
    simp only [Option.some.injEq, Prod.mk.injEq] at h
    obtain ⟨rfl, rfl, -⟩ := h
    simp
  | some data =>
    simp only at h
    split_ifs at h with h1 h2
    · simp only [Option.some.injEq, Prod.mk.injEq] at h
      obtain ⟨rfl, rfl, -⟩ := h
      simp
    · simp only [Option.some.injEq, Prod.mk.injEq] at h
      obtain ⟨rfl, rfl, -⟩ := h
      simp
    · cases hs : scan_chunks junk (data.length + 2)
          ⟨(((IfStream.ofFile data).read 4 (le_bytes 4 junk.riff)).1.seekg_cur 4).read 4
            (le_bytes 4 junk.wave) |>.1, [], r0⟩ with
      | none => rw [hs] at h; simp at h
      | some st1 =>
        rw [hs] at h
        simp only [Option.some.injEq, Prod.mk.injEq] at h
        obtain ⟨rfl, rfl, -⟩ := h
        cases st1.samples <;> simp

namespace IfStream

/-- A read that leaves `failbit` clear has filled the whole buffer from the file. -/
theorem read_nofail_buf (s : IfStream) (n : Nat) (buf : List Byte) (hbuf : buf.length = n)
    (h : (s.read n buf).1.failbit = false) :
    (s.read n buf).2 = (s.data.drop s.pos).take n := by
  have hlen : ((s.data.drop s.pos).take n).length ≤ n := by
    simp [List.length_take]
  unfold read at h ⊢
  dsimp only at h ⊢
  generalize (s.data.drop s.pos).take n = got at h hlen ⊢
  by_cases hg : s.good = true
  · rw [if_pos hg] at h ⊢
    by_cases hshort : got.length < n
    · rw [if_pos hshort] at h
      simp at h
    · have hge : got.length = n := by omega
      dsimp only
      rw [hge, List.drop_of_length_le (by omega), List.append_nil]
  · rw [if_neg hg] at h
    simp at h

end IfStream

/-- A file without the `RIFF` magic in its first four bytes or without `WAVE` in bytes 8 to 11
(a file too short to hold them included) is rejected and the empty buffer stays empty,
whatever the uninitialised locals held. -/
theorem read_wav_file_bad_magic (junk : Junk) (data : List Byte) (r0 : Int)
    (h : ¬(data.take 4 = tag_RIFF ∧ (data.drop 8).take 4 = tag_WAVE)) :
    read_wav_file junk (some data) [] r0 = some (false, [], r0) := by
  unfold read_wav_file
  dsimp only
  split_ifs with h1 h2
  · rfl
  · rfl
  · -- both buffers matched: one of the two reads came up short, so the stream has failed
    have hfail : ((((IfStream.ofFile data).read 4 (le_bytes 4 junk.riff)).1.seekg_cur 4).read 4
        (le_bytes 4 junk.wave)).1.failbit = true := by
      by_contra hc
      have hc : ((((IfStream.ofFile data).read 4 (le_bytes 4 junk.riff)).1.seekg_cur 4).read 4
        (le_bytes 4 junk.wave)).1.failbit = false := by simpa using hc
      obtain ⟨g2, -, -, -⟩ := IfStream.read_nofail _ _ _ hc
      have f2 := IfStream.good_failbit _ g2
      rw [IfStream.seekg_cur_failbit] at f2
      have b1 := IfStream.read_nofail_buf _ 4 _ (le_bytes_length _ _) f2
      have b2 := IfStream.read_nofail_buf _ 4 _ (le_bytes_length _ _) hc
      obtain ⟨-, p1, -, -⟩ := IfStream.read_nofail _ _ _ f2
      rw [IfStream.seekg_cur_data, IfStream.read_data, IfStream.seekg_cur_pos _ _ f2, p1] at b2
      simp only [IfStream.ofFile, Nat.zero_add, List.drop_zero] at b1 b2
      apply h
      constructor
      · rw [← b1]; simpa using h1
      · rw [← b2]; simpa [IfStream.ofFile] using h2
    have hfuel : data.length + 2 = (data.length + 1) + 1 := rfl
    rw [hfuel]
    simp only [scan_chunks, IfStream.good, hfail, Bool.not_true, Bool.and_false,
      Bool.false_eq_true, if_false]
    rfl

/-! ## Claims about the WAV codec -/

/-- C1, as amended: WAV round trip.  For every non-empty sequence of fewer than `2 ^ 31`
16-bit samples and every `int` sample rate, decoding with `read_wav_file` the bytes that
`write_wav_file` wrote succeeds and returns that rate with the samples in order, each divided
by 32768, so that multiplying by 32768 recovers every 16-bit value. -/
theorem C1_wav_round_trip (junk : Junk) (s : List Int) (r r0 : Int)
    (hne : s ≠ []) (hn : s.length < 2 ^ 31)
    (hs : ∀ x ∈ s, -32768 ≤ x ∧ x < 32768)
    (hr : -2147483648 ≤ r ∧ r < 2147483648) :
    read_wav_file junk (write_wav_file true s r) [] r0
        = some (true, s.map (fun (x : Int) => (x : ℚ) / 32768), r)
      ∧ (s.map (fun (x : Int) => (x : ℚ) / 32768)).map (fun (y : ℚ) => y * 32768)
        = s.map (fun (x : Int) => (x : ℚ)) := by
  constructor
  · rw [write_wav_file_eq s r hn,
      read_wav_layout junk 1 1 r _ 2 16 (pcm_bytes s) [] r0 hr.1 hr.2
        (by rw [pcm_bytes_length]; omega)
        (by rw [pcm_bytes_length]; norm_num at hn ⊢; omega),
      pcm_of_bytes_pcm_bytes s hs]
    have hmap : s.map pcm_to_float = s.map (fun (x : Int) => (x : ℚ) / 32768) :=
      List.map_congr_left (fun x hx => pcm_to_float_eq x (hs x hx).1 (hs x hx).2)
    rw [hmap]
    cases s with
    | nil => exact absurd rfl hne
    | cons x xs => rfl
  · rw [List.map_map]
    apply List.map_congr_left
    intro x _
    simp

/-- C1, witness: the round trip of the two samples `1, -2` at 22050 Hz. -/
theorem C1_wav_round_trip_witness :
    ([1, -2] : List Int) ≠ []
      ∧ (read_wav_file ⟨0, 0, 0, 0, 0, 0, 0⟩ (write_wav_file true [1, -2] 22050) [] 0
          = some (true, ([1, -2] : List Int).map (fun (x : Int) => (x : ℚ) / 32768), 22050)
        ∧ (([1, -2] : List Int).map (fun (x : Int) => (x : ℚ) / 32768)).map (fun (y : ℚ) => y * 32768)
          = ([1, -2] : List Int).map (fun (x : Int) => (x : ℚ))) :=
  ⟨by decide, C1_wav_round_trip ⟨0, 0, 0, 0, 0, 0, 0⟩ [1, -2] 22050 0 (by decide)
    (by norm_num) (by decide) (by norm_num)⟩

/-- C1, counterexample: the empty sample sequence does not survive the round trip, because
`read_wav_file` reports failure whenever the buffer it decoded is empty. -/
theorem C1_empty_sequence_fails :
    read_wav_file ⟨0, 0, 0, 0, 0, 0, 0⟩ (write_wav_file true [] 16000) [] 0
      = some (false, [], 16000) := by
  decide

/-- C2, failing input: a file with valid magic and no `data` subchunk that `read_wav_file`
accepts.  The file holds one 2-byte subchunk with id `xata` followed by the single byte `d`.
The second pass of the chunk loop reads that byte into `chunk_id`, comes up short, and compares
the buffer with its three stale bytes `ata`; `chunk_size` still holds `2`.  The `Junk` given is
what the first pass left in the two locals. -/
theorem C2_stale_chunk_id_accepted :
    read_wav_file ⟨0, 0, le_value [0x78, 0x61, 0x74, 0x61], 2, 0, 0, 0⟩
        (some (tag_RIFF ++ [0, 0, 0, 0] ++ tag_WAVE
          ++ [0x78, 0x61, 0x74, 0x61] ++ [2, 0, 0, 0] ++ [0, 0] ++ [0x64])) [] 0
      = some (true, [pcm_to_float 0], 0) := by
  rfl

/-- C3, failing input: a file on which `read_wav_file` has no defined result.  The 17 bytes
are the valid magic and a `data` subchunk that declares one byte and holds it.  The vector
`pcm` is given `1 / 2 = 0` elements and `file.read` stores the byte through its data pointer,
beyond the vector, so that nothing is reported for this byte sequence. -/
theorem C3_odd_data_chunk_overruns :
    read_wav_file ⟨0, 0, 0, 0, 0, 0, 0⟩
        (some (tag_RIFF ++ [0, 0, 0, 0] ++ tag_WAVE ++ tag_data ++ [1, 0, 0, 0] ++ [0xAA])) [] 7
      = none := by
  rfl

/-- C4, counterexample: a container whose `fmt ` subchunk declares audio format 3 (IEEE
float) and 32 bits per sample is decoded with success as two 16-bit samples. -/
theorem C4_float_format_accepted :
    read_wav_file ⟨0, 0, 0, 0, 0, 0, 0⟩
        (some (wav_layout 3 1 16000 64000 4 32 [1, 0, 2, 0])) [] 0
      = some (true, [pcm_to_float 1, pcm_to_float 2], 16000) := by
  rfl

/-- C4, as amended: `read_wav_file` does not examine the audio format or the bit depth.  For
every container in the layout of the spec, whatever audio format, channel count, byte rate,
block align and bit depth its `fmt ` subchunk declares, the `data` payload is decoded as 16-bit
PCM: success with every sample divided by 32768 when the payload holds a sample, failure with
an empty buffer when it holds none. -/
theorem C4_format_fields_ignored (junk : Junk) (audio_format num_channels : Nat) (r : Int)
    (byte_rate block_align bits_per_sample : Nat) (s : List Int) (r0 : Int)
    (hn : s.length < 2 ^ 31) (hs : ∀ x ∈ s, -32768 ≤ x ∧ x < 32768)
    (hr : -2147483648 ≤ r ∧ r < 2147483648) :
    read_wav_file junk
        (some (wav_layout audio_format num_channels r byte_rate block_align bits_per_sample
          (pcm_bytes s))) [] r0
      = some (!s.isEmpty, s.map (fun (x : Int) => (x : ℚ) / 32768), r) := by
  rw [read_wav_layout junk _ _ r _ _ _ (pcm_bytes s) [] r0 hr.1 hr.2
      (by rw [pcm_bytes_length]; omega)
      (by rw [pcm_bytes_length]; norm_num at hn ⊢; omega),
    pcm_of_bytes_pcm_bytes s hs]
  have hmap : s.map pcm_to_float = s.map (fun (x : Int) => (x : ℚ) / 32768) :=
    List.map_congr_left (fun x hx => pcm_to_float_eq x (hs x hx).1 (hs x hx).2)
  rw [hmap]
  cases s <;> rfl

/-- C4, witness: a 24-bit, format-3, stereo declaration over the two samples `7, -7`. -/
theorem C4_format_fields_ignored_witness :
    (([7, -7] : List Int).length < 2 ^ 31)
      ∧ read_wav_file ⟨0, 0, 0, 0, 0, 0, 0⟩
          (some (wav_layout 3 2 44100 0 6 24 (pcm_bytes [7, -7]))) [] 0
        = some (!([7, -7] : List Int).isEmpty,
            ([7, -7] : List Int).map (fun (x : Int) => (x : ℚ) / 32768), 44100) :=
  ⟨by norm_num, C4_format_fields_ignored ⟨0, 0, 0, 0, 0, 0, 0⟩ 3 2 44100 0 6 24 [7, -7] 0
    (by norm_num) (by decide) (by norm_num)⟩

/-- C5, as amended: encoder layout.  For every sequence of `n < 2 ^ 31` 16-bit samples and
every sample rate `r`, `write_wav_file` emits exactly `44 + 2 n` bytes: `RIFF`, LE32 of
`36 + 2 n`, `WAVE`, `fmt `, LE32 of 16, LE16 of 1 (audio format), LE16 of 1 (channels), LE32 of
`r`, LE32 of `2 r` (byte rate), LE16 of 2 (block align), LE16 of 16 (bits per sample), `data`,
LE32 of `2 n`, then the samples in order as little-endian 16-bit values; the 32-bit fields are
taken modulo `2 ^ 32`. -/
theorem C5_encoder_layout (s : List Int) (r : Int) (hn : s.length < 2 ^ 31) :
    ∃ bytes, write_wav_file true s r = some bytes
      ∧ bytes.length = 44 + 2 * s.length
      ∧ bytes = tag_RIFF ++ le_bytes 4 (36 + 2 * s.length) ++ tag_WAVE
          ++ tag_fmt ++ le_bytes 4 16 ++ le_bytes 2 1 ++ le_bytes 2 1
          ++ le_bytes 4 (to_unsigned 32 r) ++ le_bytes 4 (to_unsigned 32 (2 * r))
          ++ le_bytes 2 2 ++ le_bytes 2 16
          ++ tag_data ++ le_bytes 4 (2 * s.length)
          ++ s.flatMap (fun x => le_bytes 2 (to_unsigned 16 x)) := by
  refine ⟨_, write_wav_file_eq s r hn, ?_, ?_⟩
  · simp only [wav_layout, List.length_append, le_bytes_length, pcm_bytes_length, tag_RIFF,
      tag_WAVE, tag_fmt, tag_data, List.length_cons, List.length_nil]
  · have e : r * 1 * 2 = 2 * r := by ring
    simp only [wav_layout, pcm_bytes_length, e]
    rw [pcm_bytes_eq_flatMap]

/-- C5, witness: the layout of the file written for the three samples `0, 1, -1`. -/
theorem C5_encoder_layout_witness :
    (([0, 1, -1] : List Int).length < 2 ^ 31)
      ∧ ∃ bytes, write_wav_file true [0, 1, -1] 22050 = some bytes
        ∧ bytes.length = 44 + 2 * ([0, 1, -1] : List Int).length
        ∧ bytes = tag_RIFF ++ le_bytes 4 (36 + 2 * ([0, 1, -1] : List Int).length) ++ tag_WAVE
            ++ tag_fmt ++ le_bytes 4 16 ++ le_bytes 2 1 ++ le_bytes 2 1
            ++ le_bytes 4 (to_unsigned 32 22050) ++ le_bytes 4 (to_unsigned 32 (2 * 22050))
            ++ le_bytes 2 2 ++ le_bytes 2 16
            ++ tag_data ++ le_bytes 4 (2 * ([0, 1, -1] : List Int).length)
            ++ ([0, 1, -1] : List Int).flatMap (fun x => le_bytes 2 (to_unsigned 16 x)) :=
  ⟨by norm_num, C5_encoder_layout [0, 1, -1] 22050 (by norm_num)⟩

/-- C5, counterexample: for `2 ^ 31` samples the 32-bit byte count wraps to zero and the file
written is the bare 44-byte header, not `44 + 2 * 2 ^ 31` bytes. -/
theorem C5_payload_truncated :
    ∃ bytes, write_wav_file true (List.replicate (2 ^ 31) 0) 16000 = some bytes
      ∧ bytes.length = 44
      ∧ bytes.length ≠ 44 + 2 * (List.replicate (2 ^ 31) (0 : Int)).length := by
  obtain ⟨bytes, h1, h2⟩ := write_wav_file_length (List.replicate (2 ^ 31) 0) 16000
  rw [List.length_replicate] at h2
  have h3 : bytes.length = 44 := by rw [h2]; norm_num
  refine ⟨bytes, h1, h3, ?_⟩
  rw [h3, List.length_replicate]
  norm_num

/-! ## Theorems: resampler -/

/-- Relative error of a `double` operation with a positive result in the normal range. -/
theorem f64_err (x : ℚ) (hx : 0 < x) (hnorm : (2 : ℚ) ^ (-1022 : Int) ≤ x) :
    |f64 x - x| ≤ x / 2 ^ 53 := by
  have h := rnd_rel_err_pos 53 (-1022) x hx hnorm
  have e : (2 : ℚ) ^ (-((53 : Nat) : Int)) = 1 / 2 ^ 53 := by
    rw [zpow_neg, zpow_natCast, one_div]
  rw [e] at h
  unfold f64
  calc |rnd 53 (-1022) x - x| ≤ x * (1 / 2 ^ 53) := h
    _ = x / 2 ^ 53 := by ring

/-- Natural numbers below `2 ^ 53` are `double` values. -/
theorem f64_nat (n : Nat) (h : n < 2 ^ 53) : f64 (n : ℚ) = n := by
  have hM : |(n : Int)| < 2 ^ 53 := by
    rw [abs_of_nonneg (by positivity)]; exact_mod_cast h
  have := rnd_exact 53 (-1022) (n : Int) 0 hM (by norm_num)
  simpa [f64] using this

theorem tiny_le (x : ℚ) (h : (1 : ℚ) / 2 ^ 20 ≤ x) : (2 : ℚ) ^ (-1022 : Int) ≤ x := by
  have h1 : (2 : ℚ) ^ (-1022 : Int) ≤ (2 : ℚ) ^ (-20 : Int) := two_zpow_le_of_le _ _ (by norm_num)
  have h2 : (2 : ℚ) ^ (-20 : Int) = 1 / 2 ^ 20 := by
    rw [zpow_neg, one_div]; norm_num
  rw [h2] at h1
  exact le_trans h1 h

theorem trunc_of_nonneg (x : ℚ) (h : 0 ≤ x) : trunc x = ⌊x⌋ := by
  unfold trunc
  rw [if_neg (not_lt.mpr h)]

theorem to_size_t_of_nonneg (x : ℚ) (h : 0 ≤ x) (hlt : x < 2 ^ 64) :
    to_size_t x = some ⌊x⌋.toNat := by
  unfold to_size_t
  rw [trunc_of_nonneg x h]
  have h1 : (0 : Int) ≤ ⌊x⌋ := Int.floor_nonneg.mpr h
  have h2 : ⌊x⌋ < 2 ^ 64 := by
    rw [Int.floor_lt]; exact_mod_cast hlt
  rw [if_pos ⟨h1, h2⟩]

theorem resample_sample_some (input : List ℚ) (ratio : ℚ) (i idx0 : Nat)
    (h0 : to_size_t (f64 (f64 (i : ℚ) / ratio)) = some idx0)
    (hlt : idx0 < input.length) (hlen : input.length < 2 ^ 64) :
    ∃ y, resample_sample input ratio i = some y := by
  unfold resample_sample
  simp only [h0]
  have h1 : min ((idx0 + 1) % 2 ^ 64) ((input.length + 2 ^ 64 - 1) % 2 ^ 64) < input.length := by
    have e1 : (idx0 + 1) % 2 ^ 64 = idx0 + 1 := Nat.mod_eq_of_lt (by omega)
    have e2 : (input.length + 2 ^ 64 - 1) % 2 ^ 64 = input.length - 1 := by
      have : input.length + 2 ^ 64 - 1 = (input.length - 1) + 2 ^ 64 := by omega
      rw [this, Nat.add_mod_right]
      exact Nat.mod_eq_of_lt (by omega)
    rw [e1, e2]
    omega
  rw [List.getElem?_eq_getElem hlt, List.getElem?_eq_getElem h1]
  exact ⟨_, rfl⟩

theorem resample_loop_some (input : List ℚ) (ratio : ℚ) : ∀ (count i : Nat),
    (∀ j, i ≤ j → j < i + count → ∃ y, resample_sample input ratio j = some y) →
    ∃ out, resample_loop input ratio count i = some out ∧ out.length = count
  | 0, _, _ => ⟨[], rfl, rfl⟩
  | count + 1, i, h => by
    obtain ⟨y, hy⟩ := h i le_rfl (by omega)
    obtain ⟨ys, hys, hl⟩ := resample_loop_some input ratio count (i + 1)
      (fun j h1 h2 => h j (by omega) (by omega))
    refine ⟨y :: ys, ?_, by simp [hl]⟩
    unfold resample_loop
    rw [hy, hys]

/-- Error of the rounded ratio and of the rounded product in `resample_to_16k`. -/
theorem resample_numeric (n q ratio prod : ℚ) (hn1 : 1 ≤ n) (hn : n ≤ 2 ^ 31)
    (hq : 1 / 2 ^ 18 ≤ q) (hq2 : q ≤ 16000)
    (hr : |ratio - q| ≤ q / 2 ^ 53) (hp : |prod - n * ratio| ≤ n * ratio / 2 ^ 53) :
    1 / 2 ^ 19 ≤ ratio ∧ ratio ≤ 16001 ∧ |prod - n * q| ≤ 1 / 64 ∧ 0 ≤ prod
      ∧ prod ≤ n * ratio * (1 + 1 / 2 ^ 53) := by
  have hq0 : 0 < q := lt_of_lt_of_le (by norm_num) hq
  rw [abs_le] at hr hp
  obtain ⟨hr1, hr2⟩ := hr
  obtain ⟨hp1, hp2⟩ := hp
  have hra : 1 / 2 ^ 19 ≤ ratio := by
    have : q / 2 ^ 53 ≤ q / 2 := by
      apply div_le_div_of_nonneg_left hq0.le (by norm_num) (by norm_num)
    have : q / 2 ≥ 1 / 2 ^ 19 := by
      have : (1 : ℚ) / 2 ^ 19 = (1 / 2 ^ 18) / 2 := by norm_num
      rw [this]; linarith
    linarith
  have hrb : ratio ≤ 16001 := by
    have : q / 2 ^ 53 ≤ 16000 / 2 ^ 53 := div_le_div_of_nonneg_right hq2 (by norm_num)
    have : (16000 : ℚ) / 2 ^ 53 ≤ 1 := by norm_num
    linarith
  have hr0 : 0 < ratio := lt_of_lt_of_le (by norm_num) hra
  have hn0 : 0 < n := by linarith
  have hz0 : 0 < n * ratio := mul_pos hn0 hr0
  have hz : n * ratio ≤ 2 ^ 31 * 16001 := by
    calc n * ratio ≤ 2 ^ 31 * ratio := mul_le_mul_of_nonneg_right hn hr0.le
      _ ≤ 2 ^ 31 * 16001 := mul_le_mul_of_nonneg_left hrb (by norm_num)
  have hnq : n * q ≤ 2 ^ 31 * 16000 := by
    calc n * q ≤ 2 ^ 31 * q := mul_le_mul_of_nonneg_right hn hq0.le
      _ ≤ 2 ^ 31 * 16000 := mul_le_mul_of_nonneg_left hq2 (by norm_num)
  have e1 : n * ratio / 2 ^ 53 ≤ 2 ^ 31 * 16001 / 2 ^ 53 :=
    div_le_div_of_nonneg_right hz (by norm_num)
  have e2 : n * (q / 2 ^ 53) ≤ 2 ^ 31 * 16000 / 2 ^ 53 := by
    rw [← mul_div_assoc]
    exact div_le_div_of_nonneg_right hnq (by norm_num)
  have e3 : n * (ratio - q) ≤ n * (q / 2 ^ 53) := mul_le_mul_of_nonneg_left hr2 hn0.le
  have e4 : n * (-(q / 2 ^ 53)) ≤ n * (ratio - q) := mul_le_mul_of_nonneg_left hr1 hn0.le
  have c1 : (2 : ℚ) ^ 31 * 16001 / 2 ^ 53 + 2 ^ 31 * 16000 / 2 ^ 53 ≤ 1 / 64 := by norm_num
  refine ⟨hra, hrb, ?_, ?_, ?_⟩
  · rw [abs_le]
    constructor <;> nlinarith
  · have : n * ratio / 2 ^ 53 ≤ n * ratio := by
      apply div_le_self hz0.le; norm_num
    linarith
  · have : n * ratio * (1 + 1 / 2 ^ 53) = n * ratio + n * ratio / 2 ^ 53 := by ring
    rw [this]; linarith

/-- Every source position computed by the interpolation loop lies inside the input. -/
theorem resample_index (n ratio prod i src : ℚ) (hn : n ≤ 2 ^ 31)
    (hra : 1 / 2 ^ 19 ≤ ratio) (hrb : ratio ≤ 16001)
    (hprod : prod ≤ n * ratio * (1 + 1 / 2 ^ 53)) (hi0 : 0 ≤ i) (hi : i + 1 ≤ prod)
    (hsrc : |src - i / ratio| ≤ i / ratio / 2 ^ 53) :
    0 ≤ src ∧ src < n := by
  have hr0 : 0 < ratio := lt_of_lt_of_le (by norm_num) hra
  have hy0 : 0 ≤ i / ratio := div_nonneg hi0 hr0.le
  rw [abs_le] at hsrc
  obtain ⟨h1, h2⟩ := hsrc
  have hle : i / ratio / 2 ^ 53 ≤ i / ratio := div_le_self hy0 (by norm_num)
  constructor
  · linarith
  · -- i ≤ n * ratio * (1 + u) - 1
    have hi' : i ≤ n * ratio * (1 + 1 / 2 ^ 53) - 1 := by linarith
    have hy : i / ratio ≤ n * (1 + 1 / 2 ^ 53) - 1 / ratio := by
      rw [div_le_iff₀ hr0]
      have : (n * (1 + 1 / 2 ^ 53) - 1 / ratio) * ratio = n * ratio * (1 + 1 / 2 ^ 53) - 1 := by
        field_simp
        ring
      rw [this]; exact hi'
    have hinv : 1 / 16001 ≤ 1 / ratio := by
      apply div_le_div_of_nonneg_left (by norm_num) hr0 hrb
    have hn0 : 0 ≤ n := by
      by_contra hc
      push_neg at hc
      have : n * ratio * (1 + 1 / 2 ^ 53) < 0 := by
        have : n * ratio < 0 := mul_neg_of_neg_of_pos hc hr0
        nlinarith
      linarith
    have hy2 : i / ratio ≤ n * (1 + 1 / 2 ^ 53) - 1 / 16001 := by linarith
    have hs : src ≤ (n * (1 + 1 / 2 ^ 53) - 1 / 16001) * (1 + 1 / 2 ^ 53) := by
      have : i / ratio + i / ratio / 2 ^ 53 = i / ratio * (1 + 1 / 2 ^ 53) := by ring
      have h3 : src ≤ i / ratio * (1 + 1 / 2 ^ 53) := by linarith
      exact le_trans h3 (mul_le_mul_of_nonneg_right hy2 (by norm_num))
    have hfin : (n * (1 + 1 / 2 ^ 53) - 1 / 16001) * (1 + 1 / 2 ^ 53) < n := by
      nlinarith
    linarith

theorem f64_zero : f64 0 = 0 := by simp [f64, rnd_zero]

/-- The function `resample_to_16k` is defined on every input of fewer than `2 ^ 31` samples at a
positive rate other than 16000: no index leaves the input, and the output has the length that
the `double` product gives. -/
theorem resample_to_16k_defined (input : List ℚ) (R : Int)
    (hn : input.length < 2 ^ 31) (hR0 : 0 < R) (hR : R < 2 ^ 31) (hne : R ≠ 16000) :
    ∃ out, resample_to_16k input R = some (true, out)
      ∧ (out.length : Int) = ⌊f64 (f64 (input.length : ℚ) * f64 ((16000 : ℚ) / (R : ℚ)))⌋
      ∧ |f64 (f64 (input.length : ℚ) * f64 ((16000 : ℚ) / (R : ℚ)))
          - (input.length : ℚ) * ((16000 : ℚ) / (R : ℚ))| ≤ 1 / 64 := by
  have hRq0 : (0 : ℚ) < (R : ℚ) := by exact_mod_cast hR0
  have hRq : (R : ℚ) ≤ 2 ^ 31 := by exact_mod_cast hR.le
  have hR1 : (1 : ℚ) ≤ (R : ℚ) := by exact_mod_cast hR0
  have hw : ((WHISPER_SAMPLE_RATE : Int) : ℚ) = 16000 := by simp [WHISPER_SAMPLE_RATE]
  have hfn : f64 (input.length : ℚ) = input.length := f64_nat _ (by omega)
  unfold resample_to_16k
  rw [if_neg (by simpa [WHISPER_SAMPLE_RATE] using hne), if_neg (by omega)]
  simp only [hw, hfn]
  set q : ℚ := (16000 : ℚ) / (R : ℚ) with hq
  set ratio : ℚ := f64 q with hratio
  set prod : ℚ := f64 ((input.length : ℚ) * ratio) with hprod
  have hq1 : 1 / 2 ^ 18 ≤ q := by
    rw [hq, le_div_iff₀ hRq0]
    calc (1 : ℚ) / 2 ^ 18 * R ≤ 1 / 2 ^ 18 * 2 ^ 31 := by
          apply mul_le_mul_of_nonneg_left hRq (by norm_num)
      _ ≤ 16000 := by norm_num
  have hq2 : q ≤ 16000 := by
    rw [hq, div_le_iff₀ hRq0]
    nlinarith
  have hq0 : 0 < q := lt_of_lt_of_le (by norm_num) hq1
  have hr := f64_err q hq0 (tiny_le q (le_trans (by norm_num) hq1))
  rw [← hratio] at hr
  rcases Nat.eq_zero_or_pos input.length with h0 | hpos
  · -- no input sample
    have hp0 : prod = 0 := by rw [hprod, h0]; simp [f64_zero]
    rw [hp0, to_size_t_of_nonneg 0 le_rfl (by norm_num)]
    refine ⟨[], ?_, ?_, ?_⟩
    · simp [resample_loop]
    · simp
    · rw [h0]; simp
  · have hn1 : (1 : ℚ) ≤ (input.length : ℚ) := by exact_mod_cast hpos
    have hnq : (input.length : ℚ) ≤ 2 ^ 31 := by exact_mod_cast hn.le
    have hra0 : 1 / 2 ^ 19 ≤ ratio := by
      rw [abs_le] at hr
      have : q / 2 ^ 53 ≤ q / 2 := div_le_div_of_nonneg_left hq0.le (by norm_num) (by norm_num)
      have : (1 : ℚ) / 2 ^ 19 = (1 / 2 ^ 18) / 2 := by norm_num
      linarith [hr.1]
    have hr0 : 0 < ratio := lt_of_lt_of_le (by norm_num) hra0
    have hz : 1 / 2 ^ 20 ≤ (input.length : ℚ) * ratio := by
      calc (1 : ℚ) / 2 ^ 20 ≤ 1 / 2 ^ 19 := by norm_num
        _ ≤ ratio := hra0
        _ = 1 * ratio := (one_mul _).symm
        _ ≤ (input.length : ℚ) * ratio := mul_le_mul_of_nonneg_right hn1 hr0.le
    have hp := f64_err ((input.length : ℚ) * ratio) (lt_of_lt_of_le (by norm_num) hz)
      (tiny_le _ hz)
    rw [← hprod] at hp
    obtain ⟨hra, hrb, herr, hprod0, hprodle⟩ :=
      resample_numeric (input.length : ℚ) q ratio prod hn1 hnq hq1 hq2 hr hp
    have hprod_lt : prod < 2 ^ 46 := by
      have : (input.length : ℚ) * ratio ≤ 2 ^ 31 * 16001 := by
        calc (input.length : ℚ) * ratio ≤ 2 ^ 31 * ratio :=
              mul_le_mul_of_nonneg_right hnq hr0.le
          _ ≤ 2 ^ 31 * 16001 := mul_le_mul_of_nonneg_left hrb (by norm_num)
      nlinarith
    rw [to_size_t_of_nonneg prod hprod0 (lt_trans hprod_lt (by norm_num))]
    have hfl0 : (0 : Int) ≤ ⌊prod⌋ := Int.floor_nonneg.mpr hprod0
    have hfloor : ((⌊prod⌋.toNat : Nat) : ℚ) ≤ prod := by
      have h1 : ((⌊prod⌋.toNat : Nat) : Int) = ⌊prod⌋ := Int.toNat_of_nonneg hfl0
      have h2 : ((⌊prod⌋.toNat : Nat) : ℚ) = ((⌊prod⌋ : Int) : ℚ) := by exact_mod_cast h1
      rw [h2]; exact Int.floor_le prod
    obtain ⟨out, hout, hlen⟩ := resample_loop_some input ratio ⌊prod⌋.toNat 0 (by
      intro j _ hj
      have hj1 : (j : ℚ) + 1 ≤ prod := by
        have : ((j + 1 : Nat) : ℚ) ≤ ((⌊prod⌋.toNat : Nat) : ℚ) := by
          exact_mod_cast (by omega : j + 1 ≤ ⌊prod⌋.toNat)
        push_cast at this
        linarith
      have hj53 : j < 2 ^ 53 := by
        have : (j : ℚ) < 2 ^ 53 := by
          have : (2 : ℚ) ^ 46 ≤ 2 ^ 53 := by norm_num
          linarith
        exact_mod_cast this
      have hfj : f64 (j : ℚ) = j := f64_nat j hj53
      have hsrc : |f64 ((j : ℚ) / ratio) - (j : ℚ) / ratio| ≤ (j : ℚ) / ratio / 2 ^ 53 := by
        rcases Nat.eq_zero_or_pos j with hj0 | hjpos
        · subst hj0; simp [f64_zero]
        · have hj1' : (1 : ℚ) ≤ (j : ℚ) := by exact_mod_cast hjpos
          have hy : 1 / 2 ^ 20 ≤ (j : ℚ) / ratio := by
            rw [le_div_iff₀ hr0]
            calc (1 : ℚ) / 2 ^ 20 * ratio ≤ 1 / 2 ^ 20 * 16001 :=
                  mul_le_mul_of_nonneg_left hrb (by norm_num)
              _ ≤ 1 := by norm_num
              _ ≤ j := hj1'
          exact f64_err _ (lt_of_lt_of_le (by norm_num) hy) (tiny_le _ hy)
      obtain ⟨hs0, hsn⟩ := resample_index (input.length : ℚ) ratio prod (j : ℚ)
        (f64 ((j : ℚ) / ratio)) hnq hra hrb hprodle (by positivity) hj1 hsrc
      have hsz := to_size_t_of_nonneg (f64 ((j : ℚ) / ratio)) hs0
        (lt_of_lt_of_le hsn (le_trans hnq (by norm_num)))
      apply resample_sample_some input ratio j _ (by rw [hfj]; exact hsz) _ (by omega)
      have hfl : ⌊f64 ((j : ℚ) / ratio)⌋ < (input.length : Int) := by
        rw [Int.floor_lt]; exact_mod_cast hsn
      have := Int.floor_nonneg.mpr hs0
      omega)
    refine ⟨out, ?_, ?_, herr⟩
    · simp only [hout]
    · rw [hlen, Int.toNat_of_nonneg hfl0]

theorem resample_size_5507 :
    ⌊f64 (f64 ((5507 : Nat) : ℚ) * f64 ((16000 : ℚ) / ((44056 : Int) : ℚ)))⌋ = 1999 := by
  decide!

/-! ## Claims about the resampler -/

/-- C6, as amended: resample length law.  For every input buffer of length `n < 2 ^ 31` and
every source rate `0 < R < 2 ^ 31`, `resample_to_16k` returns a buffer whose length differs from
`round (n * 16000 / R)` by at most one sample; in particular for `n = 22050` at `R = 22050` the
length is within `16000 ± 1`.  (The length is the `double` product of `n` and the rounded ratio
`16000 / R`, truncated; it can fall one short of `floor (n * 16000 / R)`.) -/
theorem C6_resample_length (input : List ℚ) (R : Int)
    (hn : input.length < 2 ^ 31) (hR0 : 0 < R) (hR : R < 2 ^ 31) :
    ∃ out, resample_to_16k input R = some (true, out)
      ∧ |(out.length : Int) - round ((input.length : ℚ) * 16000 / (R : ℚ))| ≤ 1
      ∧ (input.length = 22050 → R = 22050 → |(out.length : Int) - 16000| ≤ 1) := by
  have key : ∃ out, resample_to_16k input R = some (true, out)
      ∧ |(out.length : Int) - round ((input.length : ℚ) * 16000 / (R : ℚ))| ≤ 1 := by
    by_cases h16 : R = 16000
    · refine ⟨input, by simp [resample_to_16k, WHISPER_SAMPLE_RATE, h16], ?_⟩
      rw [h16]
      have : (input.length : ℚ) * 16000 / ((16000 : Int) : ℚ) = ((input.length : Int) : ℚ) := by
        push_cast; field_simp
      rw [this, round_intCast]
      simp
    · obtain ⟨out, h1, h2, h3⟩ := resample_to_16k_defined input R hn hR0 hR h16
      refine ⟨out, h1, ?_⟩
      rw [h2]
      set prod : ℚ := f64 (f64 (input.length : ℚ) * f64 ((16000 : ℚ) / (R : ℚ))) with hprod
      have hx : (input.length : ℚ) * 16000 / (R : ℚ) = (input.length : ℚ) * (16000 / (R : ℚ)) :=
        mul_div_assoc _ _ _
      rw [hx]
      set x : ℚ := (input.length : ℚ) * (16000 / (R : ℚ)) with hxdef
      have f1 : ((⌊prod⌋ : Int) : ℚ) ≤ prod := Int.floor_le prod
      have f2 : prod < ((⌊prod⌋ : Int) : ℚ) + 1 := Int.lt_floor_add_one prod
      have r1 := abs_sub_round x
      rw [abs_le] at h3 r1
      have u1 : ((⌊prod⌋ - round x : Int) : ℚ) < 1 := by push_cast; linarith [h3.2, r1.1]
      have u2 : (-2 : ℚ) < ((⌊prod⌋ - round x : Int) : ℚ) := by
        push_cast; linarith [h3.1, r1.2]
      have v1 : ⌊prod⌋ - round x < 1 := by exact_mod_cast u1
      have v2 : -2 < ⌊prod⌋ - round x := by exact_mod_cast u2
      rw [abs_le]
      constructor <;> omega
  obtain ⟨out, h1, h2⟩ := key
  refine ⟨out, h1, h2, ?_⟩
  intro hl hr
  rw [hl, hr] at h2
  have : ((22050 : Nat) : ℚ) * 16000 / ((22050 : Int) : ℚ) = ((16000 : Int) : ℚ) := by norm_num
  rw [this, round_intCast] at h2
  exact h2

/-- C6, witness: 22050 samples of silence at 22050 Hz. -/
theorem C6_resample_length_witness :
    (0 : Int) < 22050
      ∧ ∃ out, resample_to_16k (List.replicate 22050 0) 22050 = some (true, out)
        ∧ |(out.length : Int)
            - round (((List.replicate 22050 (0 : ℚ)).length : ℚ) * 16000 / ((22050 : Int) : ℚ))| ≤ 1
        ∧ ((List.replicate 22050 (0 : ℚ)).length = 22050 → (22050 : Int) = 22050
            → |(out.length : Int) - 16000| ≤ 1) :=
  ⟨by norm_num, C6_resample_length (List.replicate 22050 0) 22050
    (by rw [List.length_replicate]; norm_num) (by norm_num) (by norm_num)⟩

/-- C6, counterexample: 5507 samples at 44056 Hz are resampled to 1999 samples, while
`floor (5507 * 16000 / 44056)` is 2000. -/
theorem C6_length_below_floor :
    ∃ out, resample_to_16k (List.replicate 5507 0) 44056 = some (true, out)
      ∧ out.length = 1999 ∧ ⌊((5507 : ℚ) * 16000 / 44056)⌋ = 2000 := by
  obtain ⟨out, h1, h2, -⟩ := resample_to_16k_defined (List.replicate 5507 0) 44056
    (by rw [List.length_replicate]; norm_num) (by norm_num) (by norm_num) (by norm_num)
  refine ⟨out, h1, ?_, ?_⟩
  · rw [List.length_replicate, resample_size_5507] at h2
    exact_mod_cast h2
  · have : ((5507 : ℚ) * 16000 / 44056) = ((2000 : Int) : ℚ) := by norm_num
    rw [this, Int.floor_intCast]

/-- C7: resample identity.  For every buffer, the empty one included, `resample_to_16k` at a
source rate equal to the target rate, which the code fixes at 16000, succeeds and returns the
buffer unchanged. -/
theorem C7_resample_identity (b : List ℚ) :
    WHISPER_SAMPLE_RATE = 16000 ∧ resample_to_16k b 16000 = some (true, b) := by
  constructor
  · rfl
  · simp [resample_to_16k, WHISPER_SAMPLE_RATE]

/-! ## Claims about the session lifecycle -/

/-- C8, counterexample: a cancellation requested before init is still set after init returns,
for either kind of engine. -/
theorem C8_init_keeps_pending_cancel :
    (nativeInitStt sample_whisper (nativeCancelStt SttState.initial)
        (some "model.bin") (some "en") false 4 true true true true).2.1.g_cancel_requested = true
      ∧ (nativeInitTts sample_piper (nativeCancelTts (TtsState.initial sample_config sample_voice))
        (some "voice.onnx") (some "voice.json") (some "espeak") 0 1 22050
        0).2.1.g_cancel_requested = true := by
  constructor <;> rfl

/-- C8, as amended: init does not touch the cancellation token.  For every prior session state
and every value of that kind's token, after `nativeInitStt` or `nativeInitTts` returns, whether
with true or false, the token of that kind has the value it had before the call. -/
theorem C8_init_leaves_cancellation {Ctx C V : Type} (W : Whisper Ctx) (P : Piper C V)
    (st : SttState Ctx) (ts : TtsState C V)
    (modelPath language configPath espeakDataPath : Option String)
    (translate useGpu useVad singleSegment noContext : Bool) (maxThreads speakerId sampleRate : Int)
    (speechRate sentenceSilence : ℚ) :
    (nativeInitStt W st modelPath language translate maxThreads useGpu useVad singleSegment
        noContext).2.1.g_cancel_requested = st.g_cancel_requested
      ∧ (nativeInitTts P ts modelPath configPath espeakDataPath speakerId speechRate sampleRate
        sentenceSilence).2.1.g_cancel_requested = ts.g_cancel_requested := by
  constructor
  · unfold nativeInitStt
    dsimp only
    split <;> rfl
  · unfold nativeInitTts
    dsimp only
    split
    · split_ifs <;> rfl
    · split
      · split_ifs <;> rfl
      · split_ifs <;> rfl

/-- C9: init postcondition.  For every prior session state and every configuration, init of
either kind releases the engine held before exactly once when the session was Ready and makes
no release when it was Uninitialized, returns true if and only if the construction of the new
engine succeeds, and leaves the session Ready when it returns true and Uninitialized when it
returns false. -/
theorem C9_init_postcondition {Ctx C V : Type} (W : Whisper Ctx) (P : Piper C V)
    (st : SttState Ctx) (ts : TtsState C V)
    (modelPath language configPath espeakDataPath : Option String)
    (translate useGpu useVad singleSegment noContext : Bool) (maxThreads speakerId sampleRate : Int)
    (speechRate sentenceSilence : ℚ) :
    ((nativeInitStt W st modelPath language translate maxThreads useGpu useVad singleSegment
          noContext).2.2.filter SttEvent.is_release
        = (match st.g_ctx with
          | some ctx => [SttEvent.whisper_free ctx]
          | none => []))
      ∧ ((nativeInitStt W st modelPath language translate maxThreads useGpu useVad singleSegment
          noContext).1
        = (W.init_from_file_with_params (jstring_to_string modelPath) useGpu).isSome)
      ∧ ((nativeInitStt W st modelPath language translate maxThreads useGpu useVad singleSegment
          noContext).2.1.ready
        = (nativeInitStt W st modelPath language translate maxThreads useGpu useVad singleSegment
          noContext).1)
      ∧ ((nativeInitTts P ts modelPath configPath espeakDataPath speakerId speechRate sampleRate
          sentenceSilence).2.2.filter TtsEvent.is_release
        = if ts.g_initialized then [TtsEvent.terminate] else [])
      ∧ ((nativeInitTts P ts modelPath configPath espeakDataPath speakerId speechRate sampleRate
          sentenceSilence).1
        = tts_construction_succeeds P ts modelPath configPath espeakDataPath speakerId)
      ∧ ((nativeInitTts P ts modelPath configPath espeakDataPath speakerId speechRate sampleRate
          sentenceSilence).2.1.ready
        = (nativeInitTts P ts modelPath configPath espeakDataPath speakerId speechRate sampleRate
          sentenceSilence).1) := by
  refine ⟨?_, ?_, ?_, ?_, ?_, ?_⟩
  · unfold nativeInitStt
    dsimp only
    cases st.g_ctx <;> split <;> simp [SttEvent.is_release]
  · unfold nativeInitStt
    dsimp only
    split <;> simp_all
  · unfold nativeInitStt SttState.ready
    dsimp only
    split <;> simp_all
  · unfold nativeInitTts
    dsimp only
    cases h : ts.g_initialized <;> split <;> (try split) <;> simp [TtsEvent.is_release]
  · unfold nativeInitTts tts_construction_succeeds
    dsimp only
    cases h : ts.g_initialized <;> split <;> (try split) <;> simp_all
  · unfold nativeInitTts TtsState.ready
    dsimp only
    cases h : ts.g_initialized <;> split <;> (try split) <;> simp_all

/-- C10: operations on an Uninitialized session.  Every transcribe or synthesize entry point
called while the session of its kind is Uninitialized returns the not-ready sentinel (empty
string, empty result, empty sample array, false, or the single callback `onError` with a
"not initialized" message), makes no call into the engine, and leaves the globals as they
were; a streaming entry point does so whenever a cancel call of another thread lands, the flag
that call sets apart. -/
theorem C10_uninitialized_operations {Ctx C V : Type} (W : Whisper Ctx) (P : Piper C V)
    (env : SttEnv) (can_open : String → Bool) (st : SttState Ctx) (ts : TtsState C V)
    (path text outputPath : Option String) (samples : List ℚ) (cancel : Option Nat)
    (hst : st.ready = false) (hts : ts.ready = false) :
    nativeTranscribe W env st path = some ("", st, [])
      ∧ nativeTranscribeDetailed W env st path = some (⟨"", [], "en", 0⟩, st, [])
      ∧ nativeTranscribeAudio W st samples = ("", st, [])
      ∧ nativeTranscribeStream W none st samples
        = (st, [SttEvent.onError "Whisper not initialized"])
      ∧ nativeTranscribeStream W cancel st samples
        = ({ st with g_cancel_requested := st.g_cancel_requested || cancel.isSome },
            [SttEvent.onError "Whisper not initialized"])
      ∧ nativeSynthesize P ts text = ([], ts, [])
      ∧ nativeSynthesizeToFile P can_open ts text outputPath = (false, ts, [])
      ∧ nativeSynthesizeStream P none ts text
        = some (ts, [TtsEvent.onError "Piper not initialized"])
      ∧ nativeSynthesizeStream P cancel ts text
        = some ({ ts with g_cancel_requested := ts.g_cancel_requested || cancel.isSome },
            [TtsEvent.onError "Piper not initialized"]) := by
  have h1 : st.g_ctx = none := by
    unfold SttState.ready at hst
    cases h : st.g_ctx <;> simp_all
  have h2 : ts.g_initialized = false := hts
  refine ⟨?_, ?_, ?_, ?_, ?_, ?_, ?_, ?_, ?_⟩
  · unfold nativeTranscribe; rw [h1]
  · unfold nativeTranscribeDetailed; rw [h1]; rfl
  · unfold nativeTranscribeAudio; rw [h1]
  · cases st
    simp only at h1
    subst h1
    simp [nativeTranscribeStream]
  · unfold nativeTranscribeStream; rw [h1]
  · unfold nativeSynthesize; rw [h2]; rfl
  · unfold nativeSynthesizeToFile; rw [h2]; rfl
  · cases ts
    simp only at h2
    subst h2
    simp [nativeSynthesizeStream]
  · unfold nativeSynthesizeStream; rw [h2]; rfl

/-- C10, witness: the seven entry points on the globals as their initialisers leave them. -/
theorem C10_uninitialized_operations_witness :
    ((SttState.initial : SttState Nat).ready = false
        ∧ (TtsState.initial sample_config sample_voice).ready = false)
      ∧ (nativeTranscribe sample_whisper ⟨fun _ => none, ⟨0, 0, 0, 0, 0, 0, 0⟩, 0⟩
            SttState.initial (some "a.wav") = some ("", SttState.initial, [])
        ∧ nativeTranscribeDetailed sample_whisper ⟨fun _ => none, ⟨0, 0, 0, 0, 0, 0, 0⟩, 0⟩
            SttState.initial (some "a.wav") = some (⟨"", [], "en", 0⟩, SttState.initial, [])
        ∧ nativeTranscribeAudio sample_whisper SttState.initial [0, 1] = ("", SttState.initial, [])
        ∧ nativeTranscribeStream sample_whisper none SttState.initial [0, 1]
          = (SttState.initial, [SttEvent.onError "Whisper not initialized"])
        ∧ nativeTranscribeStream sample_whisper (some 0) SttState.initial [0, 1]
          = ({ (SttState.initial : SttState Nat) with
                g_cancel_requested :=
                  (SttState.initial : SttState Nat).g_cancel_requested || (some 0).isSome },
              [SttEvent.onError "Whisper not initialized"])
        ∧ nativeSynthesize sample_piper (TtsState.initial sample_config sample_voice) (some "hi")
          = ([], TtsState.initial sample_config sample_voice, [])
        ∧ nativeSynthesizeToFile sample_piper (fun _ => true)
            (TtsState.initial sample_config sample_voice) (some "hi") (some "o.wav")
          = (false, TtsState.initial sample_config sample_voice, [])
        ∧ nativeSynthesizeStream sample_piper none (TtsState.initial sample_config sample_voice)
            (some "hi")
          = some (TtsState.initial sample_config sample_voice,
              [TtsEvent.onError "Piper not initialized"])
        ∧ nativeSynthesizeStream sample_piper (some 0)
            (TtsState.initial sample_config sample_voice) (some "hi")
          = some ({ TtsState.initial sample_config sample_voice with
                g_cancel_requested :=
                  (TtsState.initial sample_config sample_voice).g_cancel_requested
                    || (some 0).isSome },
              [TtsEvent.onError "Piper not initialized"])) :=
  ⟨⟨rfl, rfl⟩, C10_uninitialized_operations sample_whisper sample_piper
    ⟨fun _ => none, ⟨0, 0, 0, 0, 0, 0, 0⟩, 0⟩ (fun _ => true) SttState.initial
    (TtsState.initial sample_config sample_voice) (some "a.wav") (some "hi") (some "o.wav")
    [0, 1] (some 0) rfl rfl⟩

/-! ## Theorems: the chunk loop of `nativeSynthesizeStream` -/

theorem chunk_take (audio : List Int) (i : Nat) :
    (audio.drop i).take (min (i + CHUNK_SIZE) audio.length - i)
      = (audio.drop i).take CHUNK_SIZE := by
  by_cases h : i + CHUNK_SIZE ≤ audio.length
  · rw [min_eq_left h, Nat.add_sub_cancel_left]
  · have h1 : audio.length ≤ i + CHUNK_SIZE := by omega
    rw [min_eq_right h1, List.take_of_length_le, List.take_of_length_le]
    · rw [List.length_drop]; omega
    · rw [List.length_drop]

theorem window_count_le (n j : Nat) : window_count n ≤ j ↔ n ≤ j * CHUNK_SIZE := by
  unfold window_count CHUNK_SIZE
  omega

theorem chunk_loop_none (audio : List Int) : ∀ (f j k : Nat),
    audio.length ≤ (j + f) * CHUNK_SIZE →
    chunk_loop none audio (f + 1) (j * CHUNK_SIZE) k
      = some ((List.range' j (window_count audio.length - j)).map
          (fun j => TtsEvent.onAudioChunk (window audio j)) ++ [TtsEvent.onComplete]) := by
  intro f
  induction f with
  | zero =>
    intro j k h
    have h1 : ¬ j * CHUNK_SIZE < audio.length := by simpa using h
    have h2 : window_count audio.length - j = 0 := by
      have := (window_count_le audio.length j).2 (by simpa using h)
      omega
    simp [chunk_loop, h1, h2, cancel_seen]
  | succ f ih =>
    intro j k h
    by_cases h1 : j * CHUNK_SIZE < audio.length
    · have h2 : j < window_count audio.length := by
        by_contra hc
        have := (window_count_le audio.length j).1 (by omega)
        omega
      have h3 : window_count audio.length - j = (window_count audio.length - (j + 1)) + 1 := by
        omega
      have h4 : j * CHUNK_SIZE + CHUNK_SIZE = (j + 1) * CHUNK_SIZE := by ring
      rw [chunk_loop]
      simp only [h1, if_true, cancel_seen, Bool.false_eq_true, if_false]
      rw [chunk_take, h4,
        ih (j + 1) (k + 1) (by rw [show j + 1 + f = j + (f + 1) by ring]; exact h), h3,
        List.range'_succ]
      simp [window]
    · have h2 : window_count audio.length - j = 0 := by
        have := (window_count_le audio.length j).2 (by omega)
        omega
      simp [chunk_loop, h1, h2, cancel_seen]

theorem chunk_loop_cancel (audio : List Int) : ∀ (N f j k : Nat),
    audio.length ≤ (j + f) * CHUNK_SIZE → j + N ≤ window_count audio.length →
    chunk_loop (some (k + N)) audio (f + 1) (j * CHUNK_SIZE) k
      = some ((List.range' j N).map (fun j => TtsEvent.onAudioChunk (window audio j))) := by
  intro N
  induction N with
  | zero =>
    intro f j k _ _
    rw [chunk_loop]
    by_cases h1 : j * CHUNK_SIZE < audio.length <;> simp [h1, cancel_seen]
  | succ N ih =>
    intro f j k h hN
    have h1 : j * CHUNK_SIZE < audio.length := by
      by_contra hc
      have := (window_count_le audio.length j).2 (by omega)
      omega
    have h4 : j * CHUNK_SIZE + CHUNK_SIZE = (j + 1) * CHUNK_SIZE := by ring
    obtain ⟨f, rfl⟩ : ∃ g, f = g + 1 := by
      cases f with
      | zero => simp at h; omega
      | succ g => exact ⟨g, rfl⟩
    rw [chunk_loop]
    have h5 : ¬ (k + (N + 1) ≤ k) := by omega
    simp only [h1, if_true, cancel_seen, h5, decide_False, Bool.false_eq_true, if_false]
    rw [chunk_take, h4, show k + (N + 1) = (k + 1) + N by ring,
      ih f (j + 1) (k + 1) (by rw [show j + 1 + f = j + (f + 1) by ring]; exact h) (by omega),
      List.range'_succ]
    simp [window]

theorem chunk_loop_shape (cancel : Option Nat) (audio : List Int) : ∀ (f i k : Nat),
    audio.length ≤ i + f * CHUNK_SIZE →
    ∃ chunks term, chunk_loop cancel audio (f + 1) i k = some (chunks ++ term)
      ∧ (∀ e ∈ chunks, TtsEvent.is_chunk e = true)
      ∧ (term = [] ∨ term = [TtsEvent.onComplete])
      ∧ (cancel = none → term = [TtsEvent.onComplete]) := by
  intro f
  induction f with
  | zero =>
    intro i k h
    have h1 : ¬ i < audio.length := by simpa using h
    rw [chunk_loop]
    simp only [h1, if_false]
    cases hc : cancel_seen cancel k
    · exact ⟨[], [TtsEvent.onComplete], by simp, by simp, by simp, by simp⟩
    · refine ⟨[], [], by simp, by simp, by simp, ?_⟩
      intro hn
      simp [hn, cancel_seen] at hc
  | succ f ih =>
    intro i k h
    rw [chunk_loop]
    by_cases h1 : i < audio.length
    · simp only [h1, if_true]
      cases hc : cancel_seen cancel k
      · obtain ⟨chunks, term, e1, e2, e3, e4⟩ := ih (i + CHUNK_SIZE) (k + 1) (by
          rw [Nat.add_mul] at h; omega)
        simp only [Bool.false_eq_true, if_false]
        rw [e1]
        refine ⟨TtsEvent.onAudioChunk
          ((audio.drop i).take (min (i + CHUNK_SIZE) audio.length - i)) :: chunks, term,
          by simp, ?_, e3, e4⟩
        intro e he
        rcases List.mem_cons.1 he with rfl | he
        · rfl
        · exact e2 e he
      · simp only [if_true]
        cases hc2 : cancel_seen cancel (k + 1)
        · refine ⟨[], [TtsEvent.onComplete], by simp, by simp, by simp, by simp⟩
        · refine ⟨[], [], by simp, by simp, by simp, ?_⟩
          intro hn
          simp [hn, cancel_seen] at hc
    · simp only [h1, if_false]
      cases hc : cancel_seen cancel k
      · exact ⟨[], [TtsEvent.onComplete], by simp, by simp, by simp, by simp⟩
      · refine ⟨[], [], by simp, by simp, by simp, ?_⟩
        intro hn
        simp [hn, cancel_seen] at hc

theorem window_zero (l : List Int) : window l 0 = l.take CHUNK_SIZE := by
  simp [window]

theorem window_succ (l : List Int) (j : Nat) : window l (j + 1) = window (l.drop CHUNK_SIZE) j := by
  simp only [window, List.drop_drop]
  congr 2
  ring

theorem windows_flatten : ∀ (m : Nat) (l : List Int), l.length ≤ m * CHUNK_SIZE →
    ((List.range m).map (window l)).flatten = l := by
  intro m
  induction m with
  | zero =>
    intro l h
    have : l = [] := List.length_eq_zero.1 (by omega)
    simp [this]
  | succ m ih =>
    intro l h
    rw [List.range_succ_eq_map, List.map_cons, List.map_map, List.flatten_cons, window_zero]
    have h1 : (window l ∘ Nat.succ) = window (l.drop CHUNK_SIZE) := by
      funext j
      exact window_succ l j
    rw [h1, ih (l.drop CHUNK_SIZE) (by rw [List.length_drop]; rw [Nat.add_mul] at h; omega),
      List.take_append_drop]

theorem window_length (l : List Int) (j : Nat) :
    (window l j).length = min CHUNK_SIZE (l.length - j * CHUNK_SIZE) := by
  simp [window]

theorem cancel_seen_ne_none (cancel : Option Nat) (k : Nat) (h : cancel_seen cancel k = true) :
    cancel ≠ none := by
  intro hn
  simp [hn, cancel_seen] at h

theorem synthesize_stream_shape {C V : Type} (P : Piper C V) (cancel : Option Nat)
    (ts : TtsState C V) (text : Option String) :
    ∃ events chunks term,
      nativeSynthesizeStream P cancel ts text
          = some ({ ts with g_cancel_requested :=
                    if ts.g_initialized then cancel.isSome
                    else ts.g_cancel_requested || cancel.isSome }, events)
      ∧ tts_callbacks events = chunks ++ term
      ∧ (∀ e ∈ chunks, TtsEvent.is_chunk e = true)
      ∧ term.length ≤ 1
      ∧ (∀ t ∈ term, TtsEvent.is_terminal t = true)
      ∧ (term = [] → ts.ready = true ∧ cancel ≠ none) := by
  have one : ∀ t : TtsEvent, TtsEvent.is_terminal t = true →
      ∀ u ∈ [t], TtsEvent.is_terminal u = true := by
    intro t ht u hu
    rw [List.mem_singleton.1 hu]
    exact ht
  cases hinit : ts.g_initialized
  · refine ⟨[TtsEvent.onError "Piper not initialized"], [],
      [TtsEvent.onError "Piper not initialized"], ?_, rfl, by simp, by simp, one _ rfl, by simp⟩
    simp [nativeSynthesizeStream, hinit]
  · have hready : ts.ready = true := hinit
    cases hthrow : (decide (0 < (P.textToAudio ts.g_config ts.g_voice
        (jstring_to_string text)).callbacks)
        && cancel_seen cancel ((P.textToAudio ts.g_config ts.g_voice
          (jstring_to_string text)).callbacks - 1))
    swap
    · refine ⟨[TtsEvent.textToAudio (jstring_to_string text)], [], [], ?_, rfl, by simp, by simp,
        by simp, ?_⟩
      · simp only [nativeSynthesizeStream, hinit, hthrow]
        rfl
      · intro _
        exact ⟨hready, cancel_seen_ne_none cancel _ (Bool.and_eq_true_iff.1 hthrow).2⟩
    cases hout : (P.textToAudio ts.g_config ts.g_voice (jstring_to_string text)).outcome with
    | error what =>
      cases hk : cancel_seen cancel (P.textToAudio ts.g_config ts.g_voice
          (jstring_to_string text)).callbacks
      · refine ⟨[TtsEvent.textToAudio (jstring_to_string text), TtsEvent.onError what], [],
          [TtsEvent.onError what], ?_, rfl, by simp, by simp, one _ rfl, by simp⟩
        simp only [nativeSynthesizeStream, hinit, hthrow, hout, hk]
        rfl
      · refine ⟨[TtsEvent.textToAudio (jstring_to_string text)], [], [], ?_, rfl, by simp,
          by simp, by simp, ?_⟩
        · simp only [nativeSynthesizeStream, hinit, hthrow, hout, hk]
          rfl
        · intro _
          exact ⟨hready, cancel_seen_ne_none cancel _ hk⟩
    | ok audio =>
      cases hk : cancel_seen cancel (P.textToAudio ts.g_config ts.g_voice
          (jstring_to_string text)).callbacks
      · cases he : audio.isEmpty
        · obtain ⟨chunks, term, e1, e2, e3, e4⟩ := chunk_loop_shape cancel audio audio.length 0
            ((P.textToAudio ts.g_config ts.g_voice (jstring_to_string text)).callbacks + 1)
            (by unfold CHUNK_SIZE; omega)
          refine ⟨TtsEvent.textToAudio (jstring_to_string text) :: (chunks ++ term), chunks, term,
            ?_, ?_, e2, ?_, ?_, ?_⟩
          · simp only [nativeSynthesizeStream, hinit, hthrow, hout, hk, he, e1]
            rfl
          · have h1 : chunks.filter (fun e => !e.is_engine_call) = chunks := by
              rw [List.filter_eq_self]
              intro e hm
              have := e2 e hm
              cases e <;> simp_all [TtsEvent.is_chunk, TtsEvent.is_engine_call]
            have h2 : term.filter (fun e => !e.is_engine_call) = term := by
              rcases e3 with rfl | rfl <;> rfl
            simp only [tts_callbacks, List.filter_cons, List.filter_append, h1, h2]
            rfl
          · rcases e3 with rfl | rfl <;> simp
          · rcases e3 with rfl | rfl
            · simp
            · exact one _ rfl
          · intro ht
            refine ⟨hready, ?_⟩
            intro hn
            have := e4 hn
            rw [ht] at this
            simp at this
        · cases hk1 : cancel_seen cancel ((P.textToAudio ts.g_config ts.g_voice
              (jstring_to_string text)).callbacks + 1)
          · refine ⟨[TtsEvent.textToAudio (jstring_to_string text),
              TtsEvent.onError "No audio generated"], [],
              [TtsEvent.onError "No audio generated"], ?_, rfl, by simp, by simp, one _ rfl,
              by simp⟩
            simp only [nativeSynthesizeStream, hinit, hthrow, hout, hk, he, hk1]
            rfl
          · refine ⟨[TtsEvent.textToAudio (jstring_to_string text)], [], [], ?_, rfl, by simp,
              by simp, by simp, ?_⟩
            · simp only [nativeSynthesizeStream, hinit, hthrow, hout, hk, he, hk1]
              rfl
            · intro _
              exact ⟨hready, cancel_seen_ne_none cancel _ hk1⟩
      · cases hk1 : cancel_seen cancel ((P.textToAudio ts.g_config ts.g_voice
            (jstring_to_string text)).callbacks + 1)
        · refine ⟨[TtsEvent.textToAudio (jstring_to_string text),
            TtsEvent.onError "No audio generated"], [],
            [TtsEvent.onError "No audio generated"], ?_, rfl, by simp, by simp, one _ rfl,
            by simp⟩
          simp only [nativeSynthesizeStream, hinit, hthrow, hout, hk, hk1]
          rfl
        · refine ⟨[TtsEvent.textToAudio (jstring_to_string text)], [], [], ?_, rfl, by simp,
            by simp, by simp, ?_⟩
          · simp only [nativeSynthesizeStream, hinit, hthrow, hout, hk, hk1]
            rfl
          · intro _
            exact ⟨hready, cancel_seen_ne_none cancel _ hk⟩

/-- The part of the cancellation contract that holds for synthesis: a cancel call that lands
after `N` windows were delivered (`N = 0`: after the engine returned its buffer and before the
first window) gives exactly those `N` chunks and no further callback. -/
theorem synthesize_stream_cancel_after {C V : Type} (P : Piper C V) (ts : TtsState C V)
    (text : Option String) (audio : List Int) (N : Nat) (hts : ts.ready = true)
    (hout : (P.textToAudio ts.g_config ts.g_voice (jstring_to_string text)).outcome
      = .ok audio)
    (hne : audio ≠ []) (hN : N ≤ window_count audio.length) :
    nativeSynthesizeStream P
        (some ((P.textToAudio ts.g_config ts.g_voice (jstring_to_string text)).callbacks + 1 + N))
        ts text
      = some ({ ts with g_cancel_requested := true },
          TtsEvent.textToAudio (jstring_to_string text)
            :: (List.range N).map (fun j => TtsEvent.onAudioChunk (window audio j))) := by
  have hinit : ts.g_initialized = true := hts
  have hemp : audio.isEmpty = false := by
    cases audio with
    | nil => exact absurd rfl hne
    | cons a l => rfl
  have h1 := chunk_loop_cancel audio N audio.length 0
    ((P.textToAudio ts.g_config ts.g_voice (jstring_to_string text)).callbacks + 1)
    (by unfold CHUNK_SIZE; omega) (by omega)
  rw [Nat.zero_mul, ← List.range_eq_range'] at h1
  have h2 : ¬ ((P.textToAudio ts.g_config ts.g_voice (jstring_to_string text)).callbacks + 1 + N
      ≤ (P.textToAudio ts.g_config ts.g_voice (jstring_to_string text)).callbacks - 1) := by
    omega
  have h3 : ¬ ((P.textToAudio ts.g_config ts.g_voice (jstring_to_string text)).callbacks + 1 + N
      ≤ (P.textToAudio ts.g_config ts.g_voice (jstring_to_string text)).callbacks) := by
    omega
  simp only [nativeSynthesizeStream, hinit, hout, hemp, h1, cancel_seen, h2, h3, decide_False,
    Option.isSome_some, Bool.not_true, Bool.false_eq_true, if_false, Bool.and_false]

/-- The part of the cancellation contract that holds for synthesis: a cancel call that lands
before the first test of the chunk loop is over gives no `onAudioChunk` and no `onComplete`. -/
theorem synthesize_stream_cancel_before {C V : Type} (P : Piper C V) (ts : TtsState C V)
    (text : Option String) (a : Nat) (hts : ts.ready = true)
    (ha : a ≤ (P.textToAudio ts.g_config ts.g_voice (jstring_to_string text)).callbacks + 1) :
    ∃ r, nativeSynthesizeStream P (some a) ts text = some r
      ∧ ∀ e ∈ r.2, TtsEvent.is_chunk e = false ∧ e ≠ TtsEvent.onComplete := by
  have hinit : ts.g_initialized = true := hts
  cases hthrow : (decide (0 < (P.textToAudio ts.g_config ts.g_voice
      (jstring_to_string text)).callbacks)
      && cancel_seen (some a) ((P.textToAudio ts.g_config ts.g_voice
        (jstring_to_string text)).callbacks - 1))
  swap
  · refine ⟨({ ts with g_cancel_requested := true }, [TtsEvent.textToAudio (jstring_to_string text)]), ?_, ?_⟩
    · simp only [nativeSynthesizeStream, hinit, hthrow]
      rfl
    · simp [TtsEvent.is_chunk]
  cases hout : (P.textToAudio ts.g_config ts.g_voice (jstring_to_string text)).outcome with
  | error what =>
    cases hk : cancel_seen (some a) (P.textToAudio ts.g_config ts.g_voice
        (jstring_to_string text)).callbacks
    · refine ⟨({ ts with g_cancel_requested := true }, [TtsEvent.textToAudio (jstring_to_string text), TtsEvent.onError what]),
        ?_, ?_⟩
      · simp only [nativeSynthesizeStream, hinit, hthrow, hout, hk]
        rfl
      · simp [TtsEvent.is_chunk]
    · refine ⟨({ ts with g_cancel_requested := true }, [TtsEvent.textToAudio (jstring_to_string text)]), ?_, ?_⟩
      · simp only [nativeSynthesizeStream, hinit, hthrow, hout, hk]
        rfl
      · simp [TtsEvent.is_chunk]
  | ok audio =>
    have hk1 : cancel_seen (some a) ((P.textToAudio ts.g_config ts.g_voice
        (jstring_to_string text)).callbacks + 1) = true := by
      simp [cancel_seen, ha]
    cases hk : cancel_seen (some a) (P.textToAudio ts.g_config ts.g_voice
        (jstring_to_string text)).callbacks
    · cases he : audio.isEmpty
      · obtain rfl : a = (P.textToAudio ts.g_config ts.g_voice
            (jstring_to_string text)).callbacks + 1 := by
          simp [cancel_seen] at hk
          omega
        have h1 := chunk_loop_cancel audio 0 audio.length 0
          ((P.textToAudio ts.g_config ts.g_voice (jstring_to_string text)).callbacks + 1)
          (by unfold CHUNK_SIZE; omega) (by omega)
        rw [Nat.zero_mul, Nat.add_zero] at h1
        simp only [List.range'_zero, List.map_nil] at h1
        refine ⟨({ ts with g_cancel_requested := true }, [TtsEvent.textToAudio (jstring_to_string text)]), ?_, ?_⟩
        · simp only [nativeSynthesizeStream, hinit, hthrow, hout, hk, he, h1, Bool.not_true,
            Bool.false_eq_true, if_false]
          rfl
        · simp [TtsEvent.is_chunk]
      · refine ⟨({ ts with g_cancel_requested := true }, [TtsEvent.textToAudio (jstring_to_string text)]), ?_, ?_⟩
        · simp only [nativeSynthesizeStream, hinit, hthrow, hout, hk, he, hk1]
          rfl
        · simp [TtsEvent.is_chunk]
    · refine ⟨({ ts with g_cancel_requested := true }, [TtsEvent.textToAudio (jstring_to_string text)]), ?_, ?_⟩
      · simp only [nativeSynthesizeStream, hinit, hthrow, hout, hk, hk1]
        rfl
      · simp [TtsEvent.is_chunk]

/-! ## Theorems: the segment loop of `nativeTranscribeStream` -/

theorem join_cons (t : String) (l : List String) : String.join (t :: l) = t ++ String.join l := by
  apply String.ext
  simp [String.join_eq]

theorem join_nil : String.join [] = "" := rfl

theorem stream_segments_none {Ctx : Type} (language : String) (size : Nat) :
    ∀ (segs : List (String × Int × Int)) (fullText : String) (segmentList : List Segment)
      (k : Nat),
    (stream_segments none language size
        (segs.map (fun s => (⟨some s.1, s.2.1, s.2.2⟩ : WhisperSegment)))
        fullText segmentList k : List (SttEvent Ctx))
      = (List.range segs.length).map
          (fun j => SttEvent.onPartialResult
            (fullText ++ String.join ((segs.take (j + 1)).map (fun s => s.1))))
        ++ [SttEvent.onFinalResult
            ⟨fullText ++ String.join (segs.map (fun s => s.1)),
              segmentList ++ segs.map (fun s =>
                (⟨s.1, wrap_int 64 (s.2.1 * 10), wrap_int 64 (s.2.2 * 10)⟩ : Segment)),
              language, duration_ms size⟩] := by
  intro segs
  induction segs with
  | nil =>
    intro fullText segmentList k
    simp [stream_segments, join_nil]
  | cons s rest ih =>
    intro fullText segmentList k
    simp only [List.map_cons, stream_segments, cancel_seen, Bool.false_eq_true, if_false,
      List.length_cons]
    rw [ih, List.range_succ_eq_map]
    simp [join_cons, join_nil, String.append_assoc]

theorem stream_segments_shape {Ctx : Type} (cancel : Option Nat) (language : String)
    (size : Nat) : ∀ (segs : List WhisperSegment) (fullText : String)
      (segmentList : List Segment) (k : Nat),
    ∃ partials t,
      (stream_segments cancel language size segs fullText segmentList k : List (SttEvent Ctx))
          = partials ++ [t]
        ∧ (∀ e ∈ partials, SttEvent.is_partial e = true) ∧ SttEvent.is_terminal t = true := by
  intro segs
  induction segs with
  | nil =>
    intro fullText segmentList k
    exact ⟨[], SttEvent.onFinalResult ⟨fullText, segmentList, language, duration_ms size⟩,
      by simp [stream_segments], by simp, rfl⟩
  | cons s rest ih =>
    intro fullText segmentList k
    rw [stream_segments]
    cases hc : cancel_seen cancel k
    · simp only [Bool.false_eq_true, if_false]
      cases ht : s.text with
      | none => exact ih fullText segmentList (k + 1)
      | some text =>
        obtain ⟨partials, t, e1, e2, e3⟩ :=
          ih (fullText ++ text) (segmentList ++ [⟨text, wrap_int 64 (s.t0 * 10), wrap_int 64 (s.t1 * 10)⟩]) (k + 1)
        refine ⟨SttEvent.onPartialResult (fullText ++ text) :: partials, t, ?_, ?_, e3⟩
        · simp only [e1, List.cons_append]
        · intro e he
          rcases List.mem_cons.1 he with rfl | he
          · rfl
          · exact e2 e he
    · exact ⟨[], SttEvent.onError "Cancelled", by simp, by simp, rfl⟩

theorem stream_segments_late_cancel {Ctx : Type} (language : String) (size : Nat) :
    ∀ (segs : List WhisperSegment) (fullText : String) (segmentList : List Segment)
      (k a : Nat), k + segs.length ≤ a →
    (stream_segments (some a) language size segs fullText segmentList k : List (SttEvent Ctx))
      = stream_segments none language size segs fullText segmentList k := by
  intro segs
  induction segs with
  | nil =>
    intro fullText segmentList k a _
    simp [stream_segments]
  | cons s rest ih =>
    intro fullText segmentList k a h
    have h1 : ¬ a ≤ k := by simp at h; omega
    rw [stream_segments, stream_segments]
    simp only [cancel_seen, h1, decide_False, Bool.false_eq_true, if_false]
    cases ht : s.text with
    | none => exact ih fullText segmentList (k + 1) a (by simp at h; omega)
    | some text =>
      simp only
      rw [ih _ _ (k + 1) a (by simp at h; omega)]

theorem stream_segments_cancel {Ctx : Type} (language : String) (size : Nat) :
    ∀ (pre : List WhisperSegment) (seg : WhisperSegment) (post : List WhisperSegment)
      (fullText : String) (segmentList : List Segment) (k : Nat),
    (stream_segments (some (k + pre.length)) language size (pre ++ seg :: post) fullText
        segmentList k : List (SttEvent Ctx))
      = (stream_segments none language size pre fullText segmentList k).dropLast
        ++ [SttEvent.onError "Cancelled"] := by
  intro pre
  induction pre with
  | nil =>
    intro seg post fullText segmentList k
    simp [stream_segments, cancel_seen]
  | cons s rest ih =>
    intro seg post fullText segmentList k
    have h1 : ¬ k + (rest.length + 1) ≤ k := by omega
    have h2 : k + (rest.length + 1) = (k + 1) + rest.length := by ring
    rw [List.cons_append, stream_segments, stream_segments]
    simp only [List.length_cons, cancel_seen, h1, decide_False, Bool.false_eq_true, if_false]
    cases ht : s.text with
    | none =>
      simp only
      rw [h2, ih]
    | some text =>
      simp only
      rw [h2, ih]
      obtain ⟨partials, t, e1, _, _⟩ := @stream_segments_shape Ctx none language size rest
        (fullText ++ text) (segmentList ++ [⟨text, wrap_int 64 (s.t0 * 10), wrap_int 64 (s.t1 * 10)⟩]) (k + 1)
      have e2 : (SttEvent.onPartialResult (fullText ++ text) :: (partials ++ [t])).dropLast
          = SttEvent.onPartialResult (fullText ++ text) :: partials := by
        rw [← List.cons_append, List.dropLast_concat]
      rw [e1, e2, List.dropLast_concat, List.cons_append]

theorem duration_ms_eq (n : Nat) (h : n < 2 ^ 31) :
    duration_ms n = ((n * 1000 / 16000 : Nat) : Int) := by
  unfold duration_ms WHISPER_SAMPLE_RATE
  have h1 : n * 1000 % 2 ^ 64 = n * 1000 := Nat.mod_eq_of_lt (by omega)
  rw [h1]
  rfl

theorem transcribe_stream_shape {Ctx : Type} (W : Whisper Ctx) (cancel : Option Nat)
    (st : SttState Ctx) (samples : List ℚ) :
    ∃ partials t,
      stt_callbacks (nativeTranscribeStream W cancel st samples).2 = partials ++ [t]
        ∧ (∀ e ∈ partials, SttEvent.is_partial e = true) ∧ SttEvent.is_terminal t = true := by
  unfold nativeTranscribeStream
  cases hctx : st.g_ctx with
  | none => exact ⟨[], SttEvent.onError "Whisper not initialized", rfl, by simp, rfl⟩
  | some ctx =>
    dsimp only
    split_ifs with hrun
    · exact ⟨[], SttEvent.onError "Transcription failed", rfl, by simp, rfl⟩
    · obtain ⟨partials, t, e1, e2, e3⟩ := @stream_segments_shape Ctx cancel st.g_language
        samples.length (W.segments (W.full ctx st.g_params samples).2) "" [] 0
      refine ⟨partials, t, ?_, e2, e3⟩
      rw [e1]
      have h1 : partials.filter (fun e => !e.is_engine_call) = partials := by
        rw [List.filter_eq_self]
        intro e hm
        have := e2 e hm
        cases e <;> simp_all [SttEvent.is_partial, SttEvent.is_engine_call]
      have h2 : [t].filter (fun e => !e.is_engine_call) = [t] := by
        rw [List.filter_eq_self]
        intro e hm
        rw [List.mem_singleton.1 hm]
        cases t <;> simp_all [SttEvent.is_terminal, SttEvent.is_engine_call]
      simp only [stt_callbacks, List.filter_cons, List.filter_append, h1, h2]
      rfl

/-- The part of the cancellation contract that holds for transcription: a cancel call that
lands after `N` segments were delivered, while a further segment is still to come, gives the
`N` partial results of those segments and then `onError("Cancelled")`, nothing else. -/
theorem transcribe_stream_cancel_after {Ctx : Type} (W : Whisper Ctx) (st : SttState Ctx)
    (ctx : Ctx) (samples : List ℚ) (pre : List (String × Int × Int)) (next : WhisperSegment)
    (post : List WhisperSegment)
    (hready : st.g_ctx = some ctx)
    (hrun : (W.full ctx st.g_params samples).1 = 0)
    (hsegs : W.segments (W.full ctx st.g_params samples).2
      = pre.map (fun s => (⟨some s.1, s.2.1, s.2.2⟩ : WhisperSegment)) ++ next :: post) :
    stt_callbacks (nativeTranscribeStream W (some pre.length) st samples).2
      = (List.range pre.length).map
          (fun k => SttEvent.onPartialResult
            (String.join ((pre.take (k + 1)).map (fun s => s.1))))
        ++ [SttEvent.onError "Cancelled"] := by
  have h := @stream_segments_cancel Ctx st.g_language samples.length
    (pre.map (fun s => (⟨some s.1, s.2.1, s.2.2⟩ : WhisperSegment))) next post "" [] 0
  rw [List.length_map, Nat.zero_add, stream_segments_none, List.dropLast_concat] at h
  simp only [String.empty_append] at h
  simp only [nativeTranscribeStream, hready, hrun, hsegs, h, ne_eq, not_true_eq_false, if_false,
    stt_callbacks, List.filter_cons, List.filter_append, List.filter_map]
  simp [SttEvent.is_engine_call, Function.comp_def]

/-- The defect behind C11 and C12, in general: a cancel call that lands after the last test of
the segment loop changes nothing, and `onFinalResult` is delivered as in a run without
cancellation. -/
theorem transcribe_stream_cancel_late {Ctx : Type} (W : Whisper Ctx) (st : SttState Ctx)
    (ctx : Ctx) (samples : List ℚ) (a : Nat)
    (hready : st.g_ctx = some ctx)
    (ha : (W.segments (W.full ctx st.g_params samples).2).length ≤ a) :
    (nativeTranscribeStream W (some a) st samples).2
      = (nativeTranscribeStream W none st samples).2 := by
  simp only [nativeTranscribeStream, hready]
  split_ifs
  · rfl
  · simp only
    rw [stream_segments_late_cancel _ _ _ _ _ 0 a (by omega)]

/-! ## Claims about streaming, cancellation and shutdown -/

/-- C11: the run of `nativeTranscribeStream` on a Ready session whose engine finds no segment,
with a cancel call landing right after the entry reset: the only callback is `onFinalResult`
with the empty transcription. -/
theorem C11_cancelled_run_reports_success :
    stt_callbacks (nativeTranscribeStream silent_whisper (some 0)
        (nativeInitStt silent_whisper SttState.initial (some "model.bin") (some "en") false 4
          true true true true).2.1 [0, 0]).2
      = [SttEvent.onFinalResult ⟨"", [], "en", 0⟩] := by
  rfl

/-- C12: the run of `nativeTranscribeStream` on a Ready session whose engine reports one
segment, with a cancel call landing right after that segment was delivered (`N = 1`): one
`onPartialResult`, then `onFinalResult`, and no `onError`. -/
theorem C12_cancel_after_last_segment :
    stt_callbacks (nativeTranscribeStream sample_whisper (some 1) sample_stt_ready [0, 0]).2
      = [SttEvent.onPartialResult "hello",
          SttEvent.onFinalResult ⟨"hello", [⟨"hello", 0, 500⟩], "en", 0⟩] := by
  rfl

/-- C13, counterexample: a synthesis on a Ready session that a cancel call reaches before the
first chunk makes no callback at all, although no chunk was delivered. -/
theorem C13_silent_without_chunk :
    (nativeSynthesizeStream sample_piper (some 0) sample_tts_ready (some "hi")).map
        (fun r => tts_callbacks r.2) = some [] := by
  rfl

/-- C13, as amended: the callback trace of a streaming entry point.  For every session state,
engine outcome and cancellation timing, the callbacks of `nativeTranscribeStream` are zero or
more `onPartialResult` followed by exactly one terminal callback (`onFinalResult` or
`onError`), which is last; `nativeSynthesizeStream` returns, and its callbacks are zero or more
`onAudioChunk` followed by at most one terminal callback (`onComplete` or `onError`), which is
last; a synthesis has no terminal callback only on a Ready session that a cancel call reaches
while the operation runs, whether or not a chunk was delivered before. -/
theorem C13_terminal_callback {Ctx C V : Type} (W : Whisper Ctx) (P : Piper C V)
    (cancel : Option Nat) (st : SttState Ctx) (ts : TtsState C V) (samples : List ℚ)
    (text : Option String) :
    (∃ partials t,
        stt_callbacks (nativeTranscribeStream W cancel st samples).2 = partials ++ [t]
          ∧ (∀ e ∈ partials, SttEvent.is_partial e = true) ∧ SttEvent.is_terminal t = true)
      ∧ (∃ r chunks term,
        nativeSynthesizeStream P cancel ts text = some r
          ∧ tts_callbacks r.2 = chunks ++ term
          ∧ (∀ e ∈ chunks, TtsEvent.is_chunk e = true)
          ∧ term.length ≤ 1
          ∧ (∀ t ∈ term, TtsEvent.is_terminal t = true)
          ∧ (term = [] → ts.ready = true ∧ cancel ≠ none)) := by
  refine ⟨transcribe_stream_shape W cancel st samples, ?_⟩
  obtain ⟨events, chunks, term, e, h⟩ := synthesize_stream_shape P cancel ts text
  exact ⟨_, chunks, term, e, h⟩

/-- C15: synthesis chunking without cancellation.  When the engine leaves a non-empty buffer of
`n` samples and no cancel call is made, `nativeSynthesizeStream` on a Ready session delivers
the windows of the buffer in order, one `onAudioChunk` each, then calls `onComplete` once and
never `onError`.  The windows are `ceil(n / 4096)` in number, each but the last has 4096
samples, the last has between 1 and 4096, and concatenated they are the buffer. -/
theorem C15_synthesis_chunking {C V : Type} (P : Piper C V) (ts : TtsState C V)
    (text : Option String) (audio : List Int) (hts : ts.ready = true)
    (hout : (P.textToAudio ts.g_config ts.g_voice (jstring_to_string text)).outcome
      = .ok audio)
    (hne : audio ≠ []) :
    nativeSynthesizeStream P none ts text
        = some ({ ts with g_cancel_requested := false },
          TtsEvent.textToAudio (jstring_to_string text)
            :: ((List.range (window_count audio.length)).map
                (fun j => TtsEvent.onAudioChunk (window audio j)) ++ [TtsEvent.onComplete]))
      ∧ window_count audio.length = (audio.length + 4095) / 4096
      ∧ (window_count audio.length - 1) * 4096 < audio.length
      ∧ audio.length ≤ window_count audio.length * 4096
      ∧ (∀ j, j + 1 < window_count audio.length → (window audio j).length = 4096)
      ∧ 1 ≤ (window audio (window_count audio.length - 1)).length
      ∧ (window audio (window_count audio.length - 1)).length ≤ 4096
      ∧ ((List.range (window_count audio.length)).map (window audio)).flatten = audio := by
  have hinit : ts.g_initialized = true := hts
  have hlen : 0 < audio.length := List.length_pos.2 hne
  have hemp : audio.isEmpty = false := by
    cases audio with
    | nil => exact absurd rfl hne
    | cons a l => rfl
  have hc : window_count audio.length = (audio.length + 4095) / 4096 := rfl
  refine ⟨?_, hc, by omega, by omega, ?_, ?_, ?_, ?_⟩
  · have h1 := chunk_loop_none audio audio.length 0
      ((P.textToAudio ts.g_config ts.g_voice (jstring_to_string text)).callbacks + 1)
      (by unfold CHUNK_SIZE; omega)
    rw [Nat.zero_mul, Nat.sub_zero, ← List.range_eq_range'] at h1
    simp only [nativeSynthesizeStream, hinit, hout, hemp, h1, cancel_seen, Option.isSome_none,
      Bool.not_true, Bool.false_eq_true, if_false, Bool.and_false]
  · intro j hj
    rw [window_length]
    unfold CHUNK_SIZE
    omega
  · rw [window_length]
    unfold CHUNK_SIZE
    omega
  · rw [window_length]
    unfold CHUNK_SIZE
    omega
  · exact windows_flatten _ audio (by unfold CHUNK_SIZE; omega)

/-- C15, witness: the two samples that the sample engine produces for the text "hi" are
delivered as one chunk. -/
theorem C15_synthesis_chunking_witness :
    (sample_tts_ready.ready = true
        ∧ (sample_piper.textToAudio sample_tts_ready.g_config sample_tts_ready.g_voice
            (jstring_to_string (some "hi"))).outcome = .ok [7, 7]
        ∧ ([7, 7] : List Int) ≠ [])
      ∧ (nativeSynthesizeStream sample_piper none sample_tts_ready (some "hi")
          = some ({ sample_tts_ready with g_cancel_requested := false },
            TtsEvent.textToAudio (jstring_to_string (some "hi"))
              :: ((List.range (window_count ([7, 7] : List Int).length)).map
                  (fun j => TtsEvent.onAudioChunk (window [7, 7] j)) ++ [TtsEvent.onComplete]))
        ∧ window_count ([7, 7] : List Int).length = (([7, 7] : List Int).length + 4095) / 4096
        ∧ (window_count ([7, 7] : List Int).length - 1) * 4096 < ([7, 7] : List Int).length
        ∧ ([7, 7] : List Int).length ≤ window_count ([7, 7] : List Int).length * 4096
        ∧ (∀ j, j + 1 < window_count ([7, 7] : List Int).length →
            (window [7, 7] j).length = 4096)
        ∧ 1 ≤ (window [7, 7] (window_count ([7, 7] : List Int).length - 1)).length
        ∧ (window [7, 7] (window_count ([7, 7] : List Int).length - 1)).length ≤ 4096
        ∧ ((List.range (window_count ([7, 7] : List Int).length)).map
            (window [7, 7])).flatten = [7, 7]) :=
  ⟨⟨rfl, rfl, by decide⟩,
    C15_synthesis_chunking sample_piper sample_tts_ready (some "hi") [7, 7] rfl rfl (by decide)⟩

/-- C16: shutdown is idempotent.  For every session state of either kind, shutdown leaves the
session Uninitialized, releases the engine handle exactly once when the session was Ready and
makes no call at all when it was Uninitialized, and a second shutdown makes no call and leaves
the globals as the first left them. -/
theorem C16_shutdown_idempotent {Ctx C V : Type} (P : Piper C V) (st : SttState Ctx)
    (ts : TtsState C V) :
    ((nativeShutdownStt st).1.ready = false
        ∧ (nativeShutdownStt st).2
          = (match st.g_ctx with
            | some ctx => [SttEvent.whisper_free ctx]
            | none => [])
        ∧ (st.ready = false → nativeShutdownStt st = (st, []))
        ∧ nativeShutdownStt (nativeShutdownStt st).1 = ((nativeShutdownStt st).1, []))
      ∧ ((nativeShutdownTts P ts).1.ready = false
        ∧ (nativeShutdownTts P ts).2 = (if ts.ready then [TtsEvent.terminate] else [])
        ∧ (ts.ready = false → nativeShutdownTts P ts = (ts, []))
        ∧ nativeShutdownTts P (nativeShutdownTts P ts).1 = ((nativeShutdownTts P ts).1, [])) := by
  constructor
  · unfold nativeShutdownStt SttState.ready
    cases h : st.g_ctx <;> simp [h]
  · unfold nativeShutdownTts TtsState.ready
    cases h : ts.g_initialized <;> simp [h]

/-! ## Claims about the synthesis configuration -/

theorem f32_err (x : ℚ) (hx : 0 < x) (hnorm : (2 : ℚ) ^ (-126 : Int) ≤ x) :
    |f32 x - x| ≤ x / 2 ^ 24 := by
  have h := rnd_rel_err_pos 24 (-126) x hx hnorm
  have e : (2 : ℚ) ^ (-((24 : Nat) : Int)) = 1 / 2 ^ 24 := by
    rw [zpow_neg, zpow_natCast, one_div]
  rw [e] at h
  unfold f32
  calc |rnd 24 (-126) x - x| ≤ x * (1 / 2 ^ 24) := h
    _ = x / 2 ^ 24 := by ring

theorem f32_half : f32 (1 / 2) = 1 / 2 := by
  decide!

/-- C17, counterexample: with the rate 1 the length scale 1.5 of the loaded voice stays, and
with the rate 3 the length scale is the `float` nearest to one third, not one third. -/
theorem C17_rate_one_keeps_voice_scale :
    ((nativeInitTts sample_piper (TtsState.initial sample_config slow_voice)
          (some "voice.onnx") (some "voice.json") (some "espeak") 0 1 22050 (f32 (2 / 10))).1 = true
        ∧ (nativeInitTts sample_piper (TtsState.initial sample_config slow_voice)
          (some "voice.onnx") (some "voice.json") (some "espeak") 0 1 22050
          (f32 (2 / 10))).2.1.g_voice.synthesisConfig.lengthScale ≠ 1 / 1)
      ∧ ((nativeInitTts sample_piper (TtsState.initial sample_config slow_voice)
          (some "voice.onnx") (some "voice.json") (some "espeak") 0 3 22050 (f32 (2 / 10))).1 = true
        ∧ (nativeInitTts sample_piper (TtsState.initial sample_config slow_voice)
          (some "voice.onnx") (some "voice.json") (some "espeak") 0 3 22050
          (f32 (2 / 10))).2.1.g_voice.synthesisConfig.lengthScale ≠ 1 / 3) := by
  refine ⟨⟨rfl, ?_⟩, ⟨rfl, ?_⟩⟩ <;> decide!

/-- C17, as amended: speech rate to length scale.  After a successful `nativeInitTts` with the
rate `r`: for `r = 1` the length scale is the one the loaded voice carries; for every other
`r` between `2^-126` and `2^126` it is the `float` quotient `1.0f / r`, whatever the loaded
voice carried, which differs from `1 / r` by at most `(1 / r) / 2^24`; for `r = 2` it is
`0.5`. -/
theorem C17_speech_rate_length_scale {C V : Type} (P : Piper C V) (ts : TtsState C V)
    (modelPath configPath espeakDataPath : Option String) (speakerId : Int) (r : ℚ)
    (sampleRate : Int) (sentenceSilence : ℚ)
    (hok : (nativeInitTts P ts modelPath configPath espeakDataPath speakerId r sampleRate
      sentenceSilence).1 = true) :
    (r = 1 →
        (nativeInitTts P ts modelPath configPath espeakDataPath speakerId r sampleRate
          sentenceSilence).2.1.g_voice.synthesisConfig.lengthScale
        = (loaded_voice P ts modelPath configPath espeakDataPath
          speakerId).synthesisConfig.lengthScale)
      ∧ (r ≠ 1 → (2 : ℚ) ^ (-126 : Int) ≤ r → r ≤ 2 ^ 126 →
        (nativeInitTts P ts modelPath configPath espeakDataPath speakerId r sampleRate
          sentenceSilence).2.1.g_voice.synthesisConfig.lengthScale = f32 (1 / r)
        ∧ |(nativeInitTts P ts modelPath configPath espeakDataPath speakerId r sampleRate
            sentenceSilence).2.1.g_voice.synthesisConfig.lengthScale - 1 / r|
          ≤ 1 / r / 2 ^ 24)
      ∧ (r = 2 →
        (nativeInitTts P ts modelPath configPath espeakDataPath speakerId r sampleRate
          sentenceSilence).2.1.g_voice.synthesisConfig.lengthScale = 1 / 2) := by
  have key : (nativeInitTts P ts modelPath configPath espeakDataPath speakerId r sampleRate
      sentenceSilence).2.1.g_voice.synthesisConfig.lengthScale
      = if r ≠ 1 then f32 (1 / r)
        else (loaded_voice P ts modelPath configPath espeakDataPath
          speakerId).synthesisConfig.lengthScale := by
    revert hok
    unfold nativeInitTts loaded_voice
    dsimp only
    cases h : ts.g_initialized <;> split <;> (try split) <;> simp_all <;> split_ifs <;> rfl
  refine ⟨?_, ?_, ?_⟩
  · intro h1
    rw [key, if_neg (by simpa using h1)]
  · intro h1 hlo hhi
    rw [key, if_pos h1]
    refine ⟨rfl, ?_⟩
    have hr0 : 0 < r := lt_of_lt_of_le (by positivity) hlo
    apply f32_err (1 / r) (by positivity)
    rw [le_div_iff₀ hr0]
    calc (2 : ℚ) ^ (-126 : Int) * r ≤ (2 : ℚ) ^ (-126 : Int) * 2 ^ 126 := by
          apply mul_le_mul_of_nonneg_left hhi (by positivity)
      _ = 1 := by norm_num [zpow_neg]
  · intro h2
    rw [key, if_pos (by rw [h2]; norm_num), h2]
    exact f32_half

/-- C17, witness: the sample engine initialised with the rate 2. -/
theorem C17_speech_rate_length_scale_witness :
    (nativeInitTts sample_piper (TtsState.initial sample_config slow_voice)
        (some "voice.onnx") (some "voice.json") (some "espeak") 0 2 22050 (f32 (2 / 10))).1 = true
      ∧ (nativeInitTts sample_piper (TtsState.initial sample_config slow_voice)
        (some "voice.onnx") (some "voice.json") (some "espeak") 0 2 22050
        (f32 (2 / 10))).2.1.g_voice.synthesisConfig.lengthScale = 1 / 2 :=
  ⟨rfl, (C17_speech_rate_length_scale sample_piper (TtsState.initial sample_config slow_voice)
    (some "voice.onnx") (some "voice.json") (some "espeak") 0 2 22050 (f32 (2 / 10)) rfl).2.2
    rfl⟩

/-! ## Theorems: containers with several subchunks -/

theorem subchunk_length (id payload : List Byte) (hid : id.length = 4) :
    (subchunk id payload).length = 8 + payload.length := by
  simp [subchunk, hid, le_bytes_length]
  omega

theorem subchunks_length_ge : ∀ (cs : List (List Byte × List Byte)),
    (∀ c ∈ cs, other_subchunk c) → 8 * cs.length ≤ (subchunks cs).length := by
  intro cs
  induction cs with
  | nil => intro _; simp
  | cons c cs ih =>
    intro h
    have hc := h c (List.mem_cons_self _ _)
    have := ih (fun d hd => h d (List.mem_cons_of_mem _ hd))
    rw [subchunks, List.length_append, subchunk_length _ _ hc.1, List.length_cons]
    omega

/-- The chunk loop steps over a run of subchunks that are neither `fmt ` nor `data`, one pass
each, and changes nothing but the read position. -/
theorem scan_skip (junk : Junk) (data : List Byte) : ∀ (cs : List (List Byte × List Byte)),
    (∀ c ∈ cs, other_subchunk c) → ∀ (fuel pos : Nat) (samples : List ℚ) (rate : Int)
      (tail : List Byte), data.drop pos = subchunks cs ++ tail →
    scan_chunks junk (fuel + cs.length) ⟨⟨data, pos, false, false⟩, samples, rate⟩
      = scan_chunks junk fuel
          ⟨⟨data, pos + (subchunks cs).length, false, false⟩, samples, rate⟩ := by
  intro cs
  induction cs with
  | nil =>
    intro _ fuel pos samples rate tail _
    simp [subchunks]
  | cons c cs ih =>
    intro h fuel pos samples rate tail hd
    have hc := h c (List.mem_cons_self _ _)
    have hd1 : data.drop pos = c.1 ++ (le_bytes 4 c.2.length ++ (c.2 ++ (subchunks cs ++ tail))) := by
      rw [hd]
      simp [subchunks, subchunk, List.append_assoc]
    have s1 := scan_chunk_other junk data pos samples rate c.2.length c.1 _ hd1 hc.1 hc.2.1
      hc.2.2.1 hc.2.2.2
    have hd2 : data.drop (pos + 8 + c.2.length) = subchunks cs ++ tail := by
      have e : data.drop pos = subchunk c.1 c.2 ++ (subchunks cs ++ tail) := by
        rw [hd]
        simp [subchunks, List.append_assoc]
      have := drop_add_of_drop_eq _ _ _ _ e
      rw [subchunk_length _ _ hc.1] at this
      rw [← this]
      congr 1
      omega
    have e1 : fuel + (c :: cs).length = (fuel + cs.length) + 1 := by
      simp [List.length_cons]
      omega
    have e2 : pos + (subchunks (c :: cs)).length
        = pos + 8 + c.2.length + (subchunks cs).length := by
      rw [subchunks, List.length_append, subchunk_length _ _ hc.1]
      omega
    rw [e1, scan_chunks]
    simp only [IfStream.good, Bool.not_false, Bool.and_self, if_true, s1]
    rw [ih (fun d hd => h d (List.mem_cons_of_mem _ hd)) fuel _ samples rate tail hd2, e2]

theorem to_signed_16_range (v : Nat) : -32768 ≤ to_signed 16 v ∧ to_signed 16 v < 32768 := by
  unfold to_signed
  have h : v % 2 ^ 16 < 2 ^ 16 := Nat.mod_lt _ (by norm_num)
  split_ifs with h1 <;> norm_num at h h1 ⊢ <;> omega

theorem pcm_of_bytes_range : ∀ (n : Nat) (bs : List Byte), bs.length ≤ n →
    ∀ x ∈ pcm_of_bytes bs, -32768 ≤ x ∧ x < 32768 := by
  intro n
  induction n using Nat.strong_induction_on with
  | _ n ih =>
    intro bs hn x hx
    match bs, hn, hx with
    | [], _, hx => simp [pcm_of_bytes] at hx
    | [_], _, hx => simp [pcm_of_bytes] at hx
    | b0 :: b1 :: rest, hn, hx =>
      rw [pcm_of_bytes] at hx
      rcases List.mem_cons.1 hx with rfl | hx
      · exact to_signed_16_range _
      · exact ih rest.length (by simp at hn; omega) rest le_rfl x hx

theorem pcm_map_eq (bs : List Byte) :
    (pcm_of_bytes bs).map pcm_to_float
      = (pcm_of_bytes bs).map (fun (x : Int) => (x : ℚ) / 32768) := by
  apply List.map_congr_left
  intro x hx
  obtain ⟨h1, h2⟩ := pcm_of_bytes_range bs.length bs le_rfl x hx
  exact pcm_to_float_eq x h1 h2

theorem pcm_of_bytes_ne_nil (bs : List Byte) (h : 2 ≤ bs.length) : pcm_of_bytes bs ≠ [] := by
  match bs, h with
  | b0 :: b1 :: rest, _ => simp [pcm_of_bytes]

theorem pcm_of_bytes_length : ∀ (n : Nat) (bs : List Byte), bs.length ≤ n →
    (pcm_of_bytes bs).length = bs.length / 2 := by
  intro n
  induction n using Nat.strong_induction_on with
  | _ n ih =>
    intro bs hn
    match bs, hn with
    | [], _ => simp [pcm_of_bytes]
    | [_], _ => simp [pcm_of_bytes]
    | b0 :: b1 :: rest, hn =>
      rw [pcm_of_bytes, List.length_cons, ih rest.length (by simp at hn; omega) rest le_rfl]
      simp only [List.length_cons]
      omega

theorem fmt_payload_split (fmtp : List Byte) :
    fmtp = fmtp.take 2 ++ ((fmtp.drop 2).take 2 ++ ((fmtp.drop 4).take 4 ++ fmtp.drop 8)) := by
  have e1 : fmtp.drop 4 = (fmtp.drop 4).take 4 ++ fmtp.drop 8 := by
    conv_lhs => rw [← List.take_append_drop 4 (fmtp.drop 4)]
    rw [List.drop_drop]
  have e2 : fmtp.drop 2 = (fmtp.drop 2).take 2 ++ fmtp.drop 4 := by
    conv_lhs => rw [← List.take_append_drop 2 (fmtp.drop 2)]
    rw [List.drop_drop]
  conv_lhs => rw [← List.take_append_drop 2 fmtp, e2, e1]

/-- Decoding of a file made of the 12-byte header, subchunks other than `fmt ` and `data`, a
`fmt ` subchunk, more such subchunks, a `data` subchunk of even size, and anything after. -/
theorem read_wav_file_subchunks (junk : Junk) (data szb fmtp payload rest : List Byte)
    (before between : List (List Byte × List Byte)) (samples0 : List ℚ) (r0 : Int)
    (hd : data = tag_RIFF ++ (szb ++ (tag_WAVE ++ (subchunks before ++ (subchunk tag_fmt fmtp
      ++ (subchunks between ++ (subchunk tag_data payload ++ rest)))))))
    (hszb : szb.length = 4)
    (hb : ∀ c ∈ before, other_subchunk c) (hm : ∀ c ∈ between, other_subchunk c)
    (hf8 : 8 ≤ fmtp.length) (hf : fmtp.length < 2 ^ 32)
    (heven : payload.length % 2 = 0) (hlen : payload.length < 2 ^ 32) :
    read_wav_file junk (some data) samples0 r0
      = some (!((pcm_of_bytes payload).map pcm_to_float).isEmpty,
          (pcm_of_bytes payload).map pcm_to_float,
          to_signed 32 (le_value ((fmtp.drop 4).take 4))) := by
  have d0 : data.drop 0 = tag_RIFF ++ (szb ++ (tag_WAVE ++ (subchunks before
      ++ (subchunk tag_fmt fmtp ++ (subchunks between
        ++ (subchunk tag_data payload ++ rest)))))) := by
    rw [List.drop_zero, hd]
  have d4 := drop_add_of_drop_eq _ _ _ _ d0
  have d8 := drop_add_of_drop_eq _ _ _ _ d4
  have d12 := drop_add_of_drop_eq _ _ _ _ d8
  have dF := drop_add_of_drop_eq _ _ _ _ d12
  have dM := drop_add_of_drop_eq _ _ _ _ dF
  have dD := drop_add_of_drop_eq _ _ _ _ dM
  have hlenD : data.length = 12 + (subchunks before).length + (8 + fmtp.length)
      + (subchunks between).length + (8 + payload.length) + rest.length := by
    rw [hd]
    simp only [List.length_append, subchunk_length _ _ (rfl : tag_fmt.length = 4),
      subchunk_length _ _ (rfl : tag_data.length = 4), hszb, tag_RIFF, tag_WAVE,
      List.length_cons, List.length_nil]
    omega
  simp only [tag_RIFF, tag_WAVE, List.length_cons, List.length_nil, Nat.zero_add, Nat.reduceAdd,
    hszb, subchunk_length _ _ (rfl : tag_fmt.length = 4)] at d4 d8 d12 dF dM dD
  clear d4 hd
  have p1 := IfStream.read_drop data 0 4 (le_bytes 4 junk.riff) tag_RIFF _ d0 rfl
    (le_bytes_length _ _)
  have p2 := IfStream.read_drop data 8 4 (le_bytes 4 junk.wave) tag_WAVE _ d8 rfl
    (le_bytes_length _ _)
  have hF' : data.drop (12 + (subchunks before).length)
      = tag_fmt ++ (le_bytes 4 fmtp.length ++ (fmtp.take 2 ++ ((fmtp.drop 2).take 2
        ++ ((fmtp.drop 4).take 4 ++ (fmtp.drop 8 ++ (subchunks between
          ++ (subchunk tag_data payload ++ rest))))))) := by
    have e := fmt_payload_split fmtp
    calc data.drop (12 + (subchunks before).length)
        = subchunk tag_fmt fmtp ++ (subchunks between
            ++ (subchunk tag_data payload ++ rest)) := dF
      _ = tag_fmt ++ (le_bytes 4 fmtp.length ++ ((fmtp.take 2 ++ ((fmtp.drop 2).take 2
            ++ ((fmtp.drop 4).take 4 ++ fmtp.drop 8))) ++ (subchunks between
              ++ (subchunk tag_data payload ++ rest)))) := by
          rw [← e]
          simp only [subchunk, List.append_assoc]
      _ = _ := by simp only [List.append_assoc]
  have s1 := scan_chunk_fmt junk data (12 + (subchunks before).length) samples0 r0 fmtp.length
    (fmtp.take 2) ((fmtp.drop 2).take 2) ((fmtp.drop 4).take 4) _ hF'
    (by rw [List.length_take]; omega)
    (by rw [List.length_take, List.length_drop]; omega)
    (by rw [List.length_take, List.length_drop]; omega) hf8 hf
  have k1 := scan_skip junk data before hb
  have k2 := scan_skip junk data between hm
  have hD' : data.drop (12 + (subchunks before).length + (8 + fmtp.length)
      + (subchunks between).length)
      = tag_data ++ (le_bytes 4 payload.length ++ (payload ++ rest)) := by
    rw [dD]
    simp only [subchunk, List.append_assoc]
  have s2 := scan_chunk_data junk data (12 + (subchunks before).length + (8 + fmtp.length)
      + (subchunks between).length) samples0 (to_signed 32 (le_value ((fmtp.drop 4).take 4)))
    payload.length payload rest hD' rfl heven hlen
  have g1 := subchunks_length_ge before hb
  have g2 := subchunks_length_ge between hm
  obtain ⟨F, hF⟩ : ∃ F, data.length + 2 = ((F + 1 + between.length) + 1) + before.length :=
    ⟨data.length - before.length - between.length, by omega⟩
  have e1 : 12 + (subchunks before).length + 8 + fmtp.length
      = 12 + (subchunks before).length + (8 + fmtp.length) := by omega
  unfold read_wav_file
  simp only [IfStream.ofFile, p1, IfStream.seekg_cur, Nat.zero_add]
  simp only [Bool.false_eq_true, if_false, ne_eq, not_true_eq_false, p2, Nat.reduceAdd]
  rw [hF, k1 _ 12 samples0 r0 _ d12, scan_chunks]
  simp only [IfStream.good, Bool.not_false, Bool.and_self, if_true, s1, e1]
  rw [k2 _ _ samples0 _ _ dM, scan_chunks]
  simp only [IfStream.good, Bool.not_false, Bool.and_self, if_true, s2]

/-- The decoder's reading of two bytes as an `int16_t` is the value the format defines. -/
theorem to_signed_16_pair (b0 b1 : Byte) :
    to_signed 16 (le_value [b0, b1]) = spec_int16_le b0 b1 := by
  have h0 := b0.isLt
  have h1 := b1.isLt
  unfold to_signed spec_int16_le le_value le_value le_value
  norm_num
  split_ifs <;> omega

/-- The decoder's reading of four bytes as an `int` is the value the format defines. -/
theorem to_signed_32_quad (b0 b1 b2 b3 : Byte) :
    to_signed 32 (le_value [b0, b1, b2, b3]) = spec_int32_le b0 b1 b2 b3 := by
  have h0 := b0.isLt
  have h1 := b1.isLt
  have h2 := b2.isLt
  have h3 := b3.isLt
  unfold to_signed spec_int32_le
  simp only [le_value]
  norm_num
  split_ifs <;> omega

theorem pcm_of_bytes_spec : ∀ (n : Nat) (bs : List Byte), bs.length ≤ n →
    pcm_of_bytes bs = (List.range (bs.length / 2)).map
      (fun i => spec_int16_le (bs.getD (2 * i) 0) (bs.getD (2 * i + 1) 0)) := by
  intro n
  induction n using Nat.strong_induction_on with
  | _ n ih =>
    intro bs hn
    match bs, hn with
    | [], _ => simp [pcm_of_bytes]
    | [_], _ => simp [pcm_of_bytes]
    | b0 :: b1 :: rest, hn =>
      have e : (b0 :: b1 :: rest).length / 2 = rest.length / 2 + 1 := by
        simp only [List.length_cons]; omega
      rw [pcm_of_bytes, e, List.range_succ_eq_map, List.map_cons, List.map_map,
        ih rest.length (by simp at hn; omega) rest le_rfl, to_signed_16_pair]
      congr 1

/-- The samples decoded from a payload are the samples the spec assigns to it. -/
theorem pcm_map_spec (bs : List Byte) :
    (pcm_of_bytes bs).map pcm_to_float = spec_samples bs := by
  rw [pcm_map_eq, pcm_of_bytes_spec bs.length bs le_rfl, List.map_map]
  rfl

theorem fmt_rate_bytes (fmtp : List Byte) (h : 8 ≤ fmtp.length) :
    (fmtp.drop 4).take 4 = [fmtp.getD 4 0, fmtp.getD 5 0, fmtp.getD 6 0, fmtp.getD 7 0] := by
  match fmtp, h with
  | _ :: _ :: _ :: _ :: _ :: _ :: _ :: _ :: _, _ => rfl

/-! ## Claims about containers with several subchunks -/

/-- C18: decode of well-formed containers.  For every file made of the 12-byte header
(`RIFF`, any four bytes, `WAVE`) followed by subchunks whose declared sizes are the lengths of
their payloads, namely any subchunks other than `fmt ` and `data`, a `fmt ` subchunk of at
least 8 bytes, again any such other subchunks, and a `data` subchunk of even, non-zero size,
with anything after it, `read_wav_file` succeeds, reports the signed 32-bit little-endian
value of bytes 4 to 7 of the `fmt ` payload as the sample rate, and returns `spec_samples` of
the `data` payload: for each `i` below half its length, the signed 16-bit little-endian value
of its bytes `2 i` and `2 i + 1`, divided by 32768.  The result does not mention the other
subchunks, nor what the locals and the reference parameters held before. -/
theorem C18_decode_well_formed (junk : Junk) (size_field fmt_payload payload rest : List Byte)
    (before between : List (List Byte × List Byte)) (samples0 : List ℚ) (r0 : Int)
    (hsize : size_field.length = 4)
    (hb : ∀ c ∈ before, other_subchunk c) (hm : ∀ c ∈ between, other_subchunk c)
    (hf8 : 8 ≤ fmt_payload.length) (hf : fmt_payload.length < 2 ^ 32)
    (heven : payload.length % 2 = 0) (hne : payload ≠ []) (hlen : payload.length < 2 ^ 32) :
    read_wav_file junk
        (some (tag_RIFF ++ size_field ++ tag_WAVE ++ subchunks before
          ++ subchunk tag_fmt fmt_payload ++ subchunks between ++ subchunk tag_data payload
          ++ rest)) samples0 r0
      = some (true, spec_samples payload,
          spec_int32_le (fmt_payload.getD 4 0) (fmt_payload.getD 5 0) (fmt_payload.getD 6 0)
            (fmt_payload.getD 7 0))
      ∧ (spec_samples payload).length = payload.length / 2 := by
  refine ⟨?_, by simp [spec_samples]⟩
  have h2 : 2 ≤ payload.length := by
    have : 0 < payload.length := List.length_pos.2 hne
    omega
  have key := read_wav_file_subchunks junk _ size_field fmt_payload payload rest before between
    samples0 r0 rfl hsize hb hm hf8 hf heven hlen
  have hempty : ((pcm_of_bytes payload).map pcm_to_float).isEmpty = false := by
    have := pcm_of_bytes_ne_nil payload h2
    cases hp : pcm_of_bytes payload with
    | nil => exact absurd hp this
    | cons a l => rfl
  rw [hempty, pcm_map_spec, fmt_rate_bytes fmt_payload hf8, to_signed_32_quad] at key
  simp only [List.append_assoc]
  exact key

/-- C18, witness: a file with a `LIST` subchunk before the `fmt ` subchunk, a `fact` subchunk
between `fmt ` and `data`, the two samples `1` and `-1` at 22050 Hz, and one trailing byte: the
decode succeeds with `1 / 32768`, `-1 / 32768` and the rate 22050. -/
theorem C18_decode_well_formed_witness :
    (([0, 0, 0, 0] : List Byte).length = 4
        ∧ (∀ c ∈ [(([0x4c, 0x49, 0x53, 0x54] : List Byte), ([1, 2] : List Byte))],
          other_subchunk c)
        ∧ (∀ c ∈ [(([0x66, 0x61, 0x63, 0x74] : List Byte), ([9, 9, 9, 9] : List Byte))],
          other_subchunk c)
        ∧ 8 ≤ ([1, 0, 1, 0, 0x22, 0x56, 0, 0] : List Byte).length
        ∧ ([1, 0, 1, 0, 0x22, 0x56, 0, 0] : List Byte).length < 2 ^ 32
        ∧ ([1, 0, 0xff, 0xff] : List Byte).length % 2 = 0
        ∧ ([1, 0, 0xff, 0xff] : List Byte) ≠ []
        ∧ ([1, 0, 0xff, 0xff] : List Byte).length < 2 ^ 32)
      ∧ read_wav_file ⟨0, 0, 0, 0, 0, 0, 0⟩
          (some (tag_RIFF ++ [0, 0, 0, 0] ++ tag_WAVE
            ++ subchunks [([0x4c, 0x49, 0x53, 0x54], [1, 2])]
            ++ subchunk tag_fmt [1, 0, 1, 0, 0x22, 0x56, 0, 0]
            ++ subchunks [([0x66, 0x61, 0x63, 0x74], [9, 9, 9, 9])]
            ++ subchunk tag_data [1, 0, 0xff, 0xff] ++ [7])) [] 0
          = some (true, [1 / 32768, -1 / 32768], 22050) :=
  have hb : ∀ c ∈ [(([0x4c, 0x49, 0x53, 0x54] : List Byte), ([1, 2] : List Byte))],
      other_subchunk c := by
    intro c hc
    rw [List.mem_singleton.1 hc]
    exact ⟨rfl, by decide, by decide, by decide⟩
  have hm : ∀ c ∈ [(([0x66, 0x61, 0x63, 0x74] : List Byte), ([9, 9, 9, 9] : List Byte))],
      other_subchunk c := by
    intro c hc
    rw [List.mem_singleton.1 hc]
    exact ⟨rfl, by decide, by decide, by decide⟩
  have hval : (some (true, spec_samples [1, 0, 0xff, 0xff],
        spec_int32_le (([1, 0, 1, 0, 0x22, 0x56, 0, 0] : List Byte).getD 4 0)
          (([1, 0, 1, 0, 0x22, 0x56, 0, 0] : List Byte).getD 5 0)
          (([1, 0, 1, 0, 0x22, 0x56, 0, 0] : List Byte).getD 6 0)
          (([1, 0, 1, 0, 0x22, 0x56, 0, 0] : List Byte).getD 7 0)) : Option (Bool × List ℚ × Int))
      = some (true, [1 / 32768, -1 / 32768], 22050) := by
    decide!
  ⟨⟨rfl, hb, hm, by decide, by decide, by decide, by decide, by decide⟩,
    (C18_decode_well_formed ⟨0, 0, 0, 0, 0, 0, 0⟩ [0, 0, 0, 0] [1, 0, 1, 0, 0x22, 0x56, 0, 0]
      [1, 0, 0xff, 0xff] [7] [([0x4c, 0x49, 0x53, 0x54], [1, 2])]
      [([0x66, 0x61, 0x63, 0x74], [9, 9, 9, 9])] [] 0 rfl hb hm (by decide) (by decide)
      (by decide) (by decide) (by decide)).1.trans hval⟩

/-! ## Theorems: rounding is monotone -/

theorem rne_div_tie (num den k : Nat) (hden : 0 < den) (h : 2 * num = (2 * k + 1) * den) :
    rne_div num den = if k % 2 = 0 then k else k + 1 := by
  obtain ⟨m, hm⟩ : ∃ m, den = 2 * m := by
    have hev : Even ((2 * k + 1) * den) := ⟨num, by omega⟩
    rcases Nat.even_mul.1 hev with h1 | h1
    · obtain ⟨r, hr⟩ := h1
      omega
    · obtain ⟨r, hr⟩ := h1
      exact ⟨r, by omega⟩
  subst hm
  have hm0 : 0 < m := by omega
  have hnum : num = m + (2 * m) * k := by
    have : 2 * num = 2 * (m + (2 * m) * k) := by rw [h]; ring
    omega
  have hq : num / (2 * m) = k := by
    rw [hnum, Nat.add_mul_div_left _ _ (by omega : 0 < 2 * m), Nat.div_eq_of_lt (by omega)]
    simp
  have hr : num % (2 * m) = m := by
    rw [hnum, Nat.add_mul_mod_self_left, Nat.mod_eq_of_lt (by omega)]
  unfold rne_div
  simp only [hq, hr, lt_irrefl, if_false]

theorem rne_div_mono (n d n' d' : Nat) (hd : 0 < d) (hd' : 0 < d')
    (h : (n : ℚ) / d ≤ (n' : ℚ) / d') : rne_div n d ≤ rne_div n' d' := by
  by_contra hc
  have hlt : rne_div n' d' + 1 ≤ rne_div n d := by omega
  have hltq : ((rne_div n' d' : Nat) : ℚ) + 1 ≤ ((rne_div n d : Nat) : ℚ) := by
    exact_mod_cast hlt
  have e1 := rne_div_err n d hd
  have e2 := rne_div_err n' d' hd'
  rw [abs_le] at e1 e2
  have hdq : (0 : ℚ) < d := by exact_mod_cast hd
  have hdq' : (0 : ℚ) < d' := by exact_mod_cast hd'
  have t1 : (n : ℚ) / d = ((rne_div n' d' : Nat) : ℚ) + 1 / 2 := by linarith [e1.1, e1.2, e2.1, e2.2]
  have t2 : (n' : ℚ) / d' = ((rne_div n' d' : Nat) : ℚ) + 1 / 2 := by
    linarith [e1.1, e1.2, e2.1, e2.2]
  have t3 : ((rne_div n d : Nat) : ℚ) = ((rne_div n' d' : Nat) : ℚ) + 1 := by
    linarith [e1.1, e1.2, e2.1, e2.2]
  have k1 : 2 * n = (2 * rne_div n' d' + 1) * d := by
    have : (2 : ℚ) * n = (2 * ((rne_div n' d' : Nat) : ℚ) + 1) * d := by
      rw [div_eq_iff hdq.ne'] at t1
      rw [t1]; ring
    exact_mod_cast this
  have k2 : 2 * n' = (2 * rne_div n' d' + 1) * d' := by
    have : (2 : ℚ) * n' = (2 * ((rne_div n' d' : Nat) : ℚ) + 1) * d' := by
      rw [div_eq_iff hdq'.ne'] at t2
      rw [t2]; ring
    exact_mod_cast this
  have r1 := rne_div_tie n d _ hd k1
  have r2 := rne_div_tie n' d' _ hd' k2
  have r3 := r1.trans r2.symm
  omega

/-- The result of `rnd_pos` is a multiple of the quantum `2 ^ (e - p + 1)`, and rounding does
not cross a multiple of the quantum. -/
theorem rnd_pos_cross_up (p : Nat) (emin : Int) (a b K : Nat) (hb : 0 < b)
    (h : (a : ℚ) / b ≤ (K : ℚ) * (2 : ℚ) ^ (-((p : Int) - 1 - max (bin_exp a b) emin))) :
    rnd_pos p emin a b ≤ (K : ℚ) * (2 : ℚ) ^ (-((p : Int) - 1 - max (bin_exp a b) emin)) := by
  rw [rnd_pos_eq]
  set sh : Int := (p : Int) - 1 - max (bin_exp a b) emin with hsh
  have hpos : (0 : ℚ) < (2 : ℚ) ^ sh := by positivity
  have hden : 0 < b * 2 ^ (-sh).toNat := Nat.mul_pos hb (by positivity)
  have h1 : ((a * 2 ^ sh.toNat : Nat) : ℚ) / ((b * 2 ^ (-sh).toNat : Nat) : ℚ)
      ≤ ((K : Nat) : ℚ) / ((1 : Nat) : ℚ) := by
    rw [scaled_eq, Nat.cast_one, div_one]
    calc (a : ℚ) / b * (2 : ℚ) ^ sh ≤ (K : ℚ) * (2 : ℚ) ^ (-sh) * (2 : ℚ) ^ sh :=
          mul_le_mul_of_nonneg_right h hpos.le
      _ = K := by
          rw [mul_assoc, ← zpow_add₀ (by norm_num : (2 : ℚ) ≠ 0)]
          simp
  have h2 := rne_div_mono _ _ K 1 hden (by norm_num) h1
  rw [rne_div_exact K 1 K (by norm_num) (by ring)] at h2
  apply mul_le_mul_of_nonneg_right _ (by positivity)
  exact_mod_cast h2

theorem rnd_pos_cross_down (p : Nat) (emin : Int) (a b K : Nat) (hb : 0 < b)
    (h : (K : ℚ) * (2 : ℚ) ^ (-((p : Int) - 1 - max (bin_exp a b) emin)) ≤ (a : ℚ) / b) :
    (K : ℚ) * (2 : ℚ) ^ (-((p : Int) - 1 - max (bin_exp a b) emin)) ≤ rnd_pos p emin a b := by
  rw [rnd_pos_eq]
  set sh : Int := (p : Int) - 1 - max (bin_exp a b) emin with hsh
  have hpos : (0 : ℚ) < (2 : ℚ) ^ sh := by positivity
  have hden : 0 < b * 2 ^ (-sh).toNat := Nat.mul_pos hb (by positivity)
  have h1 : ((K : Nat) : ℚ) / ((1 : Nat) : ℚ)
      ≤ ((a * 2 ^ sh.toNat : Nat) : ℚ) / ((b * 2 ^ (-sh).toNat : Nat) : ℚ) := by
    rw [scaled_eq, Nat.cast_one, div_one]
    calc (K : ℚ) = (K : ℚ) * (2 : ℚ) ^ (-sh) * (2 : ℚ) ^ sh := by
          rw [mul_assoc, ← zpow_add₀ (by norm_num : (2 : ℚ) ≠ 0)]
          simp
      _ ≤ (a : ℚ) / b * (2 : ℚ) ^ sh := mul_le_mul_of_nonneg_right h hpos.le
  have h2 := rne_div_mono K 1 _ _ (by norm_num) hden h1
  rw [rne_div_exact K 1 K (by norm_num) (by ring)] at h2
  apply mul_le_mul_of_nonneg_right _ (by positivity)
  exact_mod_cast h2

theorem pow_mul_quantum (p : Nat) (E : Int) :
    ((2 ^ p : Nat) : ℚ) * (2 : ℚ) ^ (-((p : Int) - 1 - E)) = (2 : ℚ) ^ (E + 1) := by
  push_cast
  rw [← zpow_natCast, ← zpow_add₀ (by norm_num : (2 : ℚ) ≠ 0)]
  congr 1
  ring

theorem half_pow_mul_quantum (p : Nat) (hp : 1 ≤ p) (E : Int) :
    ((2 ^ (p - 1) : Nat) : ℚ) * (2 : ℚ) ^ (-((p : Int) - 1 - E)) = (2 : ℚ) ^ E := by
  push_cast
  rw [← zpow_natCast, ← zpow_add₀ (by norm_num : (2 : ℚ) ≠ 0)]
  congr 1
  rw [Nat.cast_sub hp]
  ring

theorem bin_exp_mono (a b a' b' : Nat) (ha : 0 < a) (hb : 0 < b) (ha' : 0 < a') (hb' : 0 < b')
    (h : (a : ℚ) / b ≤ (a' : ℚ) / b') : bin_exp a b ≤ bin_exp a' b' := by
  obtain ⟨l1, _⟩ := bin_exp_spec a b ha hb
  obtain ⟨_, u2⟩ := bin_exp_spec a' b' ha' hb'
  have : (2 : ℚ) ^ bin_exp a b < (2 : ℚ) ^ (bin_exp a' b' + 1) :=
    lt_of_le_of_lt (le_trans l1 h) u2
  have := (two_zpow_lt_iff _ _).1 this
  omega

theorem rnd_pos_mono (p : Nat) (emin : Int) (a b a' b' : Nat) (hp : 1 ≤ p) (ha : 0 < a)
    (hb : 0 < b) (ha' : 0 < a') (hb' : 0 < b') (h : (a : ℚ) / b ≤ (a' : ℚ) / b') :
    rnd_pos p emin a b ≤ rnd_pos p emin a' b' := by
  have he := bin_exp_mono a b a' b' ha hb ha' hb' h
  obtain ⟨l1, u1⟩ := bin_exp_spec a b ha hb
  obtain ⟨l2, u2⟩ := bin_exp_spec a' b' ha' hb'
  have hE : max (bin_exp a b) emin ≤ max (bin_exp a' b') emin := max_le_max he le_rfl
  rcases eq_or_lt_of_le hE with heq | hlt
  · rw [rnd_pos_eq, rnd_pos_eq, heq]
    set sh : Int := (p : Int) - 1 - max (bin_exp a' b') emin with hsh
    have hden : 0 < b * 2 ^ (-sh).toNat := Nat.mul_pos hb (by positivity)
    have hden' : 0 < b' * 2 ^ (-sh).toNat := Nat.mul_pos hb' (by positivity)
    have h1 : ((a * 2 ^ sh.toNat : Nat) : ℚ) / ((b * 2 ^ (-sh).toNat : Nat) : ℚ)
        ≤ ((a' * 2 ^ sh.toNat : Nat) : ℚ) / ((b' * 2 ^ (-sh).toNat : Nat) : ℚ) := by
      rw [scaled_eq, scaled_eq]
      exact mul_le_mul_of_nonneg_right h (by positivity)
    have h2 := rne_div_mono _ _ _ _ hden hden' h1
    apply mul_le_mul_of_nonneg_right _ (by positivity)
    exact_mod_cast h2
  · have hE' : max (bin_exp a' b') emin = bin_exp a' b' := by
      apply max_eq_left
      by_contra hc
      have : max (bin_exp a' b') emin = emin := max_eq_right (by omega)
      have := le_max_right (bin_exp a b) emin
      omega
    have up := rnd_pos_cross_up p emin a b (2 ^ p) hb (by
      rw [pow_mul_quantum]
      exact le_trans u1.le (two_zpow_le_of_le _ _ (by
        have := le_max_left (bin_exp a b) emin
        omega)))
    have down := rnd_pos_cross_down p emin a' b' (2 ^ (p - 1)) hb' (by
      rw [half_pow_mul_quantum p hp, hE']
      exact l2)
    rw [pow_mul_quantum] at up
    rw [half_pow_mul_quantum p hp] at down
    exact le_trans up (le_trans (two_zpow_le_of_le _ _ (by omega)) down)

theorem rat_as_quotient (x : ℚ) (hx : 0 < x) :
    0 < x.num.natAbs ∧ 0 < x.den ∧ ((x.num.natAbs : Nat) : ℚ) / (x.den : ℚ) = x := by
  refine ⟨?_, x.den_pos, ?_⟩
  · have : 0 < x.num := Rat.num_pos.2 hx
    omega
  · rw [natAbs_num_div_den, abs_of_pos hx]

/-- Rounding is monotone. -/
theorem rnd_mono (p : Nat) (emin : Int) (hp : 1 ≤ p) (x y : ℚ) (h : x ≤ y) :
    rnd p emin x ≤ rnd p emin y := by
  have pos_case : ∀ u v : ℚ, 0 < u → u ≤ v → rnd p emin u ≤ rnd p emin v := by
    intro u v hu huv
    have hv : 0 < v := lt_of_lt_of_le hu huv
    obtain ⟨a1, b1, e1⟩ := rat_as_quotient u hu
    obtain ⟨a2, b2, e2⟩ := rat_as_quotient v hv
    rw [rnd_of_pos p emin u hu, rnd_of_pos p emin v hv]
    apply rnd_pos_mono p emin _ _ _ _ hp a1 b1 a2 b2
    rw [e1, e2]
    exact huv
  rcases lt_trichotomy x 0 with hx | hx | hx
  · rcases lt_trichotomy y 0 with hy | hy | hy
    · have := pos_case (-y) (-x) (by linarith) (by linarith)
      rw [rnd_neg, rnd_neg] at this
      linarith
    · subst hy
      have := rnd_nonneg p emin (-x) (by linarith)
      rw [rnd_neg] at this
      rw [rnd_zero]
      linarith
    · have h1 := rnd_nonneg p emin (-x) (by linarith)
      rw [rnd_neg] at h1
      have h2 := rnd_nonneg p emin y hy.le
      linarith
  · subst hx
    rw [rnd_zero]
    exact rnd_nonneg p emin y h
  · exact pos_case x y hx h

/-! ## Theorems: rounding near a representable value -/

/-- The effective exponent of a positive rational in a format of least normal exponent
`emin` is the larger of its binary exponent and `emin`; this lemma bounds it from both sides
by bounds on the rational. -/
theorem eff_exp_le (emin : Int) (x : ℚ) (hx : 0 < x) (E : Int) (hE : emin ≤ E)
    (h : x < (2 : ℚ) ^ (E + 1)) : max (bin_exp x.num.natAbs x.den) emin ≤ E := by
  obtain ⟨a1, b1, e1⟩ := rat_as_quotient x hx
  obtain ⟨l1, _⟩ := bin_exp_spec _ _ a1 b1
  rw [e1] at l1
  have := (two_zpow_lt_iff _ _).1 (lt_of_le_of_lt l1 h)
  exact max_le (by omega) hE

theorem le_eff_exp (emin : Int) (x : ℚ) (hx : 0 < x) (E : Int)
    (h : E ≤ emin ∨ (2 : ℚ) ^ E ≤ x) : E ≤ max (bin_exp x.num.natAbs x.den) emin := by
  rcases h with h | h
  · exact le_trans h (le_max_right _ _)
  · obtain ⟨a1, b1, e1⟩ := rat_as_quotient x hx
    obtain ⟨_, u1⟩ := bin_exp_spec _ _ a1 b1
    rw [e1] at u1
    have := (two_zpow_lt_iff _ _).1 (lt_of_le_of_lt h u1)
    exact le_trans (by omega) (le_max_left _ _)

/-- A value within less than half a quantum of a multiple of the quantum rounds to it. -/
theorem rnd_snap (p : Nat) (emin : Int) (x : ℚ) (hx : 0 < x) (K : Nat)
    (h : |x - (K : ℚ) * (2 : ℚ) ^ (-((p : Int) - 1 - max (bin_exp x.num.natAbs x.den) emin))|
      < (2 : ℚ) ^ (-((p : Int) - 1 - max (bin_exp x.num.natAbs x.den) emin)) / 2) :
    rnd p emin x
      = (K : ℚ) * (2 : ℚ) ^ (-((p : Int) - 1 - max (bin_exp x.num.natAbs x.den) emin)) := by
  obtain ⟨a1, b1, e1⟩ := rat_as_quotient x hx
  have herr := rnd_pos_err p emin x.num.natAbs x.den b1
  rw [e1] at herr
  rw [rnd_of_pos p emin x hx]
  rw [rnd_pos_eq] at herr ⊢
  set E : Int := max (bin_exp x.num.natAbs x.den) emin with hE
  set N : Nat := rne_div (x.num.natAbs * 2 ^ ((p : Int) - 1 - E).toNat)
    (x.den * 2 ^ (-((p : Int) - 1 - E)).toNat) with hN
  set Q : ℚ := (2 : ℚ) ^ (-((p : Int) - 1 - E)) with hQ
  have hQ0 : 0 < Q := by positivity
  have hhalf : (2 : ℚ) ^ (E - p) = Q / 2 := by
    rw [hQ, eq_div_iff (by norm_num : (2 : ℚ) ≠ 0), ← zpow_add_one₀ (by norm_num : (2 : ℚ) ≠ 0)]
    congr 1
    ring
  rw [hhalf] at herr
  have hd : |((N : ℚ) - K) * Q| < Q := by
    have e : ((N : ℚ) - K) * Q = ((N : ℚ) * Q - x) + (x - (K : ℚ) * Q) := by ring
    rw [e]
    calc |((N : ℚ) * Q - x) + (x - (K : ℚ) * Q)| ≤ |(N : ℚ) * Q - x| + |x - (K : ℚ) * Q| :=
          abs_add _ _
      _ < Q / 2 + Q / 2 := add_lt_add_of_le_of_lt herr h
      _ = Q := by ring
  rw [abs_mul, abs_of_pos hQ0] at hd
  have hd1 : |(N : ℚ) - K| < 1 := by
    by_contra hc
    push_neg at hc
    have := mul_le_mul_of_nonneg_right hc hQ0.le
    linarith
  have hNK : (N : Int) = K := by
    have h1 : |((N : Int) - (K : Int) : Int)| < 1 := by
      have : ((|((N : Int) - (K : Int) : Int)| : Int) : ℚ) < 1 := by
        push_cast
        exact hd1
      exact_mod_cast this
    have := Int.abs_lt_one_iff.1 h1
    omega
  have hNK' : (N : ℚ) = K := by exact_mod_cast hNK
  rw [hNK']

/-- A positive fixed point of the rounding is a multiple `N` of its quantum with
`1 ≤ N < 2 ^ p`. -/
theorem rnd_fix_quantum (p : Nat) (emin : Int) (h : ℚ) (hh : 0 < h)
    (hfix : rnd p emin h = h) :
    ∃ N : Nat, h = (N : ℚ)
        * (2 : ℚ) ^ (-((p : Int) - 1 - max (bin_exp h.num.natAbs h.den) emin))
      ∧ 1 ≤ N ∧ N < 2 ^ p := by
  obtain ⟨a1, b1, e1⟩ := rat_as_quotient h hh
  obtain ⟨_, u1⟩ := bin_exp_spec _ _ a1 b1
  rw [e1] at u1
  have h1 := hfix
  rw [rnd_of_pos p emin h hh, rnd_pos_eq] at h1
  set E : Int := max (bin_exp h.num.natAbs h.den) emin with hE
  set N : Nat := rne_div (h.num.natAbs * 2 ^ ((p : Int) - 1 - E).toNat)
    (h.den * 2 ^ (-((p : Int) - 1 - E)).toNat) with hN
  set Q : ℚ := (2 : ℚ) ^ (-((p : Int) - 1 - E)) with hQ
  have hQ0 : 0 < Q := by positivity
  refine ⟨N, h1.symm, ?_, ?_⟩
  · rcases Nat.eq_zero_or_pos N with h0 | h0
    · rw [h0] at h1
      simp at h1
      linarith
    · exact h0
  · have hlt : h < (2 : ℚ) ^ (E + 1) :=
      lt_of_lt_of_le u1 (two_zpow_le_of_le _ _ (by
        have := le_max_left (bin_exp h.num.natAbs h.den) emin
        omega))
    rw [← pow_mul_quantum p E, ← hQ, ← h1] at hlt
    have := lt_of_mul_lt_mul_right hlt hQ0.le
    exact_mod_cast this

theorem quantum_half (p : Nat) (E : Int) :
    (2 : ℚ) ^ (-((p : Int) - 1 - (E - 1))) = (2 : ℚ) ^ (-((p : Int) - 1 - E)) / 2 := by
  rw [eq_div_iff (by norm_num : (2 : ℚ) ≠ 0), ← zpow_add_one₀ (by norm_num : (2 : ℚ) ≠ 0)]
  congr 1
  ring

theorem quantum_le_pow (p : Nat) (hp : 1 ≤ p) (E : Int) :
    (2 : ℚ) ^ (-((p : Int) - 1 - E)) ≤ (2 : ℚ) ^ E :=
  two_zpow_le_of_le _ _ (by omega)

/-- A value at most a quarter of a quantum above a positive fixed point rounds to it. -/
theorem rnd_snap_up (p : Nat) (emin : Int) (h x : ℚ) (hh : 0 < h)
    (hfix : rnd p emin h = h) (h1 : h ≤ x)
    (h2 : x ≤ h + (2 : ℚ) ^ (-((p : Int) - 1 - max (bin_exp h.num.natAbs h.den) emin)) / 4) :
    rnd p emin x = h := by
  obtain ⟨N, hN, N1, N2⟩ := rnd_fix_quantum p emin h hh hfix
  obtain ⟨a1, b1, e1⟩ := rat_as_quotient h hh
  obtain ⟨l1, _⟩ := bin_exp_spec _ _ a1 b1
  rw [e1] at l1
  set E : Int := max (bin_exp h.num.natAbs h.den) emin with hE
  set Q : ℚ := (2 : ℚ) ^ (-((p : Int) - 1 - E)) with hQ
  have hQ0 : 0 < Q := by positivity
  have hx : 0 < x := lt_of_lt_of_le hh h1
  have hNq : (N : ℚ) + 1 ≤ 2 ^ p := by exact_mod_cast N2
  have hxlt : x < (2 : ℚ) ^ (E + 1) := by
    rw [← pow_mul_quantum p E, ← hQ]
    push_cast
    nlinarith
  have hEx : max (bin_exp x.num.natAbs x.den) emin = E := by
    apply le_antisymm
    · exact eff_exp_le emin x hx E (le_max_right _ _) hxlt
    · apply le_eff_exp emin x hx E
      rcases le_total (bin_exp h.num.natAbs h.den) emin with hc | hc
      · left
        rw [hE, max_eq_right hc]
      · right
        rw [hE, max_eq_left hc]
        exact le_trans l1 h1
  have key := rnd_snap p emin x hx N (by
    rw [hEx, ← hQ, ← hN, abs_lt]
    constructor <;> linarith)
  rw [hEx, ← hQ, ← hN] at key
  exact key

/-- A value at most an eighth of a quantum below a positive fixed point rounds to it. -/
theorem rnd_snap_down (p : Nat) (emin : Int) (hp : 1 ≤ p) (h x : ℚ) (hh : 0 < h)
    (hfix : rnd p emin h = h)
    (h1 : h - (2 : ℚ) ^ (-((p : Int) - 1 - max (bin_exp h.num.natAbs h.den) emin)) / 8 ≤ x)
    (h2 : x ≤ h) : rnd p emin x = h := by
  obtain ⟨N, hN, N1, N2⟩ := rnd_fix_quantum p emin h hh hfix
  obtain ⟨a1, b1, e1⟩ := rat_as_quotient h hh
  obtain ⟨l1, u1⟩ := bin_exp_spec _ _ a1 b1
  rw [e1] at l1 u1
  set E : Int := max (bin_exp h.num.natAbs h.den) emin with hE
  set Q : ℚ := (2 : ℚ) ^ (-((p : Int) - 1 - E)) with hQ
  have hQ0 : 0 < Q := by positivity
  have hN1 : (1 : ℚ) ≤ N := by exact_mod_cast N1
  have hhQ : Q ≤ h := by
    rw [hN]
    nlinarith
  have hx : 0 < x := by linarith
  have hEx1 : max (bin_exp x.num.natAbs x.den) emin ≤ E := by
    apply eff_exp_le emin x hx E (le_max_right _ _)
    exact lt_of_le_of_lt h2 (lt_of_lt_of_le u1 (two_zpow_le_of_le _ _ (by
      have := le_max_left (bin_exp h.num.natAbs h.den) emin
      omega)))
  have hEx2 : E - 1 ≤ max (bin_exp x.num.natAbs x.den) emin := by
    apply le_eff_exp emin x hx (E - 1)
    rcases le_total (bin_exp h.num.natAbs h.den) emin with hc | hc
    · left
      rw [hE, max_eq_right hc]
      omega
    · right
      have hEe : E = bin_exp h.num.natAbs h.den := by rw [hE, max_eq_left hc]
      rw [← hEe] at l1
      have hq := quantum_le_pow p hp E
      rw [← hQ] at hq
      have e2 : (2 : ℚ) ^ (E - 1) = (2 : ℚ) ^ E / 2 := by
        rw [eq_div_iff (by norm_num : (2 : ℚ) ≠ 0),
          ← zpow_add_one₀ (by norm_num : (2 : ℚ) ≠ 0)]
        congr 1
        ring
      rw [e2]
      have : (0 : ℚ) < (2 : ℚ) ^ E := by positivity
      linarith
  rcases (by omega : max (bin_exp x.num.natAbs x.den) emin = E
      ∨ max (bin_exp x.num.natAbs x.den) emin = E - 1) with hEx | hEx
  · have key := rnd_snap p emin x hx N (by
      rw [hEx, ← hQ, ← hN, abs_lt]
      constructor <;> linarith)
    rw [hEx, ← hQ, ← hN] at key
    exact key
  · have hK : ((2 * N : Nat) : ℚ) * (Q / 2) = h := by
      rw [hN]
      push_cast
      ring
    have key := rnd_snap p emin x hx (2 * N) (by
      rw [hEx, quantum_half, ← hQ, hK, abs_lt]
      constructor <;> linarith)
    rw [hEx, quantum_half, ← hQ, hK] at key
    exact key

/-! ## Theorems: interpolation between two `float` values -/

theorem f32_mono (x y : ℚ) (h : x ≤ y) : f32 x ≤ f32 y := rnd_mono 24 (-126) (by norm_num) x y h

theorem f64_mono (x y : ℚ) (h : x ≤ y) : f64 x ≤ f64 y := rnd_mono 53 (-1022) (by norm_num) x y h

theorem f32_neg (x : ℚ) : f32 (-x) = -f32 x := rnd_neg 24 (-126) x

theorem f64_neg (x : ℚ) : f64 (-x) = -f64 x := rnd_neg 53 (-1022) x

/-- Around a positive `float` value `h` there is a margin, relative to `h`, inside which
every rational rounds to `h` or to its side of `h`; and `h` is at least the least positive
`float`. -/
theorem f32_snap (h : ℚ) (hh : 0 < h) (hfix : f32 h = h) :
    1 / 2 ^ 149 ≤ h ∧ (∀ s, s ≤ h * (1 + 1 / 2 ^ 26) → f32 s ≤ h)
      ∧ (∀ s, h * (1 - 1 / 2 ^ 27) ≤ s → h ≤ f32 s) := by
  obtain ⟨N, hN, N1, N2⟩ := rnd_fix_quantum 24 (-126) h hh hfix
  have up := rnd_snap_up 24 (-126) h
  have down := rnd_snap_down 24 (-126) (by norm_num) h
  set E : Int := max (bin_exp h.num.natAbs h.den) (-126) with hE
  set Q : ℚ := (2 : ℚ) ^ (-(((24 : Nat) : Int) - 1 - E)) with hQ
  have hQ0 : 0 < Q := by positivity
  have hN1 : (1 : ℚ) ≤ N := by exact_mod_cast N1
  have hN2 : (N : ℚ) + 1 ≤ 2 ^ 24 := by exact_mod_cast N2
  have hQmin : 1 / 2 ^ 149 ≤ Q := by
    have h1 : (2 : ℚ) ^ (-149 : Int) ≤ Q := two_zpow_le_of_le _ _ (by
      have := le_max_right (bin_exp h.num.natAbs h.den) (-126)
      push_cast
      omega)
    have h2 : (2 : ℚ) ^ (-149 : Int) = 1 / 2 ^ 149 := by
      rw [zpow_neg, one_div]
      norm_cast
    rw [← h2]
    exact h1
  have hhQ : Q ≤ h := by rw [hN]; nlinarith
  have hlt : h + Q ≤ 2 ^ 24 * Q := by rw [hN]; nlinarith
  refine ⟨le_trans hQmin hhQ, ?_, ?_⟩
  · intro s hs
    have e := up (h + Q / 4) hh hfix (by linarith) le_rfl
    have := f32_mono s (h + Q / 4) (by nlinarith)
    unfold f32 at this
    rw [e] at this
    exact this
  · intro s hs
    have e := down (h - Q / 8) hh hfix le_rfl (by linarith)
    have := f32_mono (h - Q / 8) s (by nlinarith)
    unfold f32 at this
    rw [e] at this
    exact this

/-- The error of rounding a non-negative rational to `double`, the subnormal range included. -/
theorem f64_bounds (z : ℚ) (hz : 0 ≤ z) :
    z * (1 - 1 / 2 ^ 53) - 1 / 2 ^ 1075 ≤ f64 z ∧ f64 z ≤ z * (1 + 1 / 2 ^ 53) + 1 / 2 ^ 1075 := by
  rcases eq_or_lt_of_le hz with h0 | hpos
  · rw [← h0, f64_zero]
    norm_num
  · obtain ⟨a1, b1, e1⟩ := rat_as_quotient z hpos
    obtain ⟨l1, _⟩ := bin_exp_spec _ _ a1 b1
    have herr := rnd_pos_err 53 (-1022) z.num.natAbs z.den b1
    rw [e1] at herr l1
    rw [← rnd_of_pos 53 (-1022) z hpos] at herr
    have hb : (2 : ℚ) ^ (max (bin_exp z.num.natAbs z.den) (-1022) - ((53 : Nat) : Int))
        ≤ z / 2 ^ 53 + 1 / 2 ^ 1075 := by
      rcases le_total (bin_exp z.num.natAbs z.den) (-1022) with hc | hc
      · rw [max_eq_right hc]
        have : (2 : ℚ) ^ ((-1022 : Int) - ((53 : Nat) : Int)) = 1 / 2 ^ 1075 := by
          rw [show ((-1022 : Int) - ((53 : Nat) : Int)) = -((1075 : Nat) : Int) by norm_num,
            zpow_neg, zpow_natCast, one_div]
        rw [this]
        have : 0 ≤ z / 2 ^ 53 := by positivity
        linarith
      · rw [max_eq_left hc, zpow_sub₀ (by norm_num : (2 : ℚ) ≠ 0), zpow_natCast]
        have : (2 : ℚ) ^ bin_exp z.num.natAbs z.den / 2 ^ 53 ≤ z / 2 ^ 53 :=
          div_le_div_of_nonneg_right l1 (by positivity)
        have : (0 : ℚ) ≤ 1 / 2 ^ 1075 := by positivity
        linarith
    unfold f64
    rw [abs_le] at herr
    obtain ⟨h1, h2⟩ := herr
    have e3 : z * (1 - 1 / 2 ^ 53) = z - z / 2 ^ 53 := by ring
    have e4 : z * (1 + 1 / 2 ^ 53) = z + z / 2 ^ 53 := by ring
    rw [e3, e4]
    generalize (1 : ℚ) / 2 ^ 1075 = t at hb ⊢
    generalize z / 2 ^ 53 = w at hb ⊢
    constructor <;> linarith

/-- Interpolating in `double` between two copies of a positive `float` value `h`, with any
weight between 0 and 1, gives `h` up to a relative error far below the spacing of `float`. -/
theorem interp_equal (h frac : ℚ) (hh : 1 / 2 ^ 149 ≤ h) (hf0 : 0 ≤ frac) (hf1 : frac ≤ 1) :
    h * (1 - 1 / 2 ^ 27) ≤ f64 (f64 (h * f64 (1 - frac)) + f64 (h * frac))
      ∧ f64 (f64 (h * f64 (1 - frac)) + f64 (h * frac)) ≤ h * (1 + 1 / 2 ^ 26) := by
  have hpos : 0 < h := lt_of_lt_of_le (by positivity) hh
  have hg0 : 0 ≤ f64 (1 - frac) := rnd_nonneg _ _ _ (by linarith)
  have hA0 : 0 ≤ f64 (h * f64 (1 - frac)) := rnd_nonneg _ _ _ (by positivity)
  have hB0 : 0 ≤ f64 (h * frac) := rnd_nonneg _ _ _ (by positivity)
  have bg := f64_bounds (1 - frac) (by linarith)
  have bA := f64_bounds (h * f64 (1 - frac)) (by positivity)
  have bB := f64_bounds (h * frac) (by positivity)
  have bW := f64_bounds (f64 (h * f64 (1 - frac)) + f64 (h * frac)) (by linarith)
  have ht1 : (1 : ℚ) / 2 ^ 1075 ≤ h / 2 ^ 60 := by
    rw [le_div_iff₀ (by positivity)]
    calc (1 : ℚ) / 2 ^ 1075 * 2 ^ 60 ≤ 1 / 2 ^ 149 := by norm_num
      _ ≤ h := hh
  have ht2 : (1 : ℚ) / 2 ^ 1075 ≤ 1 / 2 ^ 60 := by norm_num
  have ht0 : (0 : ℚ) ≤ 1 / 2 ^ 1075 := by positivity
  generalize (1 : ℚ) / 2 ^ 1075 = t at bg bA bB bW ht0 ht1 ht2
  have hP0 : 0 ≤ h * (1 - frac) := mul_nonneg hpos.le (by linarith)
  have hF0 : 0 ≤ h * frac := mul_nonneg hpos.le hf0
  have hPF : h * (1 - frac) + h * frac = h := by ring
  have hht : h * t ≤ h / 2 ^ 60 := by
    have := mul_le_mul_of_nonneg_left ht2 hpos.le
    calc h * t ≤ h * (1 / 2 ^ 60) := this
      _ = h / 2 ^ 60 := by ring
  have hht0 : 0 ≤ h * t := mul_nonneg hpos.le ht0
  have g1 : h * f64 (1 - frac) ≤ h * (1 - frac) * (1 + 1 / 2 ^ 53) + h * t := by
    have := mul_le_mul_of_nonneg_left bg.2 hpos.le
    calc h * f64 (1 - frac) ≤ h * ((1 - frac) * (1 + 1 / 2 ^ 53) + t) := this
      _ = h * (1 - frac) * (1 + 1 / 2 ^ 53) + h * t := by ring
  have g2 : h * (1 - frac) * (1 - 1 / 2 ^ 53) - h * t ≤ h * f64 (1 - frac) := by
    have := mul_le_mul_of_nonneg_left bg.1 hpos.le
    calc h * (1 - frac) * (1 - 1 / 2 ^ 53) - h * t = h * ((1 - frac) * (1 - 1 / 2 ^ 53) - t) := by
          ring
      _ ≤ h * f64 (1 - frac) := this
  generalize f64 (f64 (h * f64 (1 - frac)) + f64 (h * frac)) = W at bW ⊢
  generalize f64 (h * f64 (1 - frac)) = A at bA bW hA0
  generalize f64 (h * frac) = B at bB bW hB0
  generalize h * f64 (1 - frac) = G at bA g1 g2
  generalize h * (1 - frac) = P at hP0 hPF g1 g2
  generalize h * frac = F at hF0 hPF bB
  generalize h * t = T at hht hht0 g1 g2
  obtain ⟨bA1, bA2⟩ := bA
  obtain ⟨bB1, bB2⟩ := bB
  obtain ⟨bW1, bW2⟩ := bW
  constructor
  · nlinarith
  · nlinarith

theorem interp_upper (x0 x1 frac : ℚ) (hx0 : f32 x0 = x0) (hx1 : f32 x1 = x1)
    (hf0 : 0 ≤ frac) (hf1 : frac ≤ 1) :
    f32 (f64 (f64 (x0 * f64 (1 - frac)) + f64 (x1 * frac))) ≤ max x0 x1 := by
  have hg0 : 0 ≤ f64 (1 - frac) := rnd_nonneg _ _ _ (by linarith)
  have hfix : f32 (max x0 x1) = max x0 x1 := by
    rcases le_total x0 x1 with h | h
    · rw [max_eq_right h]; exact hx1
    · rw [max_eq_left h]; exact hx0
  have hs : f64 (f64 (x0 * f64 (1 - frac)) + f64 (x1 * frac))
      ≤ f64 (f64 (max x0 x1 * f64 (1 - frac)) + f64 (max x0 x1 * frac)) := by
    apply f64_mono
    apply add_le_add
    · exact f64_mono _ _ (mul_le_mul_of_nonneg_right (le_max_left _ _) hg0)
    · exact f64_mono _ _ (mul_le_mul_of_nonneg_right (le_max_right _ _) hf0)
  generalize max x0 x1 = hi at hfix hs ⊢
  rcases lt_trichotomy hi 0 with hneg | hzero | hpos
  · -- both values negative: mirror the positive case
    have hfix' : f32 (-hi) = -hi := by rw [f32_neg, hfix]
    obtain ⟨hmin, _, hge⟩ := f32_snap (-hi) (by linarith) hfix'
    obtain ⟨hlo, _⟩ := interp_equal (-hi) frac hmin hf0 hf1
    have e : f64 (f64 (hi * f64 (1 - frac)) + f64 (hi * frac))
        = -f64 (f64 (-hi * f64 (1 - frac)) + f64 (-hi * frac)) := by
      rw [neg_mul, neg_mul, f64_neg, f64_neg, ← neg_add, f64_neg, neg_neg]
    have h1 := hge _ hlo
    have h2 := f32_mono _ _ hs
    rw [e, f32_neg] at h2
    linarith
  · subst hzero
    have h2 := f32_mono _ _ hs
    simp only [zero_mul, f64_zero, add_zero] at h2
    have : f32 0 = 0 := rnd_zero _ _
    rw [this] at h2
    exact h2
  · obtain ⟨hmin, hle, _⟩ := f32_snap hi hpos hfix
    obtain ⟨_, hup⟩ := interp_equal hi frac hmin hf0 hf1
    exact hle _ (le_trans hs hup)

/-- The value that the interpolation statement of `resample_to_16k` stores lies between the
two `float` values it interpolates, for every weight between 0 and 1. -/
theorem interp_between (x0 x1 frac : ℚ) (hx0 : f32 x0 = x0) (hx1 : f32 x1 = x1)
    (hf0 : 0 ≤ frac) (hf1 : frac ≤ 1) :
    min x0 x1 ≤ f32 (f64 (f64 (x0 * f64 (1 - frac)) + f64 (x1 * frac)))
      ∧ f32 (f64 (f64 (x0 * f64 (1 - frac)) + f64 (x1 * frac))) ≤ max x0 x1 := by
  refine ⟨?_, interp_upper x0 x1 frac hx0 hx1 hf0 hf1⟩
  have h := interp_upper (-x0) (-x1) frac (by rw [f32_neg, hx0]) (by rw [f32_neg, hx1]) hf0 hf1
  rw [neg_mul, neg_mul, f64_neg, f64_neg, ← neg_add, f64_neg, f32_neg, max_neg_neg] at h
  linarith

/-! ## Theorems: the interpolation loop of `resample_to_16k` -/

theorem resample_loop_get (input : List ℚ) (ratio : ℚ) : ∀ (count i : Nat) (out : List ℚ),
    resample_loop input ratio count i = some out →
    ∀ j, j < count → out[j]? = resample_sample input ratio (i + j) := by
  intro count
  induction count with
  | zero => intro i out _ j hj; omega
  | succ count ih =>
    intro i out h j hj
    unfold resample_loop at h
    cases hy : resample_sample input ratio i with
    | none => simp [hy] at h
    | some y =>
      cases hys : resample_loop input ratio count (i + 1) with
      | none => simp [hy, hys] at h
      | some ys =>
        simp only [hy, hys, Option.some.injEq] at h
        subst h
        cases j with
        | zero => simp [hy]
        | succ j =>
          rw [List.getElem?_cons_succ, ih (i + 1) ys hys j (by omega)]
          congr 1
          omega

theorem resample_loop_length (input : List ℚ) (ratio : ℚ) : ∀ (count i : Nat) (out : List ℚ),
    resample_loop input ratio count i = some out → out.length = count := by
  intro count
  induction count with
  | zero =>
    intro i out h
    simp [resample_loop] at h
    simp [← h]
  | succ count ih =>
    intro i out h
    unfold resample_loop at h
    cases hy : resample_sample input ratio i with
    | none => simp [hy] at h
    | some y =>
      cases hys : resample_loop input ratio count (i + 1) with
      | none => simp [hy, hys] at h
      | some ys =>
        simp only [hy, hys, Option.some.injEq] at h
        subst h
        simp [ih (i + 1) ys hys]

theorem resample_to_16k_loop (input : List ℚ) (R : Int) (out : List ℚ) (hne : R ≠ 16000)
    (h : resample_to_16k input R = some (true, out)) :
    ∃ size, to_size_t (f64 (f64 (input.length : ℚ) * f64 (16000 / (R : ℚ)))) = some size
      ∧ resample_loop input (f64 (16000 / (R : ℚ))) size 0 = some out := by
  have hw : ((WHISPER_SAMPLE_RATE : Int) : ℚ) = 16000 := by simp [WHISPER_SAMPLE_RATE]
  unfold resample_to_16k at h
  rw [if_neg (by simpa [WHISPER_SAMPLE_RATE] using hne)] at h
  split_ifs at h
  simp only [hw] at h
  cases hs : to_size_t (f64 (f64 (input.length : ℚ) * f64 (16000 / (R : ℚ)))) with
  | none => simp [hs] at h
  | some size =>
    refine ⟨size, rfl, ?_⟩
    simp only [hs] at h
    cases hl : resample_loop input (f64 (16000 / (R : ℚ))) size 0 with
    | none => simp [hl] at h
    | some o =>
      simp only [hl, Option.some.injEq, Prod.mk.injEq, true_and] at h
      rw [h]

/-- The source position that the loop computes for the output index `j`: it lies inside the
input and within a relative error of `2^-51` of `j * R / 16000`. -/
theorem resample_position (n : Nat) (R : Int) (j : Nat) (hn1 : 1 ≤ n) (hn : n < 2 ^ 31)
    (hR0 : 0 < R) (hR : R < 2 ^ 31)
    (hj : (j : ℚ) + 1 ≤ f64 ((n : ℚ) * f64 (16000 / (R : ℚ)))) :
    0 ≤ f64 ((j : ℚ) / f64 (16000 / (R : ℚ)))
      ∧ f64 ((j : ℚ) / f64 (16000 / (R : ℚ))) < n
      ∧ |f64 ((j : ℚ) / f64 (16000 / (R : ℚ))) - (j : ℚ) * R / 16000|
        ≤ (j : ℚ) * R / 16000 / 2 ^ 51 := by
  have hRq0 : (0 : ℚ) < (R : ℚ) := by exact_mod_cast hR0
  have hRq : (R : ℚ) ≤ 2 ^ 31 := by exact_mod_cast hR.le
  have hR1 : (1 : ℚ) ≤ (R : ℚ) := by exact_mod_cast hR0
  have hq1 : 1 / 2 ^ 18 ≤ (16000 : ℚ) / (R : ℚ) := by
    rw [le_div_iff₀ hRq0]
    calc (1 : ℚ) / 2 ^ 18 * R ≤ 1 / 2 ^ 18 * 2 ^ 31 := by
          apply mul_le_mul_of_nonneg_left hRq (by norm_num)
      _ ≤ 16000 := by norm_num
  have hq2 : (16000 : ℚ) / (R : ℚ) ≤ 16000 := by
    rw [div_le_iff₀ hRq0]
    nlinarith
  have hpq : (j : ℚ) * R / 16000 * ((16000 : ℚ) / (R : ℚ)) = j := by
    field_simp
  generalize (16000 : ℚ) / (R : ℚ) = q at hj hq1 hq2 hpq ⊢
  have hq0 : 0 < q := lt_of_lt_of_le (by norm_num) hq1
  have hr := f64_err q hq0 (tiny_le q (le_trans (by norm_num) hq1))
  generalize f64 q = ratio at hj hr ⊢
  have hnq1 : (1 : ℚ) ≤ (n : ℚ) := by exact_mod_cast hn1
  have hnq : (n : ℚ) ≤ 2 ^ 31 := by exact_mod_cast hn.le
  have hra0 : 1 / 2 ^ 19 ≤ ratio := by
    rw [abs_le] at hr
    have : q / 2 ^ 53 ≤ q / 2 := div_le_div_of_nonneg_left hq0.le (by norm_num) (by norm_num)
    have : (1 : ℚ) / 2 ^ 19 = (1 / 2 ^ 18) / 2 := by norm_num
    linarith [hr.1]
  have hr0 : 0 < ratio := lt_of_lt_of_le (by norm_num) hra0
  have hz : 1 / 2 ^ 20 ≤ (n : ℚ) * ratio := by
    calc (1 : ℚ) / 2 ^ 20 ≤ 1 / 2 ^ 19 := by norm_num
      _ ≤ ratio := hra0
      _ = 1 * ratio := (one_mul _).symm
      _ ≤ (n : ℚ) * ratio := mul_le_mul_of_nonneg_right hnq1 hr0.le
  have hp := f64_err ((n : ℚ) * ratio) (lt_of_lt_of_le (by norm_num) hz) (tiny_le _ hz)
  generalize f64 ((n : ℚ) * ratio) = prod at hj hp
  obtain ⟨hra, hrb, -, -, hprodle⟩ :=
    resample_numeric (n : ℚ) q ratio prod hnq1 hnq hq1 hq2 hr hp
  have hsrc : |f64 ((j : ℚ) / ratio) - (j : ℚ) / ratio| ≤ (j : ℚ) / ratio / 2 ^ 53 := by
    rcases Nat.eq_zero_or_pos j with hj0 | hjpos
    · subst hj0; simp [f64_zero]
    · have hj1' : (1 : ℚ) ≤ (j : ℚ) := by exact_mod_cast hjpos
      have hy : 1 / 2 ^ 20 ≤ (j : ℚ) / ratio := by
        rw [le_div_iff₀ hr0]
        calc (1 : ℚ) / 2 ^ 20 * ratio ≤ 1 / 2 ^ 20 * 16001 :=
              mul_le_mul_of_nonneg_left hrb (by norm_num)
          _ ≤ 1 := by norm_num
          _ ≤ j := hj1'
      exact f64_err _ (lt_of_lt_of_le (by norm_num) hy) (tiny_le _ hy)
  obtain ⟨hs0, hsn⟩ := resample_index (n : ℚ) ratio prod (j : ℚ)
    (f64 ((j : ℚ) / ratio)) hnq hra hrb hprodle (by positivity) hj hsrc
  refine ⟨hs0, hsn, ?_⟩
  -- the position against `j * R / 16000`
  have hj0 : (0 : ℚ) ≤ j := by positivity
  have hp0 : 0 ≤ (j : ℚ) * R / 16000 := by positivity
  rw [abs_le] at hr hsrc ⊢
  have hy1 : (j : ℚ) / ratio ≤ (j : ℚ) * R / 16000 * (1 + 1 / 2 ^ 52) := by
    rw [div_le_iff₀ hr0]
    have h1 : q * (1 - 1 / 2 ^ 53) ≤ ratio := by linarith [hr.1]
    calc (j : ℚ) = (j : ℚ) * R / 16000 * q := hpq.symm
      _ ≤ (j : ℚ) * R / 16000 * (q * ((1 + 1 / 2 ^ 52) * (1 - 1 / 2 ^ 53))) := by
          apply mul_le_mul_of_nonneg_left _ hp0
          have : (1 : ℚ) ≤ (1 + 1 / 2 ^ 52) * (1 - 1 / 2 ^ 53) := by norm_num
          nlinarith
      _ = (j : ℚ) * R / 16000 * (1 + 1 / 2 ^ 52) * (q * (1 - 1 / 2 ^ 53)) := by ring
      _ ≤ (j : ℚ) * R / 16000 * (1 + 1 / 2 ^ 52) * ratio :=
          mul_le_mul_of_nonneg_left h1 (by positivity)
  have hy2 : (j : ℚ) * R / 16000 * (1 - 1 / 2 ^ 52) ≤ (j : ℚ) / ratio := by
    rw [le_div_iff₀ hr0]
    have h1 : ratio ≤ q * (1 + 1 / 2 ^ 53) := by linarith [hr.2]
    calc (j : ℚ) * R / 16000 * (1 - 1 / 2 ^ 52) * ratio
        ≤ (j : ℚ) * R / 16000 * (1 - 1 / 2 ^ 52) * (q * (1 + 1 / 2 ^ 53)) :=
          mul_le_mul_of_nonneg_left h1 (mul_nonneg hp0 (by norm_num))
      _ = (j : ℚ) * R / 16000 * q * ((1 - 1 / 2 ^ 52) * (1 + 1 / 2 ^ 53)) := by ring
      _ ≤ (j : ℚ) * R / 16000 * q * 1 := by
          apply mul_le_mul_of_nonneg_left _ (by rw [hpq]; exact hj0)
          norm_num
      _ = j := by rw [mul_one, hpq]
  have hy0 : 0 ≤ (j : ℚ) / ratio := div_nonneg hj0 hr0.le
  generalize (j : ℚ) / ratio = y at hsrc hy1 hy2 hy0 ⊢
  generalize f64 y = s at hsrc ⊢
  generalize (j : ℚ) * R / 16000 = pp at hp0 hy1 hy2 ⊢
  obtain ⟨hs1, hs2⟩ := hsrc
  constructor <;> linarith

theorem f64_one : f64 1 = 1 := by
  have := f64_nat 1 (by norm_num)
  simpa using this

/-- The body of the interpolation loop at an index whose source position lies inside the
input: the two indices, the weight and the value stored. -/
theorem resample_sample_eq (input : List ℚ) (ratio : ℚ) (j : Nat) (hj : j < 2 ^ 53)
    (hs0 : 0 ≤ f64 ((j : ℚ) / ratio)) (hsn : f64 ((j : ℚ) / ratio) < input.length)
    (hlen : input.length < 2 ^ 31) :
    ∃ (idx0 : Nat) (x0 x1 : ℚ),
      (idx0 : Int) = ⌊f64 ((j : ℚ) / ratio)⌋
        ∧ idx0 < input.length
        ∧ input[idx0]? = some x0
        ∧ input[min (idx0 + 1) (input.length - 1)]? = some x1
        ∧ 0 ≤ f64 (f64 ((j : ℚ) / ratio) - idx0)
        ∧ f64 (f64 ((j : ℚ) / ratio) - idx0) ≤ 1
        ∧ resample_sample input ratio j
          = some (f32 (f64 (f64 (x0 * f64 (1 - f64 (f64 ((j : ℚ) / ratio) - idx0)))
              + f64 (x1 * f64 (f64 ((j : ℚ) / ratio) - idx0))))) := by
  have hfj : f64 (j : ℚ) = j := f64_nat j hj
  generalize hsrc : f64 ((j : ℚ) / ratio) = src at hs0 hsn ⊢
  have hfl0 : (0 : Int) ≤ ⌊src⌋ := Int.floor_nonneg.mpr hs0
  have hfl : ⌊src⌋ < (input.length : Int) := by
    rw [Int.floor_lt]; exact_mod_cast hsn
  have hcast : ((⌊src⌋.toNat : Nat) : Int) = ⌊src⌋ := Int.toNat_of_nonneg hfl0
  have hidx : ⌊src⌋.toNat < input.length := by omega
  have hcastq : ((⌊src⌋.toNat : Nat) : ℚ) = ((⌊src⌋ : Int) : ℚ) := by exact_mod_cast hcast
  have hsz := to_size_t_of_nonneg src hs0
    (lt_of_lt_of_le hsn (by
      have : (input.length : ℚ) ≤ 2 ^ 31 := by exact_mod_cast hlen.le
      linarith [show (2 : ℚ) ^ 31 ≤ 2 ^ 64 by norm_num]))
  have e1 : (⌊src⌋.toNat + 1) % 2 ^ 64 = ⌊src⌋.toNat + 1 := Nat.mod_eq_of_lt (by omega)
  have e2 : (input.length + 2 ^ 64 - 1) % 2 ^ 64 = input.length - 1 := by
    have : input.length + 2 ^ 64 - 1 = (input.length - 1) + 2 ^ 64 := by omega
    rw [this, Nat.add_mod_right]
    exact Nat.mod_eq_of_lt (by omega)
  have h1 : min (⌊src⌋.toNat + 1) (input.length - 1) < input.length := by omega
  have hfi : f64 ((⌊src⌋.toNat : Nat) : ℚ) = ((⌊src⌋.toNat : Nat) : ℚ) :=
    f64_nat _ (by omega)
  have hfrac0 : 0 ≤ src - ((⌊src⌋.toNat : Nat) : ℚ) := by
    rw [hcastq]
    linarith [Int.floor_le src]
  have hfrac1 : src - ((⌊src⌋.toNat : Nat) : ℚ) ≤ 1 := by
    rw [hcastq]
    linarith [Int.lt_floor_add_one src]
  refine ⟨⌊src⌋.toNat, input[⌊src⌋.toNat], input[min (⌊src⌋.toNat + 1) (input.length - 1)],
    hcast, hidx, List.getElem?_eq_getElem hidx, List.getElem?_eq_getElem h1, ?_, ?_, ?_⟩
  · have := f64_mono _ _ hfrac0
    rwa [f64_zero] at this
  · have := f64_mono _ _ hfrac1
    rwa [f64_one] at this
  · unfold resample_sample
    simp only [hfj, hsrc, hsz, e1, e2, hfi, List.getElem?_eq_getElem hidx,
      List.getElem?_eq_getElem h1]

/-- The index of the lower sample against the exact position `i * R / 16000`: the floor of
the computed position is the floor of the exact one, or one less. -/
theorem floor_near (k : Int) (s : ℚ) (hk : 0 ≤ k) (hs : |s - (k : ℚ) / 16000| ≤ (k : ℚ) / 16000 / 2 ^ 51)
    (hlt : s < 2 ^ 31) :
    ⌊(k : ℚ) / 16000⌋ - 1 ≤ ⌊s⌋ ∧ ⌊s⌋ ≤ ⌊(k : ℚ) / 16000⌋ := by
  have hkq : (0 : ℚ) ≤ k := by exact_mod_cast hk
  rw [abs_le] at hs
  obtain ⟨h1, h2⟩ := hs
  have hp0 : 0 ≤ (k : ℚ) / 16000 := by positivity
  have hp32 : (k : ℚ) / 16000 < 2 ^ 32 := by
    by_contra hc
    push_neg at hc
    have : (k : ℚ) / 16000 / 2 ^ 51 ≤ (k : ℚ) / 16000 / 2 := by
      apply div_le_div_of_nonneg_left hp0 (by norm_num) (by norm_num)
    linarith [show (2 : ℚ) ^ 32 = 2 * 2 ^ 31 by norm_num]
  have hsmall : (k : ℚ) / 16000 / 2 ^ 51 < 1 / 16000 := by
    rw [div_lt_iff₀ (by norm_num)]
    linarith [show (1 : ℚ) / 16000 * 2 ^ 51 > 2 ^ 32 by norm_num]
  have hm1 := Int.floor_le ((k : ℚ) / 16000)
  have hm2 := Int.lt_floor_add_one ((k : ℚ) / 16000)
  set m : Int := ⌊(k : ℚ) / 16000⌋ with hm
  have hgrid : (k : ℚ) / 16000 ≤ (m : ℚ) + 1 - 1 / 16000 := by
    have h3 : (k : ℚ) < 16000 * ((m : ℚ) + 1) := by
      rw [div_lt_iff₀ (by norm_num)] at hm2
      linarith
    have h4 : k < 16000 * (m + 1) := by exact_mod_cast h3
    have h5 : k ≤ 16000 * (m + 1) - 1 := by omega
    have h6 : (k : ℚ) ≤ 16000 * ((m : ℚ) + 1) - 1 := by exact_mod_cast h5
    rw [div_le_iff₀ (by norm_num)]
    linarith
  constructor
  · have : ((m - 1 : Int) : ℚ) ≤ s := by
      push_cast
      have : (k : ℚ) / 16000 / 2 ^ 51 < 1 := by linarith [show (1 : ℚ) / 16000 < 1 by norm_num]
      linarith
    exact Int.le_floor.2 this
  · have : s < ((m + 1 : Int) : ℚ) := by
      push_cast
      linarith
    have := Int.floor_lt.2 this
    omega

/-! ## Claims about the interpolation -/

/-- C19, counterexample: two inputs on which the stated formula fails.  At 8000 Hz the sample
between `1` and `1 + 2^-23` is stored as `1`, not as their mean; at 5800 Hz the position
computed for output index 80 is just below 29, so the loop interpolates from index 28 and
stores `2^-48`, while `input[floor(80 * 5800 / 16000)] = input[29]` and its successor are 0. -/
theorem C19_formula_not_exact :
    (∃ out, resample_to_16k [1, 8388609 / 8388608] 8000 = some (true, out)
        ∧ out[1]? = some 1
        ∧ (1 : ℚ) ≠ 1 * (1 - 1 / 2) + 8388609 / 8388608 * (1 / 2))
      ∧ (∃ out, resample_to_16k (List.replicate 28 0 ++ [1, 0]) 5800 = some (true, out)
        ∧ ⌊((80 : ℚ) * 5800 / 16000)⌋ = 29
        ∧ (List.replicate 28 (0 : ℚ) ++ [1, 0])[29]? = some 0
        ∧ out[80]? = some (1 / 2 ^ 48)) := by
  constructor
  · obtain ⟨out, h1, h2, -⟩ := resample_to_16k_defined [1, 8388609 / 8388608] 8000
      (by norm_num) (by norm_num) (by norm_num) (by norm_num)
    obtain ⟨size, hs, hl⟩ := resample_to_16k_loop _ 8000 out (by norm_num) h1
    have hlen := resample_loop_length _ _ _ _ _ hl
    have hsize : size = 4 := by
      have e : to_size_t (f64 (f64 (([1, 8388609 / 8388608] : List ℚ).length : ℚ)
          * f64 (16000 / ((8000 : Int) : ℚ)))) = some 4 := by decide!
      rw [e] at hs
      exact (Option.some.inj hs).symm
    subst hsize
    refine ⟨out, h1, ?_, by norm_num⟩
    rw [resample_loop_get _ _ _ _ _ hl 1 (by norm_num)]
    decide!
  · obtain ⟨out, h1, h2, -⟩ := resample_to_16k_defined (List.replicate 28 0 ++ [1, 0]) 5800
      (by simp) (by norm_num) (by norm_num) (by norm_num)
    obtain ⟨size, hs, hl⟩ := resample_to_16k_loop _ 5800 out (by norm_num) h1
    have hlen := resample_loop_length _ _ _ _ _ hl
    have hsize : size = 82 := by
      have e : to_size_t (f64 (f64 ((List.replicate 28 (0 : ℚ) ++ [1, 0]).length : ℚ)
          * f64 (16000 / ((5800 : Int) : ℚ)))) = some 82 := by decide!
      rw [e] at hs
      exact (Option.some.inj hs).symm
    subst hsize
    refine ⟨out, h1, ?_, by decide, ?_⟩
    · have : ((80 : ℚ) * 5800 / 16000) = ((29 : Int) : ℚ) := by norm_num
      rw [this, Int.floor_intCast]
    · rw [resample_loop_get _ _ _ _ _ hl 80 (by norm_num)]
      decide!

/-- C19, as amended: resample interpolation in the arithmetic of the source.  For an input of
`n < 2^31` `float` samples and a source rate `0 < R < 2^31` other than 16000,
`resample_to_16k` succeeds, and for every output index `i` below the output length, with
`p = i * R / 16000`: the position `src` that the loop computes (the `double` quotient of `i` by
the `double` ratio `16000 / R`) is within `p / 2^51` of `p`; `idx0 = floor(src)` is
`floor(p)` or `floor(p) - 1`; `idx0` and `idx1 = min(idx0 + 1, n - 1)` are valid input
indices; the weight `f = src - idx0` rounded to `double` lies between 0 and 1; `output[i]` is
`input[idx0] * (1 - f) + input[idx1] * f` with every operation rounded to `double` and the
result rounded to `float`; and `output[i]` lies between `input[idx0]` and `input[idx1]`. -/
theorem C19_resample_interpolation (input : List ℚ) (R : Int)
    (hn : input.length < 2 ^ 31) (hR0 : 0 < R) (hR : R < 2 ^ 31) (hne : R ≠ 16000)
    (hfl : ∀ x ∈ input, f32 x = x) :
    ∃ out, resample_to_16k input R = some (true, out)
      ∧ ∀ i, i < out.length →
        ∃ (src frac : ℚ) (idx0 idx1 : Nat) (x0 x1 y : ℚ),
          src = f64 ((i : ℚ) / f64 (16000 / (R : ℚ)))
            ∧ |src - (i : ℚ) * R / 16000| ≤ (i : ℚ) * R / 16000 / 2 ^ 51
            ∧ (idx0 : Int) = ⌊src⌋
            ∧ ⌊(i : ℚ) * R / 16000⌋ - 1 ≤ (idx0 : Int)
            ∧ (idx0 : Int) ≤ ⌊(i : ℚ) * R / 16000⌋
            ∧ idx1 = min (idx0 + 1) (input.length - 1)
            ∧ idx0 < input.length ∧ idx0 ≤ input.length - 1 ∧ idx1 ≤ input.length - 1
            ∧ input[idx0]? = some x0 ∧ input[idx1]? = some x1 ∧ out[i]? = some y
            ∧ frac = f64 (src - idx0) ∧ 0 ≤ frac ∧ frac ≤ 1
            ∧ y = f32 (f64 (f64 (x0 * f64 (1 - frac)) + f64 (x1 * frac)))
            ∧ min x0 x1 ≤ y ∧ y ≤ max x0 x1 := by
  obtain ⟨out, h1, h2, -⟩ := resample_to_16k_defined input R hn hR0 hR hne
  refine ⟨out, h1, ?_⟩
  intro i hi
  obtain ⟨size, hs, hl⟩ := resample_to_16k_loop input R out hne h1
  have hlen := resample_loop_length _ _ _ _ _ hl
  have hfn : f64 (input.length : ℚ) = input.length := f64_nat _ (by omega)
  rw [hfn] at h2
  have hn1 : 1 ≤ input.length := by
    rcases Nat.eq_zero_or_pos input.length with h0 | h0
    · exfalso
      have h3 : (out.length : Int) = 0 := by
        rw [h2, h0]
        simp [f64_zero]
      omega
    · exact h0
  have hiprod : (i : ℚ) + 1 ≤ f64 ((input.length : ℚ) * f64 (16000 / (R : ℚ))) := by
    have h3 : ((i : Int) + 1 : Int) ≤ ⌊f64 ((input.length : ℚ) * f64 (16000 / (R : ℚ)))⌋ := by
      omega
    have h4 := Int.le_floor.1 h3
    push_cast at h4
    exact h4
  obtain ⟨hs0, hsn, hperr⟩ := resample_position input.length R i hn1 hn hR0 hR hiprod
  have hi53 : i < 2 ^ 53 := by
    have h5 : (i : ℚ) * R / 16000 / 2 ^ 51 ≤ (i : ℚ) * R / 16000 / 2 := by
      apply div_le_div_of_nonneg_left (by positivity) (by norm_num) (by norm_num)
    have hRq : (1 : ℚ) ≤ R := by exact_mod_cast hR0
    have hnq : (input.length : ℚ) ≤ 2 ^ 31 := by exact_mod_cast hn.le
    rw [abs_le] at hperr
    have h6 : (i : ℚ) * R / 16000 ≤ 2 ^ 32 := by linarith [hperr.1]
    have h7 : (i : ℚ) ≤ (i : ℚ) * R := by
      have : (0 : ℚ) ≤ i := by positivity
      nlinarith
    have h8 : (i : ℚ) < 2 ^ 53 := by
      rw [div_le_iff₀ (by norm_num)] at h6
      linarith [show (2 : ℚ) ^ 32 * 16000 < 2 ^ 53 by norm_num]
    exact_mod_cast h8
  obtain ⟨idx0, x0, x1, e0, hidx, g0, g1, f0, f1, hy⟩ :=
    resample_sample_eq input (f64 (16000 / (R : ℚ))) i hi53 hs0 hsn hn
  have hfloor := floor_near ((i : Int) * R) (f64 ((i : ℚ) / f64 (16000 / (R : ℚ))))
    (by positivity) (by push_cast; exact hperr)
    (lt_of_lt_of_le hsn (by exact_mod_cast hn.le))
  push_cast at hfloor
  have hget := resample_loop_get _ _ _ _ _ hl i (by omega)
  rw [Nat.zero_add, hy] at hget
  have hx0 : f32 x0 = x0 := hfl x0 (List.getElem?_mem g0)
  have hx1 : f32 x1 = x1 := hfl x1 (List.getElem?_mem g1)
  obtain ⟨b1, b2⟩ := interp_between x0 x1 _ hx0 hx1 f0 f1
  refine ⟨_, _, idx0, _, x0, x1, _, rfl, hperr, e0, ?_, ?_, rfl, hidx, by omega, by omega, g0,
    g1, hget, rfl, f0, f1, rfl, b1, b2⟩
  · rw [e0]; exact hfloor.1
  · rw [e0]; exact hfloor.2

/-- C19, witness: two `float` samples at 8000 Hz. -/
theorem C19_resample_interpolation_witness :
    (([1, 8388609 / 8388608] : List ℚ).length < 2 ^ 31 ∧ (0 : Int) < 8000
        ∧ (8000 : Int) < 2 ^ 31 ∧ (8000 : Int) ≠ 16000
        ∧ ∀ x ∈ ([1, 8388609 / 8388608] : List ℚ), f32 x = x)
      ∧ ∃ out, resample_to_16k [1, 8388609 / 8388608] 8000 = some (true, out)
        ∧ ∀ i, i < out.length →
          ∃ (src frac : ℚ) (idx0 idx1 : Nat) (x0 x1 y : ℚ),
            src = f64 ((i : ℚ) / f64 (16000 / ((8000 : Int) : ℚ)))
              ∧ |src - (i : ℚ) * (8000 : Int) / 16000| ≤ (i : ℚ) * (8000 : Int) / 16000 / 2 ^ 51
              ∧ (idx0 : Int) = ⌊src⌋
              ∧ ⌊(i : ℚ) * (8000 : Int) / 16000⌋ - 1 ≤ (idx0 : Int)
              ∧ (idx0 : Int) ≤ ⌊(i : ℚ) * (8000 : Int) / 16000⌋
              ∧ idx1 = min (idx0 + 1) (([1, 8388609 / 8388608] : List ℚ).length - 1)
              ∧ idx0 < ([1, 8388609 / 8388608] : List ℚ).length
              ∧ idx0 ≤ ([1, 8388609 / 8388608] : List ℚ).length - 1
              ∧ idx1 ≤ ([1, 8388609 / 8388608] : List ℚ).length - 1
              ∧ ([1, 8388609 / 8388608] : List ℚ)[idx0]? = some x0
              ∧ ([1, 8388609 / 8388608] : List ℚ)[idx1]? = some x1 ∧ out[i]? = some y
              ∧ frac = f64 (src - idx0) ∧ 0 ≤ frac ∧ frac ≤ 1
              ∧ y = f32 (f64 (f64 (x0 * f64 (1 - frac)) + f64 (x1 * frac)))
              ∧ min x0 x1 ≤ y ∧ y ≤ max x0 x1 :=
  have hfl : ∀ x ∈ ([1, 8388609 / 8388608] : List ℚ), f32 x = x := by
    intro x hx
    simp only [List.mem_cons, List.mem_singleton, List.not_mem_nil, or_false] at hx
    rcases hx with rfl | rfl <;> decide!
  ⟨⟨by decide, by decide, by decide, by decide, hfl⟩,
    C19_resample_interpolation [1, 8388609 / 8388608] 8000 (by decide) (by decide) (by decide)
      (by decide) hfl⟩

/-! ## Claims about streaming transcription -/

/-- C20, counterexample: an engine run whose one segment has start and end time `10 ^ 18`.
The final result carries `10 ^ 19 - 2 ^ 64` for both, the value that the multiplication by 10
leaves in `int64_t`, and not `10 * 10 ^ 18`. -/
theorem C20_segment_time_wraps :
    late_stt_ready.g_ctx = some 0
      ∧ (late_whisper.full 0 late_stt_ready.g_params [0, 1]).1 = 0
      ∧ late_whisper.segments (late_whisper.full 0 late_stt_ready.g_params [0, 1]).2
          = [⟨some "late", 1000000000000000000, 1000000000000000000⟩]
      ∧ (nativeTranscribeStream late_whisper none late_stt_ready [0, 1]).2
          = [SttEvent.whisper_full 0 late_stt_ready.g_params [0, 1],
              SttEvent.onPartialResult "late",
              SttEvent.onFinalResult
                ⟨"late", [⟨"late", -8446744073709551616, -8446744073709551616⟩], "en", 0⟩]
      ∧ (-8446744073709551616 : Int) ≠ 10 * 1000000000000000000 := by
  refine ⟨rfl, rfl, rfl, ?_, by decide⟩
  decide

/-- C20, as amended: streaming transcription without cancellation.  On a Ready session, for a
buffer of `n` samples (`n < 2^31`, the range of `jsize`) and a successful engine run that
reports the segments `(text_k, t0_k, t1_k)` with every `10 * t0_k` and `10 * t1_k` in the range
of `int64_t`, with no cancel call, `nativeTranscribeStream` calls `onPartialResult` once per
segment with the concatenation of the texts up to that segment, then `onFinalResult` once with
the concatenation of all texts, the segments in engine order with times `10 * t0_k` and
`10 * t1_k`, the configured language and the duration `floor(n * 1000 / 16000)`; that duration
is 1000 for `n = 16000`. -/
theorem C20_stream_transcription {Ctx : Type} (W : Whisper Ctx) (st : SttState Ctx) (ctx : Ctx)
    (samples : List ℚ) (segs : List (String × Int × Int))
    (hready : st.g_ctx = some ctx)
    (hrun : (W.full ctx st.g_params samples).1 = 0)
    (hsegs : W.segments (W.full ctx st.g_params samples).2
      = segs.map (fun s => (⟨some s.1, s.2.1, s.2.2⟩ : WhisperSegment)))
    (hn : samples.length < 2 ^ 31)
    (hfit : ∀ s ∈ segs, (-9223372036854775808 ≤ 10 * s.2.1 ∧ 10 * s.2.1 < 9223372036854775808)
      ∧ (-9223372036854775808 ≤ 10 * s.2.2 ∧ 10 * s.2.2 < 9223372036854775808)) :
    nativeTranscribeStream W none st samples
        = ({ st with g_cancel_requested := false, g_ctx := some (W.full ctx st.g_params samples).2 },
          SttEvent.whisper_full ctx st.g_params samples
            :: ((List.range segs.length).map
                (fun k => SttEvent.onPartialResult
                  (String.join ((segs.take (k + 1)).map (fun s => s.1))))
              ++ [SttEvent.onFinalResult
                  ⟨String.join (segs.map (fun s => s.1)),
                    segs.map (fun s => (⟨s.1, 10 * s.2.1, 10 * s.2.2⟩ : Segment)),
                    st.g_language,
                    ((samples.length * 1000 / 16000 : Nat) : Int)⟩]))
      ∧ duration_ms 16000 = 1000 := by
  refine ⟨?_, rfl⟩
  have h := @stream_segments_none Ctx st.g_language samples.length segs "" [] 0
  have hmap : segs.map (fun s =>
        (⟨s.1, wrap_int 64 (s.2.1 * 10), wrap_int 64 (s.2.2 * 10)⟩ : Segment))
      = segs.map (fun s => (⟨s.1, 10 * s.2.1, 10 * s.2.2⟩ : Segment)) := by
    apply List.map_congr_left
    intro s hs
    obtain ⟨⟨a1, a2⟩, b1, b2⟩ := hfit s hs
    rw [mul_comm s.2.1 10, mul_comm s.2.2 10, wrap_int_64 _ a1 a2, wrap_int_64 _ b1 b2]
  rw [hmap] at h
  simp only [String.empty_append, List.nil_append] at h
  simp only [nativeTranscribeStream, hready, hrun, hsegs, h, duration_ms_eq _ hn,
    Option.isSome_none, ne_eq, not_true_eq_false, if_false]

/-- C20, witness: the sample engine reports the one segment ("hello", 0, 50). -/
theorem C20_stream_transcription_witness :
    (sample_stt_ready.g_ctx = some 0
        ∧ (sample_whisper.full 0 sample_stt_ready.g_params [0, 1]).1 = 0
        ∧ sample_whisper.segments (sample_whisper.full 0 sample_stt_ready.g_params [0, 1]).2
          = [("hello", (0 : Int), (50 : Int))].map
            (fun s => (⟨some s.1, s.2.1, s.2.2⟩ : WhisperSegment))
        ∧ ([0, 1] : List ℚ).length < 2 ^ 31
        ∧ ∀ s ∈ [("hello", (0 : Int), (50 : Int))],
            (-9223372036854775808 ≤ 10 * s.2.1 ∧ 10 * s.2.1 < 9223372036854775808)
              ∧ (-9223372036854775808 ≤ 10 * s.2.2 ∧ 10 * s.2.2 < 9223372036854775808))
      ∧ (nativeTranscribeStream sample_whisper none sample_stt_ready [0, 1]
          = ({ sample_stt_ready with
                g_cancel_requested := false
                g_ctx := some (sample_whisper.full 0 sample_stt_ready.g_params [0, 1]).2 },
            SttEvent.whisper_full 0 sample_stt_ready.g_params [0, 1]
              :: ((List.range [("hello", (0 : Int), (50 : Int))].length).map
                  (fun k => SttEvent.onPartialResult
                    (String.join (([("hello", (0 : Int), (50 : Int))].take (k + 1)).map
                      (fun s => s.1))))
                ++ [SttEvent.onFinalResult
                    ⟨String.join ([("hello", (0 : Int), (50 : Int))].map (fun s => s.1)),
                      [("hello", (0 : Int), (50 : Int))].map
                        (fun s => (⟨s.1, 10 * s.2.1, 10 * s.2.2⟩ : Segment)),
                      sample_stt_ready.g_language,
                      ((([0, 1] : List ℚ).length * 1000 / 16000 : Nat) : Int)⟩]))
        ∧ duration_ms 16000 = 1000) :=
  have hfit : ∀ s ∈ [("hello", (0 : Int), (50 : Int))],
      (-9223372036854775808 ≤ 10 * s.2.1 ∧ 10 * s.2.1 < 9223372036854775808)
        ∧ (-9223372036854775808 ≤ 10 * s.2.2 ∧ 10 * s.2.2 < 9223372036854775808) := by
    intro s hs
    simp only [List.mem_singleton] at hs
    subst hs
    decide
  ⟨⟨rfl, rfl, rfl, by decide, hfit⟩,
    C20_stream_transcription sample_whisper sample_stt_ready 0 [0, 1]
      [("hello", 0, 50)] rfl rfl rfl (by decide) hfit⟩

end SpeechKmp
